import Mathlib

/-!
Verification of the CCDSALG MCO-2 graph engine.

Shallow embedding of the C sources:
* `graph.c` (FINAL): sorted vertex / adjacency lists, add-vertex, add-edge,
  degree / neighbor / weight queries;
* `heap.c` (FINAL and `data_structures` variants): binary min-heap with
  parallel key / payload arrays, sift-up / sift-down, push, extract-min,
  decrease-key, and the capacity-doubling `grow` with its `realloc` calls;
* `stack.c`, `queue.c`: scratch LIFO / FIFO workspaces;
* `bfs.c`, `dfs.c`, `path_check.c` (FINAL): traversals and connectivity;
* `shortest_Path.c` (FINAL) and `shortest_path.c` (algorithms): Dijkstra;
* `mst.c` (FINAL) and `mst.c` (algorithms): Prim.

Vertex names are embedded as `List Char` (C `char` arrays compared with
`strcmp`; the lexicographic order on `List Char` agrees with `strcmp` on the
validated ASCII charset).  C `int` is embedded as `Int` (all arithmetic in
these sources stays far below 2^31, so no wraparound is modelled).  Loops are
embedded as fuel-indexed structural recursions; each entry point supplies a
fuel that is proved sufficient, so the embedded functions compute the same
final states as the C loops.
-/

namespace MCO2

abbrev Name := List Char

/-- Charset test of `is_valid_name` in graph.c: `isalnum` (ASCII) or underscore. -/

def validChar (c : Char) : Bool := c.isAlphanum || c = '_'

/-- Embeds `is_valid_name` (graph.c): non-null, length 1..256, restricted charset. -/

def is_valid_name (name : Name) : Bool :=
  name.length != 0 && name.length ≤ 256 && name.all validChar

/-- MIN_WEIGHT constant of graph.c. -/

def MIN_WEIGHT : Int := 1

/-- MAX_WEIGHT constant of graph.c. -/

def MAX_WEIGHT : Int := 100

/-- Embeds `AdjNode` of graph.c: destination vertex (identified by its
immutable name, standing for the C pointer) and edge weight. -/

structure AdjNode where
  dst : Name
  weight : Int
  deriving DecidableEq, Repr

/-- Embeds `Vertex` of graph.c: name plus sorted adjacency list. -/

structure Vertex where
  name : Name
  adj : List AdjNode
  deriving DecidableEq, Repr

/-- Embeds `struct Graph` of graph.c. -/

structure Graph where
  v_head : List Vertex
  v_count : Nat
  e_count : Nat
  deriving DecidableEq, Repr

/-- Embeds `graph_create` (graph.c): calloc yields the empty graph. -/

def graph_create : Graph := ⟨[], 0, 0⟩

/-- Embeds `vertex_create` (graph.c): `strncpy` copies at most 256 chars;
the adjacency list starts empty. -/

def vertex_create (name : Name) : Vertex := ⟨name.take 256, []⟩

/-- Embeds `vertex_list_insert` (graph.c): insert before the first
lexicographically greater-or-equal node. -/

def vertex_list_insert : List Vertex → Vertex → List Vertex
  | [], v_new => [v_new]
  | x :: xs, v_new =>
    if x.name < v_new.name then x :: vertex_list_insert xs v_new
    else v_new :: x :: xs

/-- Embeds `adj_find` (graph.c): scan while the destination name is smaller,
then test for equality. -/

def adj_find : List AdjNode → Name → Option AdjNode
  | [], _ => none
  | a :: rest, dst_name =>
    if a.dst < dst_name then adj_find rest dst_name
    else if a.dst = dst_name then some a
    else none

/-- Embeds `adj_list_insert` (graph.c): advance while smaller; on an equal
destination overwrite the weight, otherwise insert the new node. -/

def adj_list_insert : List AdjNode → AdjNode → List AdjNode
  | [], a_new => [a_new]
  | x :: xs, a_new =>
    if x.dst < a_new.dst then x :: adj_list_insert xs a_new
    else if x.dst = a_new.dst then ⟨x.dst, a_new.weight⟩ :: xs
    else a_new :: x :: xs

/-- Embeds `graph_find_vertex` (graph.c): scan while smaller, then test
equality. -/

def graph_find_vertex (g : Graph) (name : Name) : Option Vertex :=
  go g.v_head name
where
  /-- Scanning loop of `graph_find_vertex`. -/
  go : List Vertex → Name → Option Vertex
  | [], _ => none
  | v :: rest, n =>
    if v.name < n then go rest n
    else if v.name = n then some v
    else none

/-- Embeds `graph_add_vertex` (graph.c).  C reports success with `bool` and
mutates in place; the embedding returns `some` of the new graph on success
and `none` on failure. -/

def graph_add_vertex (g : Graph) (name : Name) : Option Graph :=
  if ¬ is_valid_name name then none
  else if (graph_find_vertex g name).isSome then none
  else some { g with
    v_head := vertex_list_insert g.v_head (vertex_create name),
    v_count := g.v_count + 1 }

/-- Applies an adjacency-list mutation to the vertex that
`graph_find_vertex`'s scan stops at, mirroring that the C code mutates
through the found pointer. -/

def update_vertex : List Vertex → Name → (List AdjNode → List AdjNode) → List Vertex
  | [], _, _ => []
  | x :: xs, n, f =>
    if x.name < n then x :: update_vertex xs n f
    else if x.name = n then { x with adj := f x.adj } :: xs
    else x :: xs

/-- Embeds `graph_add_edge` (graph.c): validate both names, reject self-loops
and out-of-range weights, require both vertices, record whether the edge is
new, then insert or overwrite the two mirrored adjacency entries and bump
`e_count` only for a new edge. -/

def graph_add_edge (g : Graph) (u_name v_name : Name) (weight : Int) : Option Graph :=
  if ¬ is_valid_name u_name || ¬ is_valid_name v_name then none
  else if u_name = v_name then none
  else if weight < MIN_WEIGHT || weight > MAX_WEIGHT then none
  else
    match graph_find_vertex g u_name, graph_find_vertex g v_name with
    | some u, some _ =>
      let new_edge := (adj_find u.adj v_name).isNone
      some { g with
        v_head :=
          update_vertex
            (update_vertex g.v_head u_name (fun adj => adj_list_insert adj ⟨v_name, weight⟩))
            v_name (fun adj => adj_list_insert adj ⟨u_name, weight⟩),
        e_count := if new_edge then g.e_count + 1 else g.e_count }
    | _, _ => none

/-- Embeds `graph_get_degree` (graph.c): adjacency length, `-1` when absent. -/

def graph_get_degree (g : Graph) (name : Name) : Int :=
  match graph_find_vertex g name with
  | none => -1
  | some v => v.adj.length

/-- Embeds `graph_edge_exists` (graph.c). -/

def graph_edge_exists (g : Graph) (u_name v_name : Name) : Bool :=
  match graph_find_vertex g u_name with
  | none => false
  | some u => (adj_find u.adj v_name).isSome

/-- Embeds `graph_vertex_exists` (graph.c). -/

def graph_vertex_exists (g : Graph) (name : Name) : Bool :=
  (graph_find_vertex g name).isSome

/-- Embeds `graph_get_neighbors` (graph.c): neighbor names in adjacency
order, or `none` for the `-1` sentinel. -/

def graph_get_neighbors (g : Graph) (name : Name) : Option (List Name) :=
  (graph_find_vertex g name).map (fun v => v.adj.map AdjNode.dst)

/-- Embeds `graph_get_all_vertices` (graph.c): all names in list order. -/

def graph_get_all_vertices (g : Graph) : List Name :=
  g.v_head.map Vertex.name

/-- Embeds `graph_get_edge_weight` (graph.c): linear scan of the full
adjacency list for the first matching destination; `-1` when absent. -/

def graph_get_edge_weight (g : Graph) (u_name v_name : Name) : Int :=
  match graph_find_vertex g u_name with
  | none => -1
  | some u =>
    match u.adj.find? (fun a => a.dst = v_name) with
    | some a => a.weight
    | none => -1

/-! ### Graph invariants (spec §3)

The data-model invariants that must hold after every successful mutation.
`hasEntry g u v w` says the directed adjacency entry (u→v, w) is present.
-/

/-- Directed adjacency entry (u→v,w) is present in the graph. -/

def hasEntry (g : Graph) (u v : Name) (w : Int) : Prop :=
  ∃ vu ∈ g.v_head, vu.name = u ∧ ∃ a ∈ vu.adj, a.dst = v ∧ a.weight = w

instance (g : Graph) (u v : Name) (w : Int) : Decidable (hasEntry g u v w) := by
  unfold hasEntry; infer_instance

/-- Number of distinct unordered vertex pairs joined by an edge, counted as
the adjacency entries whose destination is lexicographically greater than
the owning vertex (one side of each mirrored pair). -/

def edgePairCount (g : Graph) : Nat :=
  (g.v_head.map (fun v => (v.adj.filter (fun a => v.name < a.dst)).length)).sum

/-- Vertex list sorted strictly ascending by name. -/

abbrev SortedV (l : List Vertex) : Prop := l.Pairwise (fun a b => a.name < b.name)

/-- Adjacency list sorted strictly ascending by destination name. -/

abbrev SortedAdj (l : List AdjNode) : Prop := l.Pairwise (fun a b => a.dst < b.dst)

/-- Invariant bundle of the graph store (spec §3): vertices sorted with no
duplicates, valid names, sorted duplicate-free adjacency, closure of
adjacency destinations, no self-loops, weights in range, mirrored entries,
and the two counters. -/

abbrev GraphWF (g : Graph) : Prop :=
  SortedV g.v_head ∧
  (∀ v ∈ g.v_head, is_valid_name v.name = true) ∧
  (∀ v ∈ g.v_head, SortedAdj v.adj) ∧
  (∀ v ∈ g.v_head, ∀ a ∈ v.adj, graph_vertex_exists g a.dst = true) ∧
  (∀ v ∈ g.v_head, ∀ a ∈ v.adj, a.dst ≠ v.name) ∧
  (∀ v ∈ g.v_head, ∀ a ∈ v.adj, MIN_WEIGHT ≤ a.weight ∧ a.weight ≤ MAX_WEIGHT) ∧
  (∀ v ∈ g.v_head, ∀ a ∈ v.adj, hasEntry g a.dst v.name a.weight) ∧
  g.e_count = edgePairCount g ∧
  g.v_count = g.v_head.length

/-- The invariants exactly as the specification lists them. -/

def SpecInvariants (g : Graph) : Prop :=
  SortedV g.v_head ∧ (g.v_head.map Vertex.name).Nodup ∧
  (∀ v ∈ g.v_head, SortedAdj v.adj ∧ (v.adj.map AdjNode.dst).Nodup) ∧
  (∀ u v w, hasEntry g u v w ↔ hasEntry g v u w) ∧
  (∀ v ∈ g.v_head, ∀ a ∈ v.adj, a.dst ≠ v.name) ∧
  g.e_count = edgePairCount g

/-! ### Binary min-heap (heap.c, FINAL and data_structures variants)

The C heap stores parallel arrays `key[]` / `data[]`; the embedding keeps
them as one list of (key, payload) entries plus the tracked capacity.  The
index-walking loops `sift_up` / `sift_down` run on a fuel that strictly
exceeds their iteration count, so they compute exactly the C result.
-/

/-- One slot of the parallel `key[]` / `data[]` arrays. -/

structure HeapEntry (α : Type) where
  key : Int
  data : α
  deriving DecidableEq, Repr

/-- Embeds `struct Heap`: entries (size = length) and capacity. -/

structure Heap (α : Type) where
  entries : List (HeapEntry α)
  cap : Nat
  deriving DecidableEq, Repr

/-- Key stored at an array slot (reads are always in range in the C code). -/

def keyAt {α : Type} (l : List (HeapEntry α)) (i : Nat) : Int :=
  match l.get? i with
  | some e => e.key
  | none => 0

/-- Embeds `swap` (heap.c): exchange two slots of the parallel arrays. -/

def heap_swap {α : Type} (l : List (HeapEntry α)) (i j : Nat) : List (HeapEntry α) :=
  match l.get? i, l.get? j with
  | some x, some y => (l.set i y).set j x
  | _, _ => l

/-- Embeds the `sift_up` loop (heap.c); the index shrinks to its parent on
every iteration, so fuel `i + 1` always runs the loop to completion. -/

def sift_up {α : Type} : Nat → List (HeapEntry α) → Nat → List (HeapEntry α)
  | 0, l, _ => l
  | fuel + 1, l, i =>
    if i ≠ 0 ∧ keyAt l ((i - 1) / 2) > keyAt l i then
      sift_up fuel (heap_swap l i ((i - 1) / 2)) ((i - 1) / 2)
    else l

/-- `sift_up` started with sufficient fuel. -/

def sift_up_run {α : Type} (l : List (HeapEntry α)) (i : Nat) : List (HeapEntry α) :=
  sift_up (i + 1) l i

/-- Embeds the `sift_down` loop (heap.c); the index grows past a child on
every iteration, so fuel `length + 1` always completes the loop. -/

def sift_down {α : Type} : Nat → List (HeapEntry α) → Nat → List (HeapEntry α)
  | 0, l, _ => l
  | fuel + 1, l, i =>
    let lc := 2 * i + 1
    let rc := lc + 1
    let s1 := if lc < l.length ∧ keyAt l lc < keyAt l i then lc else i
    let s2 := if rc < l.length ∧ keyAt l rc < keyAt l s1 then rc else s1
    if s2 = i then l else sift_down fuel (heap_swap l i s2) s2

/-- `sift_down` started with sufficient fuel. -/

def sift_down_run {α : Type} (l : List (HeapEntry α)) (i : Nat) : List (HeapEntry α) :=
  sift_down (l.length + 1) l i

/-- Embeds `heap_create` (heap.c): empty heap, default capacity 16. -/

def heap_create (α : Type) (init_cap : Nat) : Heap α :=
  ⟨[], if init_cap = 0 then 16 else init_cap⟩

/-- Embeds `heap_push` of the FINAL heap.c: no key validation; grow when
full (the pure model lets the reallocation succeed), append at the bottom
slot, sift up, and return the bottom slot index computed before the sift. -/

def heap_push {α : Type} (h : Heap α) (item : α) (key : Int) : Heap α × Nat :=
  let h2 := if h.entries.length = h.cap then { h with cap := h.cap * 2 } else h
  let idx := h2.entries.length
  ({ h2 with entries := sift_up_run (h2.entries ++ [⟨key, item⟩]) idx }, idx)

/-- Embeds `heap_push` of the data_structures heap.c, which additionally
rejects negative keys with the SIZE_MAX sentinel (embedded as `none`). -/

def ds_heap_push {α : Type} (h : Heap α) (item : α) (key : Int) :
    Heap α × Option Nat :=
  if key < 0 then (h, none)
  else
    let r := heap_push h item key
    (r.1, some r.2)

/-- Embeds `heap_is_empty` (heap.c). -/

def heap_is_empty {α : Type} (h : Heap α) : Bool := h.entries.length == 0

/-- Embeds `heap_extract_min` (heap.c): return root key and payload, move
the last slot to the root and sift down. -/

def heap_extract_min {α : Type} (h : Heap α) : Option (Int × α) × Heap α :=
  match h.entries with
  | [] => (none, h)
  | e0 :: rest =>
    match rest.getLast? with
    | none => (some (e0.key, e0.data), { h with entries := [] })
    | some lastE =>
      (some (e0.key, e0.data),
        { h with entries := sift_down_run (lastE :: rest.dropLast) 0 })

/-- Embeds `heap_decrease_key` (heap.c): in-range index and strictly smaller
key required; overwrite the key and sift up. -/

def heap_decrease_key {α : Type} (h : Heap α) (idx : Nat) (new_key : Int) :
    Bool × Heap α :=
  if idx ≥ h.entries.length then (false, h)
  else if new_key ≥ keyAt h.entries idx then (false, h)
  else
    match h.entries.get? idx with
    | none => (false, h)
    | some e =>
      (true, { h with entries := sift_up_run (h.entries.set idx ⟨new_key, e.data⟩) idx })

/-! ### Allocation model for `grow` (heap.c)

`grow` calls `realloc` on the key array and then on the data array.  A
successful `realloc` is modelled as always relocating (which the C standard
permits): the old block is freed and a fresh block with the same contents is
allocated.  A failed `realloc` leaves the old block alive and returns NULL
(`none`).
-/

/-- Live allocations backing a heap: key blocks and data blocks by id. -/

structure AllocState where
  keyBlocks : List (Nat × List Int)
  dataBlocks : List (Nat × List Name)
  nextId : Nat
  deriving DecidableEq, Repr

/-- The `struct Heap` header fields under the allocation model: element
count, capacity, and the two block references `key` / `data`. -/

structure CHeapRef where
  size : Nat
  cap : Nat
  keyId : Nat
  dataId : Nat
  deriving DecidableEq, Repr

/-- `realloc` on the key array: on success the old block dies and a
relocated copy appears under a fresh id; on failure nothing changes. -/

def realloc_key (m : AllocState) (old : Nat) (ok : Bool) :
    Option Nat × AllocState :=
  if ok then
    match m.keyBlocks.find? (fun b => b.1 = old) with
    | some b =>
      (some m.nextId,
        { m with
          keyBlocks := (m.nextId, b.2) :: m.keyBlocks.filter (fun c => c.1 ≠ old),
          nextId := m.nextId + 1 })
    | none => (none, m)
  else (none, m)

/-- `realloc` on the data array, same semantics as `realloc_key`. -/

def realloc_data (m : AllocState) (old : Nat) (ok : Bool) :
    Option Nat × AllocState :=
  if ok then
    match m.dataBlocks.find? (fun b => b.1 = old) with
    | some b =>
      (some m.nextId,
        { m with
          dataBlocks := (m.nextId, b.2) :: m.dataBlocks.filter (fun c => c.1 ≠ old),
          nextId := m.nextId + 1 })
    | none => (none, m)
  else (none, m)

/-- Embeds `grow` (heap.c): realloc both arrays, and only if both succeed
update the header.  The two oracles say whether each `realloc` succeeds. -/

def grow (h : CHeapRef) (m : AllocState) (okK okD : Bool) :
    Bool × CHeapRef × AllocState :=
  let rk := realloc_key m h.keyId okK
  let rd := realloc_data rk.2 h.dataId okD
  match rk.1, rd.1 with
  | some k, some d => (true, { h with keyId := k, dataId := d, cap := h.cap * 2 }, rd.2)
  | _, _ => (false, h, rd.2)

/-- A key block id is still allocated. -/

def key_block_live (m : AllocState) (id : Nat) : Bool :=
  m.keyBlocks.any (fun b => b.1 = id)

/-! ### Scratch stack and queue (stack.c / queue.c)

Array-backed structures holding borrowed vertex references; embedded as
lists of names, top / front at the head.
-/

/-- Embeds the stack contents; `stack_push` puts the new element on top. -/

def stack_push (s : List Name) (x : Name) : List Name := x :: s

/-- Embeds `stack_pop`: top element (if any) and remaining stack. -/

def stack_pop (s : List Name) : Option Name × List Name := (s.head?, s.tail)

/-- Embeds `stack_is_empty`. -/

def stack_is_empty (s : List Name) : Bool := s.isEmpty

/-- Embeds `queue_enqueue`: append at the rear. -/

def queue_enqueue (q : List Name) (x : Name) : List Name := q ++ [x]

/-- Embeds `queue_dequeue`: front element (if any) and remaining queue. -/

def queue_dequeue (q : List Name) : Option Name × List Name := (q.head?, q.tail)

/-- Embeds `queue_is_empty`. -/

def queue_is_empty (q : List Name) : Bool := q.isEmpty

/-! ### Neighbor sort of bfs.c (exchange sort over the name array) -/

/-- Array-slot swap used by the exchange sort in bfs.c. -/

def name_swap (l : List Name) (i j : Nat) : List Name :=
  match l.get? i, l.get? j with
  | some x, some y => (l.set i y).set j x
  | _, _ => l

/-- Inner loop of the bfs.c neighbor sort: compare slot `i` against every
`j` in `(i, count)` and swap out-of-order pairs. -/

def bfs_sort_inner : Nat → List Name → Nat → Nat → List Name
  | 0, l, _, _ => l
  | fuel + 1, l, i, j =>
    if j < l.length then
      bfs_sort_inner fuel
        (if l.getD i [] > l.getD j [] then name_swap l i j else l) i (j + 1)
    else l

/-- Outer loop of the bfs.c neighbor sort. -/

def bfs_sort_outer : Nat → List Name → Nat → List Name
  | 0, l, _ => l
  | fuel + 1, l, i =>
    if i + 1 < l.length then
      bfs_sort_outer fuel (bfs_sort_inner (l.length + 1) l i (i + 1)) (i + 1)
    else l

/-- The bubble sort bfs.c applies to the retrieved neighbor names. -/

def bfs_sort (l : List Name) : List Name := bfs_sort_outer (l.length + 1) l 0

/-! ### Binary search `index_of` of dfs.c / path_check.c -/

/-- Embeds the `index_of` binary search over the sorted vertex array: the
interval shrinks every iteration, so fuel `length + 1` suffices. -/

def index_of (vec : List Vertex) : Nat → Nat → Nat → Name → Option Nat
  | 0, _, _, _ => none
  | fuel + 1, lo, hi, name =>
    if lo < hi then
      let mid := (lo + hi) / 2
      let mname := match vec.get? mid with | some v => v.name | none => []
      if mname = name then some mid
      else if mname < name then index_of vec fuel (mid + 1) hi name
      else index_of vec fuel lo mid name
    else none

/-- `index_of` run on the whole array with sufficient fuel. -/

def index_of_run (vec : List Vertex) (name : Name) : Option Nat :=
  index_of vec (vec.length + 1) 0 vec.length name

/-! ### Traversals: bfs.c, dfs.c, path_check.c (FINAL) -/

/-- Characters printed to stdout. -/

abbrev Output := List Char

/-- Sum of all adjacency-list lengths; bounds any single push burst. -/

def totalAdjLen (vec : List Vertex) : Nat := (vec.map (fun v => v.adj.length)).sum

/-- Neighbor retrieval as bfs.c consumes it: the `-1` sentinel makes the
neighbor loop run zero times. -/

def bfs_neighbors (g : Graph) (current : Name) : List Name :=
  match graph_get_neighbors g current with
  | none => []
  | some ns => ns

/-- Neighbor loop of `bfs` (bfs.c): for each neighbor in order, if it is not
in the visited array, mark it, enqueue it and print it. -/

def bfs_process (st : List Name × List Name × Output) :
    List Name → List Name × List Name × Output
  | [] => st
  | nb :: rest =>
    if st.2.1.contains nb then bfs_process st rest
    else bfs_process (st.1 ++ [nb], st.2.1 ++ [nb], st.2.2 ++ nb ++ ['\n']) rest

/-- Main loop of `bfs` (bfs.c): dequeue, sort neighbors, and mark / enqueue /
print each not-yet-visited neighbor. -/

def bfs_loop (g : Graph) : Nat → List Name → List Name → Output →
    (List Name × Output)
  | 0, _, visited, out => (visited, out)
  | fuel + 1, queue, visited, out =>
    match queue with
    | [] => (visited, out)
    | current :: qrest =>
      let st := bfs_process (qrest, visited, out) (bfs_sort (bfs_neighbors g current))
      bfs_loop g fuel st.1 st.2.1 st.2.2

/-- Every name the graph value mentions (vertex names and adjacency
destinations); the BFS visited list can only grow within this universe. -/

def allNames (g : Graph) : List Name :=
  g.v_head.map Vertex.name ++ (g.v_head.map (fun v => v.adj.map AdjNode.dst)).flatten

/-- Names of `allNames` not yet visited; strictly shrinks on every marking. -/

def unvisitedCount (g : Graph) (visited : List Name) : Nat :=
  ((allNames g).filter (fun n => !(visited.contains n))).length

/-- Fuel sufficient for `bfs_loop` to drain its queue. -/

def bfs_fuel (g : Graph) (queue visited : List Name) : Nat :=
  queue.length + unvisitedCount g visited + 1

/-- Embeds `bfs` (bfs.c): silently return when the start vertex is absent;
otherwise mark, enqueue and print the start, run the loop, and print the
final extra newline.  Returns the printed output and the discovery order. -/

def bfs (g : Graph) (startName : Name) : Output × List Name :=
  if ¬ graph_vertex_exists g startName then ([], [])
  else
    let r := bfs_loop g (bfs_fuel g [startName] [startName]) [startName] [startName]
      (startName ++ ['\n'])
    (r.2 ++ ['\n'], r.1)

/-- Number of unvisited slots in the visited bitmap. -/

def countFalse (l : List Bool) : Nat := (l.filter (fun b => !b)).length

/-- Name stored at an index of the vertex array. -/

def name_at (vec : List Vertex) (i : Nat) : Name :=
  match vec.get? i with | some v => v.name | none => []

/-- Adjacency list stored at an index of the vertex array. -/

def adj_at (vec : List Vertex) (i : Nat) : List AdjNode :=
  match vec.get? i with | some v => v.adj | none => []

/-- Neighbor names dfs.c / path_check.c push from a freshly visited vertex:
the unvisited ones, in adjacency order (the C pushes them in reverse so the
LIFO pops them in this order).  A destination absent from the array would
make the C index `visited[-1]` (undefined behaviour, unreachable on
well-formed graphs); the embedding skips such a push. -/

def dfs_push_list (vec : List Vertex) (visited : List Bool) (adj : List AdjNode) :
    List Name :=
  (adj.map AdjNode.dst).filter (fun nb =>
    match index_of_run vec nb with
    | some v_idx => !(visited.getD v_idx false)
    | none => false)

/-- Main loop of `cmd_dfs` (dfs.c): pop, skip if visited, else mark, print
and push the unvisited neighbors.  A popped name absent from the array is
the same `visited[-1]` undefined behaviour; the embedding skips it. -/

def dfs_loop (vec : List Vertex) : Nat → List Name → List Bool → List Name →
    Output → (Output × List Name × List Bool × List Name)
  | 0, stack, visited, order, out => (out, order, visited, stack)
  | fuel + 1, stack, visited, order, out =>
    match stack with
    | [] => (out, order, visited, stack)
    | u :: srest =>
      match index_of_run vec u with
      | none => dfs_loop vec fuel srest visited order out
      | some u_idx =>
        if visited.getD u_idx false then dfs_loop vec fuel srest visited order out
        else
          dfs_loop vec fuel
            (dfs_push_list vec (visited.set u_idx true) (adj_at vec u_idx) ++ srest)
            (visited.set u_idx true) (order ++ [u]) (out ++ u ++ ['\n'])

/-- Fuel sufficient for `dfs_loop` / `path_loop` to terminate. -/

def dfs_fuel (vec : List Vertex) (stack : List Name) (visited : List Bool) : Nat :=
  stack.length + (totalAdjLen vec + 2) * countFalse visited + 1

/-- Embeds `cmd_dfs` (dfs.c): early newline-only exits for an empty graph or
an absent start (these leave the scratch stack untouched); otherwise drain
the scratch, push the start and loop.  Returns the printed output, the
visit order, and the final workspace contents. -/

def cmd_dfs (g : Graph) (start : Name) (scratch : List Name) :
    Output × List Name × List Name :=
  let vec := g.v_head
  if g.v_count = 0 then (['\n'], [], scratch)
  else
    match index_of_run vec start with
    | none => (['\n'], [], scratch)
    | some s_idx =>
      let stack0 := [name_at vec s_idx]
      let visited0 := List.replicate g.v_count false
      let r := dfs_loop vec (dfs_fuel vec stack0 visited0) stack0 visited0 [] []
      (r.1 ++ ['\n'], r.2.1, r.2.2.2)

/-- Main loop of `cmd_path` (path_check.c): like `dfs_loop` but stops with
success the moment the destination index is popped and marked, leaving the
remaining stack contents in place. -/

def path_loop (vec : List Vertex) (t_idx : Nat) : Nat → List Name → List Bool →
    (Bool × List Bool × List Name)
  | 0, stack, visited => (false, visited, stack)
  | fuel + 1, stack, visited =>
    match stack with
    | [] => (false, visited, stack)
    | u :: srest =>
      match index_of_run vec u with
      | none => path_loop vec t_idx fuel srest visited
      | some u_idx =>
        if visited.getD u_idx false then path_loop vec t_idx fuel srest visited
        else if u_idx = t_idx then (true, visited.set u_idx true, srest)
        else path_loop vec t_idx fuel
          (dfs_push_list vec (visited.set u_idx true) (adj_at vec u_idx) ++ srest)
          (visited.set u_idx true)

/-- Embeds `cmd_path` (path_check.c): trivial same-name case by linear scan;
`"0"` for an empty graph or absent endpoints (scratch untouched); otherwise
drain the scratch, push the source and run the early-exit DFS.  Returns the
boolean result, the printed output, and the final workspace contents. -/

def cmd_path (g : Graph) (src dst : Name) (scratch : List Name) :
    Bool × Output × List Name :=
  if src = dst then
    if g.v_head.any (fun v => v.name = src) then (true, ['1', '\n'], scratch)
    else (false, ['0', '\n'], scratch)
  else
    let vec := g.v_head
    if g.v_count = 0 then (false, ['0', '\n'], scratch)
    else
      match index_of_run vec src, index_of_run vec dst with
      | some s_idx, some t_idx =>
        let stack0 := [name_at vec s_idx]
        let visited0 := List.replicate g.v_count false
        let r := path_loop vec t_idx (dfs_fuel vec stack0 visited0) stack0 visited0
        (r.1, if r.1 then ['1', '\n'] else ['0', '\n'], r.2.2)
      | _, _ => (false, ['0', '\n'], scratch)

/-- One directed adjacency step as seen through the graph store. -/

def adjacentb (g : Graph) (a b : Name) : Bool :=
  match graph_find_vertex g a with
  | some v => v.adj.any (fun e => e.dst = b)
  | none => false

/-- Reachability along adjacency entries. -/

def Reach (g : Graph) (u x : Name) : Prop :=
  Relation.ReflTransGen (fun a b => adjacentb g a b = true) u x

/-- Rendering of one printed name per line, as bfs.c / dfs.c emit them. -/

def render_lines (l : List Name) : Output :=
  (l.map (fun n => n ++ ['\n'])).flatten

/-- Loop invariant of the dfs.c traversal: visited and stacked vertices are
reachable from the start, every neighbor of a visited vertex is visited or
still stacked, the start is visited or stacked, and the emitted order lists
exactly the visited vertices. -/

structure DfsInv (g : Graph) (u0 : Name) (stack : List Name) (visited : List Bool)
    (order : List Name) : Prop where
  hlen : visited.length = g.v_head.length
  hvis : ∀ i v, g.v_head.get? i = some v → visited.getD i false = true →
    Reach g u0 v.name
  hstk : ∀ s ∈ stack, Reach g u0 s ∧ ∃ v ∈ g.v_head, v.name = s
  hfront : ∀ i v, g.v_head.get? i = some v → visited.getD i false = true →
    ∀ a ∈ v.adj, (∃ j w, g.v_head.get? j = some w ∧ w.name = a.dst ∧
      visited.getD j false = true) ∨ a.dst ∈ stack
  hstart : (∃ j w, g.v_head.get? j = some w ∧ w.name = u0 ∧
    visited.getD j false = true) ∨ u0 ∈ stack
  horder : ∀ x, x ∈ order ↔ ∃ i v, g.v_head.get? i = some v ∧ v.name = x ∧
    visited.getD i false = true

/-- Loop invariant of the path_check.c search; like `DfsInv` but without the
emission order and recording that the target is still unvisited. -/

structure PathInv (g : Graph) (u0 : Name) (t_idx : Nat) (stack : List Name)
    (visited : List Bool) : Prop where
  hlen : visited.length = g.v_head.length
  hvis : ∀ i v, g.v_head.get? i = some v → visited.getD i false = true →
    Reach g u0 v.name
  hstk : ∀ s ∈ stack, Reach g u0 s ∧ ∃ v ∈ g.v_head, v.name = s
  hfront : ∀ i v, g.v_head.get? i = some v → visited.getD i false = true →
    ∀ a ∈ v.adj, (∃ j w, g.v_head.get? j = some w ∧ w.name = a.dst ∧
      visited.getD j false = true) ∨ a.dst ∈ stack
  hstart : (∃ j w, g.v_head.get? j = some w ∧ w.name = u0 ∧
    visited.getD j false = true) ∨ u0 ∈ stack
  htarget : visited.getD t_idx false = false

/-- Loop invariant of the bfs.c traversal: queued names are visited, visited
names are reachable from the start, a visited name no longer queued has all
its neighbors visited, and the start is visited. -/

structure BfsInv (g : Graph) (u0 : Name) (queue visited : List Name) : Prop where
  hq : ∀ s ∈ queue, s ∈ visited
  hvis : ∀ x ∈ visited, Reach g u0 x
  hcl : ∀ x ∈ visited, x ∉ queue → ∀ nb ∈ bfs_neighbors g x, nb ∈ visited
  hstart : u0 ∈ visited

/-- A concrete well-formed store: vertices A, B, C, D with edges
(A,B,1), (B,C,2), (A,D,3); used to instantiate the general theorems. -/

def gABCD : Graph :=
  ⟨[⟨['A'], [⟨['B'], 1⟩, ⟨['D'], 3⟩]⟩,
    ⟨['B'], [⟨['A'], 1⟩, ⟨['C'], 2⟩]⟩,
    ⟨['C'], [⟨['B'], 2⟩]⟩,
    ⟨['D'], [⟨['A'], 3⟩]⟩], 4, 3⟩

/-! ### Dijkstra of shortest_Path.c (FINAL, array-based)

The C keeps parallel arrays indexed by the position of each vertex in
`graph_get_all_vertices`; the embedding keeps `dist` and `visited` as lists
read with `getD` (every C access is in range).  `INF` is the literal 999999
of the source.
-/

/-- The INF sentinel of shortest_Path.c. -/

def INF : Int := 999999

/-- Scan loop of `minDistance` (shortest_Path.c) over the remaining
(dist, visited) pairs, carrying the running minimum and its index; ties
overwrite, matching the `<=` comparison of the source. -/

def minDistance_go : List (Int × Bool) → Nat → Int → Option Nat → Int × Option Nat
  | [], _, m, idx => (m, idx)
  | (d, vis) :: rest, i, m, idx =>
    if vis = false ∧ d ≤ m then minDistance_go rest (i + 1) d (some i)
    else minDistance_go rest (i + 1) m idx

/-- Embeds `minDistance` (shortest_Path.c): smallest current distance among
unvisited indices; `none` plays the role of the `-1` sentinel. -/

def minDistance (dist : List Int) (visited : List Bool) : Int × Option Nat :=
  minDistance_go (dist.zip visited) 0 INF none

/-- Embeds the neighbor-relaxation loop of `shortestPath` (shortest_Path.c):
for each index `v` in turn, look the edge weight up by name and relax when
`v` is unvisited, the edge exists and the path through `u` is shorter. -/

def relax_loop (g : Graph) (names : List Name) (u_idx : Nat)
    (visited : List Bool) : Nat → Nat → List Int → List Int
  | 0, _, dist => dist
  | fuel + 1, v, dist =>
    let w := graph_get_edge_weight g (names.getD u_idx []) (names.getD v [])
    let dist2 :=
      if visited.getD v false = false ∧ w > 0 ∧
          dist.getD u_idx 0 + w < dist.getD v 0 then
        dist.set v (dist.getD u_idx 0 + w)
      else dist
    relax_loop g names u_idx visited fuel (v + 1) dist2

/-- Embeds the main loop of `shortestPath` (shortest_Path.c): `count` times,
pick the closest unvisited vertex (stop at the `-1` sentinel), mark it and
relax all its neighbors. -/

def dijkstra_loop (g : Graph) (names : List Name) :
    Nat → List Int → List Bool → List Int × List Bool
  | 0, dist, visited => (dist, visited)
  | count + 1, dist, visited =>
    match (minDistance dist visited).2 with
    | none => (dist, visited)
    | some u =>
      let visited2 := visited.set u true
      let dist2 := relax_loop g names u visited2 names.length 0 dist
      dijkstra_loop g names count dist2 visited2

/-- Index-mapping scan of `shortestPath` (shortest_Path.c): the C loop has
no break, so a later match overwrites an earlier one. -/

def last_index_go : List Name → Nat → Option Nat → Name → Option Nat
  | [], _, acc, _ => acc
  | n :: rest, i, acc, x => last_index_go rest (i + 1) (if n = x then some i else acc) x

/-- Embeds `shortestPath` (shortest_Path.c) up to the end of its Dijkstra
loop: the distance array it has computed when step 5 finishes, or `none`
when the early `"0"` exit for an absent endpoint fires. -/

def shortestPath_dist (g : Graph) (start endName : Name) : Option (List Int) :=
  let names := graph_get_all_vertices g
  let n := names.length
  match last_index_go names 0 none start with
  | none => none
  | some si =>
    match last_index_go names 0 none endName with
    | none => none
    | some _ =>
      let dist0 := (List.replicate n INF).set si 0
      some (dijkstra_loop g names (n - 1) dist0 (List.replicate n false)).1

/-- Invariant of the Dijkstra main loop of shortest_Path.c: array lengths,
zero source distance, distances within [0, INF], every edge out of a visited
vertex already relaxed, and visited distances at most all unvisited ones. -/

structure DijInv (g : Graph) (si : Nat) (dist : List Int) (visited : List Bool) :
    Prop where
  hdlen : dist.length = g.v_head.length
  hvlen : visited.length = g.v_head.length
  hzero : dist.getD si 0 = 0
  hpos : ∀ j, 0 ≤ dist.getD j 0
  hinf : ∀ j, dist.getD j 0 ≤ INF
  hA : ∀ iu iv vu vv, g.v_head.get? iu = some vu → g.v_head.get? iv = some vv →
    visited.getD iu false = true → ∀ a ∈ vu.adj, a.dst = vv.name →
    dist.getD iv 0 ≤ dist.getD iu 0 + a.weight
  hB : ∀ iu iv, iu < g.v_head.length → iv < g.v_head.length →
    visited.getD iu false = true → visited.getD iv false = false →
    dist.getD iu 0 ≤ dist.getD iv 0

/-! ### Heap-based Dijkstra of shortest_path.c (algorithms variant)

This variant breaks out of its loop as soon as the destination index is
extracted, so distances past the destination are left unrelaxed.  `INF` here
is INT_MAX.
-/

/-- The INF sentinel of the algorithms shortest_path.c (INT_MAX). -/

def INF_ALG : Int := 2147483647

/-- Scan of `find_vertex_index` (shortest_path.c, algorithms): first match. -/

def first_index_go : List Name → Nat → Name → Option Nat
  | [], _, _ => none
  | n :: rest, i, x => if n = x then some i else first_index_go rest (i + 1) x

/-- Embeds `find_vertex_index` (shortest_path.c, algorithms). -/

def find_vertex_index (names : List Name) (x : Name) : Option Nat :=
  first_index_go names 0 x

/-- Embeds the neighbor loop of `cmd_shortest_path`: relax each adjacency
entry of the extracted vertex, pushing newly reached indices and decreasing
keys of already queued ones (via the caller-kept `heap_indices`). -/

def alg_relax (names : List Name) (u_idx : Nat) :
    List AdjNode → Heap Name × List Int × List (Option Nat) →
    Heap Name × List Int × List (Option Nat)
  | [], st => st
  | a :: rest, (pq, dist, hidx) =>
    match find_vertex_index names a.dst with
    | none => alg_relax names u_idx rest (pq, dist, hidx)
    | some v_idx =>
      let alt := dist.getD u_idx 0 + a.weight
      if alt < dist.getD v_idx 0 then
        let dist2 := dist.set v_idx alt
        match hidx.getD v_idx none with
        | none =>
          let r := ds_heap_push pq (names.getD v_idx []) alt
          alg_relax names u_idx rest (r.1, dist2, hidx.set v_idx r.2)
        | some hi =>
          let r := heap_decrease_key pq hi alt
          alg_relax names u_idx rest (r.2, dist2, hidx)
      else alg_relax names u_idx rest (pq, dist, hidx)

/-- Embeds the while loop of `cmd_shortest_path` (shortest_path.c,
algorithms) with its early `break` once the destination index is popped. -/

def alg_loop (g : Graph) (names : List Name) (end_idx : Nat) :
    Nat → Heap Name → List Int → List (Option Nat) → List Int
  | 0, _, dist, _ => dist
  | fuel + 1, pq, dist, hidx =>
    if heap_is_empty pq then dist
    else
      match heap_extract_min pq with
      | (none, _) => dist
      | (some (_, u_name), pq2) =>
        match find_vertex_index names u_name with
        | none => alg_loop g names end_idx fuel pq2 dist hidx
        | some u_idx =>
          let hidx2 := hidx.set u_idx none
          if u_idx = end_idx then dist
          else
            let st := alg_relax names u_idx (adj_at g.v_head u_idx)
              (pq2, dist, hidx2)
            alg_loop g names end_idx fuel st.1 st.2.1 st.2.2

/-- Embeds `cmd_shortest_path` (shortest_path.c, algorithms) up to the end
of its Dijkstra loop: the distance array it holds when the loop stops. -/

def cmd_shortest_path_dist (g : Graph) (start endName : Name) (fuel : Nat) :
    Option (List Int) :=
  let names := graph_get_all_vertices g
  let n := names.length
  if n = 0 then none
  else
    match find_vertex_index names start, find_vertex_index names endName with
    | some si, some ei =>
      let dist0 := (List.replicate n INF_ALG).set si 0
      let hidx0 := List.replicate n (none : Option Nat)
      let pq0 := heap_create Name n
      let r := ds_heap_push pq0 (names.getD si []) 0
      some (alg_loop g names ei fuel r.1 dist0 (hidx0.set si r.2))
    | _, _ => none

/-- A concrete well-formed path graph A - B - C with weights 1 and 2. -/

def gLine : Graph :=
  ⟨[⟨['A'], [⟨['B'], 1⟩]⟩,
    ⟨['B'], [⟨['A'], 1⟩, ⟨['C'], 2⟩]⟩,
    ⟨['C'], [⟨['B'], 2⟩]⟩], 3, 2⟩

/-! ### Prim MST (FINAL mst.c and algorithms mst.c)

FINAL `primMST` pushes every vertex into the heap up front (the start vertex
with key 0, the rest with key INF), so its loop walks every component and
records edges far from the start.  The algorithms `cmd_mst` seeds the heap
with vertex 0 only.  Both record each accepted edge as a (smaller name,
larger name, key) triple; the embeddings return that list as recorded, the
final lexicographic sort of the C print step not affecting membership.
-/

/-- Pushing a batch of (payload, key) pairs in order (init loop of primMST). -/

def push_list (h : Heap Name) : List (Name × Int) → Heap Name
  | [] => h
  | (x, k) :: rest => push_list (heap_push h x k).1 rest

/-- Embeds the neighbor scan of `primMST` (FINAL mst.c): for every index
`v`, accept the edge weight when `v` is outside the tree, the edge exists
and it improves `key[v]`; pushes a fresh heap entry instead of decreasing. -/

def prim_relax (g : Graph) (names : List Name) (u : Nat) (inMST : List Bool) :
    Nat → Nat → Heap Name × List Int × List (Option Nat) →
    Heap Name × List Int × List (Option Nat)
  | 0, _, st => st
  | fuel + 1, v, (pq, key, parent) =>
    let w := graph_get_edge_weight g (names.getD u []) (names.getD v [])
    if inMST.getD v false = false ∧ w > 0 ∧ w < key.getD v 0 then
      prim_relax g names u inMST fuel (v + 1)
        ((heap_push pq (names.getD v []) w).1, key.set v w, parent.set v (some u))
    else
      prim_relax g names u inMST fuel (v + 1) (pq, key, parent)

/-- Embeds the main loop of `primMST` (FINAL mst.c): extract, skip stale or
unknown entries, mark, record the parent edge (except for roots), scan
neighbors. -/

def prim_loop (g : Graph) (names : List Name) :
    Nat → Heap Name → List Int → List Bool → List (Option Nat) →
    List (Name × Name × Int) → List (Name × Name × Int)
  | 0, _, _, _, _, edges => edges
  | fuel + 1, pq, key, inMST, parent, edges =>
    if heap_is_empty pq then edges
    else
      match heap_extract_min pq with
      | (none, _) => edges
      | (some (_, u_name), pq2) =>
        match find_vertex_index names u_name with
        | none => prim_loop g names fuel pq2 key inMST parent edges
        | some u =>
          if inMST.getD u false then
            prim_loop g names fuel pq2 key inMST parent edges
          else
            let inMST2 := inMST.set u true
            let edges2 :=
              match parent.getD u none with
              | none => edges
              | some p =>
                let a := names.getD p []
                let b := names.getD u []
                if a < b then edges ++ [(a, b, key.getD u 0)]
                else edges ++ [(b, a, key.getD u 0)]
            let st := prim_relax g names u inMST2 names.length 0 (pq2, key, parent)
            prim_loop g names fuel st.1 st.2.1 inMST2 st.2.2 edges2

/-- Embeds `primMST` (FINAL mst.c) up to the end of its main loop: the list
of recorded MST edges.  The names array is exchange-sorted exactly as in
the source (the same loop shape as the bfs.c neighbor sort). -/

def primMST_edges (g : Graph) (fuel : Nat) : List (Name × Name × Int) :=
  let names := bfs_sort (graph_get_all_vertices g)
  let n := names.length
  let key0 := (List.range n).map (fun i => if i = 0 then (0 : Int) else INF)
  let pq0 := push_list (heap_create Name n) (names.zip key0)
  prim_loop g names fuel pq0 key0 (List.replicate n false)
    (List.replicate n (none : Option Nat)) []

/-- Embeds the adjacency scan of `cmd_mst` (algorithms mst.c): skip unknown
or in-tree destinations, improve keys, push or decrease-key through the
caller-kept `heap_indices`. -/

def cmd_mst_relax (names : List Name) (u_idx : Nat) (inMST : List Bool) :
    List AdjNode → Heap Name × List Int × List (Option Nat) × List (Option Nat) →
    Heap Name × List Int × List (Option Nat) × List (Option Nat)
  | [], st => st
  | a :: rest, (pq, key, parent, hidx) =>
    match find_vertex_index names a.dst with
    | none => cmd_mst_relax names u_idx inMST rest (pq, key, parent, hidx)
    | some v_idx =>
      if inMST.getD v_idx false then
        cmd_mst_relax names u_idx inMST rest (pq, key, parent, hidx)
      else if a.weight < key.getD v_idx 0 then
        let key2 := key.set v_idx a.weight
        let parent2 := parent.set v_idx (some u_idx)
        match hidx.getD v_idx none with
        | none =>
          let r := ds_heap_push pq (names.getD v_idx []) a.weight
          cmd_mst_relax names u_idx inMST rest (r.1, key2, parent2, hidx.set v_idx r.2)
        | some hi =>
          let r := heap_decrease_key pq hi a.weight
          cmd_mst_relax names u_idx inMST rest (r.2, key2, parent2, hidx)
      else cmd_mst_relax names u_idx inMST rest (pq, key, parent, hidx)

/-- Embeds the main loop of `cmd_mst` (algorithms mst.c). -/

def cmd_mst_loop (g : Graph) (names : List Name) :
    Nat → Heap Name → List Int → List Bool → List (Option Nat) →
    List (Option Nat) → List (Name × Name × Int) → List (Name × Name × Int)
  | 0, _, _, _, _, _, edges => edges
  | fuel + 1, pq, key, inMST, parent, hidx, edges =>
    if heap_is_empty pq then edges
    else
      match heap_extract_min pq with
      | (none, _) => edges
      | (some (_, u_name), pq2) =>
        match find_vertex_index names u_name with
        | none => cmd_mst_loop g names fuel pq2 key inMST parent hidx edges
        | some u_idx =>
          if inMST.getD u_idx false then
            cmd_mst_loop g names fuel pq2 key inMST parent hidx edges
          else
            let inMST2 := inMST.set u_idx true
            let hidx2 := hidx.set u_idx none
            let edges2 :=
              match parent.getD u_idx none with
              | none => edges
              | some p =>
                let pn := names.getD p []
                let un := names.getD u_idx []
                if pn < un then edges ++ [(pn, un, key.getD u_idx 0)]
                else edges ++ [(un, pn, key.getD u_idx 0)]
            let st := cmd_mst_relax names u_idx inMST2 (adj_at g.v_head u_idx)
              (pq2, key, parent, hidx2)
            cmd_mst_loop g names fuel st.1 st.2.1 inMST2 st.2.2.1 st.2.2.2 edges2

/-- Embeds `cmd_mst` (algorithms mst.c) up to the end of its main loop: the
list of recorded MST edges, heap seeded with vertex 0 only. -/

def cmd_mst_edges (g : Graph) (fuel : Nat) : List (Name × Name × Int) :=
  let names := graph_get_all_vertices g
  let n := names.length
  if n = 0 then []
  else
    let key0 := (List.replicate n INF_ALG).set 0 0
    let hidx0 := List.replicate n (none : Option Nat)
    let pq0 := heap_create Name n
    let r := ds_heap_push pq0 (names.getD 0 []) 0
    cmd_mst_loop g names fuel r.1 key0 (List.replicate n false)
      (List.replicate n (none : Option Nat)) (hidx0.set 0 r.2) []

/-- A concrete well-formed disconnected graph: components {A, B} with edge
(A,B,1) and {C, D} with edge (C,D,5). -/

def gTwo : Graph :=
  ⟨[⟨['A'], [⟨['B'], 1⟩]⟩,
    ⟨['B'], [⟨['A'], 1⟩]⟩,
    ⟨['C'], [⟨['D'], 5⟩]⟩,
    ⟨['D'], [⟨['C'], 5⟩]⟩], 4, 2⟩

/-! ## Theorems -/

/-! ### Helper lemmas about the sorted-insertion and lookup primitives -/

theorem vertex_list_insert_mem {l : List Vertex} {v x : Vertex} :
    x ∈ vertex_list_insert l v ↔ x = v ∨ x ∈ l := by
  induction l with
  | nil => simp [vertex_list_insert]
  | cons y ys ih =>
    by_cases h : y.name < v.name
    · simp only [vertex_list_insert, if_pos h, List.mem_cons, ih]
      tauto
    · simp only [vertex_list_insert, if_neg h, List.mem_cons]
      try tauto

theorem vertex_list_insert_map_sum (l : List Vertex) (v : Vertex) (f : Vertex → Nat) :
    ((vertex_list_insert l v).map f).sum = f v + (l.map f).sum := by
  induction l with
  | nil => simp [vertex_list_insert]
  | cons y ys ih =>
    by_cases h : y.name < v.name
    · simp only [vertex_list_insert, if_pos h, List.map_cons, List.sum_cons, ih]
      try omega
    · simp [vertex_list_insert, if_neg h]

theorem vertex_list_insert_length (l : List Vertex) (v : Vertex) :
    (vertex_list_insert l v).length = l.length + 1 := by
  induction l with
  | nil => simp [vertex_list_insert]
  | cons y ys ih =>
    by_cases h : y.name < v.name
    · simp only [vertex_list_insert, if_pos h, List.length_cons, ih]
    · simp [vertex_list_insert, if_neg h]

theorem vertex_list_insert_sorted {l : List Vertex} {v : Vertex}
    (hs : SortedV l) (hne : ∀ x ∈ l, x.name ≠ v.name) :
    SortedV (vertex_list_insert l v) := by
  induction l with
  | nil => simp [vertex_list_insert, SortedV]
  | cons y ys ih =>
    rcases hs with - | ⟨hy, hys⟩
    by_cases h : y.name < v.name
    · rw [vertex_list_insert, if_pos h]
      refine List.Pairwise.cons ?_ (ih hys (fun x hx => hne x (List.mem_cons_of_mem y hx)))
      intro x hx
      rcases vertex_list_insert_mem.1 hx with rfl | hx
      · exact h
      · exact hy x hx
    · rw [vertex_list_insert, if_neg h]
      have hvy : v.name < y.name :=
        lt_of_le_of_ne (not_lt.1 h) (fun he => hne y (List.mem_cons_self _ _) he.symm)
      refine List.Pairwise.cons ?_ (List.Pairwise.cons hy hys)
      intro x hx
      rcases List.mem_cons.1 hx with rfl | hx
      · exact hvy
      · exact hvy.trans (hy x hx)

theorem graph_find_go_some {l : List Vertex} {n : Name} {v : Vertex} (hs : SortedV l) :
    graph_find_vertex.go l n = some v ↔ v ∈ l ∧ v.name = n := by
  induction l with
  | nil => simp [graph_find_vertex.go]
  | cons y ys ih =>
    rcases hs with - | ⟨hy, hys⟩
    by_cases h : y.name < n
    · rw [graph_find_vertex.go, if_pos h]
      rw [ih hys]
      constructor
      · rintro ⟨hv, rfl⟩; exact ⟨List.mem_cons_of_mem y hv, rfl⟩
      · rintro ⟨hv, rfl⟩
        rcases List.mem_cons.1 hv with rfl | hv
        · exact absurd h (lt_irrefl _)
        · exact ⟨hv, rfl⟩
    · rw [graph_find_vertex.go, if_neg h]
      by_cases he : y.name = n
      · rw [if_pos he]
        constructor
        · rintro h'; injection h' with h'; subst h'; exact ⟨List.mem_cons_self _ _, he⟩
        · rintro ⟨hv, rfl⟩
          rcases List.mem_cons.1 hv with rfl | hv
          · rfl
          · exact absurd (he ▸ hy v hv) (lt_irrefl _)
      · rw [if_neg he]
        constructor
        · rintro h'; exact absurd h' (by simp)
        · rintro ⟨hv, rfl⟩
          rcases List.mem_cons.1 hv with rfl | hv
          · exact absurd rfl he
          · exact absurd (lt_trans (hy v hv) (lt_of_le_of_ne (not_lt.1 h) (Ne.symm he)))
              (by simp [lt_irrefl])

theorem graph_find_go_none {l : List Vertex} {n : Name} (hs : SortedV l) :
    graph_find_vertex.go l n = none ↔ ∀ v ∈ l, v.name ≠ n := by
  constructor
  · intro h v hv he
    have := (graph_find_go_some (v := v) hs).2 ⟨hv, he⟩
    rw [h] at this; exact absurd this (by simp)
  · intro h
    cases hfind : graph_find_vertex.go l n with
    | none => rfl
    | some v =>
      have := (graph_find_go_some (v := v) hs).1 hfind
      exact absurd this.2 (h v this.1)

theorem adj_find_some {l : List AdjNode} {d : Name} {a : AdjNode} (hs : SortedAdj l) :
    adj_find l d = some a ↔ a ∈ l ∧ a.dst = d := by
  induction l with
  | nil => simp [adj_find]
  | cons y ys ih =>
    rcases hs with - | ⟨hy, hys⟩
    by_cases h : y.dst < d
    · rw [adj_find, if_pos h, ih hys]
      constructor
      · rintro ⟨hv, rfl⟩; exact ⟨List.mem_cons_of_mem y hv, rfl⟩
      · rintro ⟨hv, rfl⟩
        rcases List.mem_cons.1 hv with rfl | hv
        · exact absurd h (lt_irrefl _)
        · exact ⟨hv, rfl⟩
    · rw [adj_find, if_neg h]
      by_cases he : y.dst = d
      · rw [if_pos he]
        constructor
        · rintro h'; injection h' with h'; subst h'; exact ⟨List.mem_cons_self _ _, he⟩
        · rintro ⟨hv, rfl⟩
          rcases List.mem_cons.1 hv with rfl | hv
          · rfl
          · exact absurd (he ▸ hy a hv) (lt_irrefl _)
      · rw [if_neg he]
        constructor
        · rintro h'; exact absurd h' (by simp)
        · rintro ⟨hv, rfl⟩
          rcases List.mem_cons.1 hv with rfl | hv
          · exact absurd rfl he
          · exact absurd (lt_trans (hy a hv) (lt_of_le_of_ne (not_lt.1 h) (Ne.symm he)))
              (by simp [lt_irrefl])

theorem adj_find_none {l : List AdjNode} {d : Name} (hs : SortedAdj l) :
    adj_find l d = none ↔ ∀ a ∈ l, a.dst ≠ d := by
  constructor
  · intro h a ha he
    have := (adj_find_some (a := a) hs).2 ⟨ha, he⟩
    rw [h] at this; exact absurd this (by simp)
  · intro h
    cases hfind : adj_find l d with
    | none => rfl
    | some a =>
      have := (adj_find_some (a := a) hs).1 hfind
      exact absurd this.2 (h a this.1)

theorem adj_list_insert_mem {l : List AdjNode} {a b : AdjNode}
    (h : b ∈ adj_list_insert l a) : b = a ∨ b ∈ l := by
  induction l with
  | nil => simpa [adj_list_insert] using h
  | cons y ys ih =>
    by_cases h1 : y.dst < a.dst
    · rw [adj_list_insert, if_pos h1] at h
      rcases List.mem_cons.1 h with rfl | h
      · exact Or.inr (List.mem_cons_self _ _)
      · rcases ih h with h | h
        · exact Or.inl h
        · exact Or.inr (List.mem_cons_of_mem y h)
    · rw [adj_list_insert, if_neg h1] at h
      by_cases h2 : y.dst = a.dst
      · rw [if_pos h2] at h
        rcases List.mem_cons.1 h with rfl | h
        · exact Or.inl (by simp [h2])
        · exact Or.inr (List.mem_cons_of_mem y h)
      · rw [if_neg h2] at h
        rcases List.mem_cons.1 h with rfl | h
        · exact Or.inl rfl
        · exact Or.inr h

theorem adj_list_insert_sorted {l : List AdjNode} {a : AdjNode}
    (hs : SortedAdj l) : SortedAdj (adj_list_insert l a) := by
  induction l with
  | nil => simp [adj_list_insert, SortedAdj]
  | cons y ys ih =>
    rcases hs with - | ⟨hy, hys⟩
    by_cases h1 : y.dst < a.dst
    · rw [adj_list_insert, if_pos h1]
      refine List.Pairwise.cons ?_ (ih hys)
      intro b hb
      rcases adj_list_insert_mem hb with rfl | hb
      · exact h1
      · exact hy b hb
    · rw [adj_list_insert, if_neg h1]
      by_cases h2 : y.dst = a.dst
      · rw [if_pos h2]
        exact List.Pairwise.cons (fun b hb => hy b hb) hys
      · rw [if_neg h2]
        have hay : a.dst < y.dst := lt_of_le_of_ne (not_lt.1 h1) (Ne.symm h2)
        refine List.Pairwise.cons ?_ (List.Pairwise.cons hy hys)
        intro b hb
        rcases List.mem_cons.1 hb with rfl | hb
        · exact hay
        · exact hay.trans (hy b hb)

theorem adj_find_insert {l : List AdjNode} (a : AdjNode) (d : Name)
    (hs : SortedAdj l) :
    adj_find (adj_list_insert l a) d = if d = a.dst then some a else adj_find l d := by
  induction l with
  | nil =>
    by_cases h : d = a.dst
    · simp [adj_list_insert, adj_find, h, lt_irrefl]
    · by_cases h2 : a.dst < d <;>
        simp [adj_list_insert, adj_find, h, h2, Ne.symm h]
  | cons y ys ih =>
    rcases hs with - | ⟨hy, hys⟩
    by_cases h1 : y.dst < a.dst
    · rw [adj_list_insert, if_pos h1]
      by_cases hyd : y.dst < d
      · rw [adj_find, if_pos hyd, ih hys, adj_find, if_pos hyd]
      · have hda : d ≠ a.dst := by
          intro he; exact hyd (he ▸ h1)
        rw [if_neg hda, adj_find, if_neg hyd, adj_find, if_neg hyd]
    · rw [adj_list_insert, if_neg h1]
      by_cases h2 : y.dst = a.dst
      · rw [if_pos h2]
        by_cases hyd : y.dst < d
        · have hda : d ≠ a.dst := by
            intro he; rw [he, ← h2] at hyd; exact lt_irrefl _ hyd
          rw [if_neg hda, adj_find, if_pos hyd, adj_find, if_pos hyd]
        · by_cases hed : y.dst = d
          · have : d = a.dst := hed ▸ h2
            rw [if_pos this, adj_find, if_neg hyd]
            simp [hed]
            rw [this]
          · have hda : d ≠ a.dst := fun he => hed (h2 ▸ he.symm)
            rw [if_neg hda, adj_find, if_neg hyd, if_neg hed, adj_find,
              if_neg hyd, if_neg hed]
      · have hay : a.dst < y.dst := lt_of_le_of_ne (not_lt.1 h1) (Ne.symm h2)
        rw [if_neg h2]
        by_cases hda : d = a.dst
        · rw [if_pos hda, adj_find, if_neg (by rw [hda]; exact lt_irrefl _),
            if_pos hda.symm]
        · rw [if_neg hda, adj_find]
          by_cases had : a.dst < d
          · rw [if_pos had]
          · rw [if_neg had, if_neg (fun h => hda h.symm)]
            have hdy : d < y.dst := lt_of_lt_of_le
              (lt_of_le_of_ne (not_lt.1 had) hda) (le_of_lt hay)
            rw [adj_find, if_neg (not_lt.2 (le_of_lt hdy)), if_neg (ne_of_gt hdy)]

theorem adj_list_insert_length {l : List AdjNode} (a : AdjNode) (hs : SortedAdj l) :
    (adj_list_insert l a).length =
      if (adj_find l a.dst).isSome then l.length else l.length + 1 := by
  induction l with
  | nil => simp [adj_list_insert, adj_find]
  | cons y ys ih =>
    rcases hs with - | ⟨hy, hys⟩
    by_cases h1 : y.dst < a.dst
    · rw [adj_list_insert, if_pos h1, adj_find, if_pos h1]
      simp only [List.length_cons, ih hys]
      by_cases h : (adj_find ys a.dst).isSome <;> simp [h]
    · rw [adj_list_insert, if_neg h1, adj_find, if_neg h1]
      by_cases h2 : y.dst = a.dst
      · simp [if_pos h2]
      · simp [if_neg h2]

theorem adj_list_insert_filter {l : List AdjNode} (a : AdjNode) (q : Name → Bool)
    (hs : SortedAdj l) :
    ((adj_list_insert l a).filter (fun b => q b.dst)).length =
      (l.filter (fun b => q b.dst)).length +
        (if (adj_find l a.dst).isNone ∧ q a.dst then 1 else 0) := by
  induction l with
  | nil =>
    by_cases h : q a.dst <;> simp [adj_list_insert, adj_find, List.filter, h]
  | cons y ys ih =>
    rcases hs with - | ⟨hy, hys⟩
    by_cases h1 : y.dst < a.dst
    · rw [adj_list_insert, if_pos h1, adj_find, if_pos h1]
      by_cases hq : q y.dst <;>
        simp [List.filter_cons, hq, ih hys] <;> try omega
    · rw [adj_list_insert, if_neg h1, adj_find, if_neg h1]
      by_cases h2 : y.dst = a.dst
      · rw [if_pos h2, if_pos h2]
        have : q y.dst = q a.dst := by rw [h2]
        by_cases hq : q a.dst <;>
          simp [List.filter_cons, this, hq]
      · rw [if_neg h2, if_neg h2]
        by_cases hqa : q a.dst <;> by_cases hqy : q y.dst <;>
          simp [List.filter_cons, hqa, hqy]

theorem update_vertex_map_name (l : List Vertex) (n : Name)
    (f : List AdjNode → List AdjNode) :
    (update_vertex l n f).map Vertex.name = l.map Vertex.name := by
  induction l with
  | nil => simp [update_vertex]
  | cons y ys ih =>
    by_cases h1 : y.name < n
    · simp [update_vertex, if_pos h1, ih]
    · by_cases h2 : y.name = n <;> simp [update_vertex, if_neg h1, h2]

theorem update_vertex_mem {l : List Vertex} {n : Name}
    {f : List AdjNode → List AdjNode} {v : Vertex}
    (h : v ∈ update_vertex l n f) :
    v ∈ l ∨ ∃ v0 ∈ l, v0.name = n ∧ v = ⟨v0.name, f v0.adj⟩ := by
  induction l with
  | nil => simpa [update_vertex] using h
  | cons y ys ih =>
    by_cases h1 : y.name < n
    · rw [update_vertex, if_pos h1] at h
      rcases List.mem_cons.1 h with rfl | h
      · exact Or.inl (List.mem_cons_self _ _)
      · rcases ih h with h | ⟨v0, hv0, hn, he⟩
        · exact Or.inl (List.mem_cons_of_mem y h)
        · exact Or.inr ⟨v0, List.mem_cons_of_mem y hv0, hn, he⟩
    · by_cases h2 : y.name = n
      · rw [update_vertex, if_neg h1, if_pos h2] at h
        rcases List.mem_cons.1 h with rfl | h
        · exact Or.inr ⟨y, List.mem_cons_self _ _, h2, rfl⟩
        · exact Or.inl (List.mem_cons_of_mem y h)
      · rw [update_vertex, if_neg h1, if_neg h2] at h
        exact Or.inl h

theorem update_vertex_find {l : List Vertex} (n m : Name)
    (f : List AdjNode → List AdjNode) (hs : SortedV l) :
    graph_find_vertex.go (update_vertex l n f) m =
      if m = n then
        (graph_find_vertex.go l n).map (fun v => ⟨v.name, f v.adj⟩)
      else graph_find_vertex.go l m := by
  induction l with
  | nil => by_cases h : m = n <;> simp [update_vertex, graph_find_vertex.go, h]
  | cons y ys ih =>
    rcases hs with - | ⟨hy, hys⟩
    rw [update_vertex]
    by_cases h1 : y.name < n
    · rw [if_pos h1]
      by_cases hm : m = n
      · subst hm
        rw [if_pos rfl, graph_find_vertex.go, if_pos h1,
          graph_find_vertex.go, if_pos h1, ih hys, if_pos rfl]
      · rw [if_neg hm, graph_find_vertex.go, graph_find_vertex.go]
        by_cases hym : y.name < m
        · rw [if_pos hym, if_pos hym, ih hys, if_neg hm]
        · rw [if_neg hym, if_neg hym]
    · rw [if_neg h1]
      by_cases h2 : y.name = n
      · rw [if_pos h2]
        by_cases hm : m = n
        · subst hm
          rw [if_pos rfl, graph_find_vertex.go, graph_find_vertex.go]
          dsimp only
          rw [if_neg h1, if_neg h1, if_pos h2, if_pos h2]
          simp
        · rw [if_neg hm, graph_find_vertex.go, graph_find_vertex.go]
          dsimp only
          by_cases hym : y.name < m
          · rw [if_pos hym, if_pos hym]
          · have hne : y.name ≠ m := fun he => hm (he.symm.trans h2)
            rw [if_neg hym, if_neg hym, if_neg hne, if_neg hne]
      · rw [if_neg h2]
        by_cases hm : m = n
        · subst hm
          rw [if_pos rfl, graph_find_vertex.go, if_neg h1, if_neg h2]
          simp
        · rw [if_neg hm]

theorem update_vertex_eq_of_none {l : List Vertex} {n : Name}
    (f : List AdjNode → List AdjNode)
    (h : graph_find_vertex.go l n = none) : update_vertex l n f = l := by
  induction l with
  | nil => rfl
  | cons y ys ih =>
    rw [graph_find_vertex.go] at h
    by_cases h1 : y.name < n
    · rw [if_pos h1] at h
      rw [update_vertex, if_pos h1, ih h]
    · rw [if_neg h1] at h
      by_cases h2 : y.name = n
      · rw [if_pos h2] at h; exact absurd h (by simp)
      · rw [update_vertex, if_neg h1, if_neg h2]

theorem update_vertex_sum {l : List Vertex} {n : Name} {v : Vertex}
    (f : List AdjNode → List AdjNode) (cf : Vertex → Nat)
    (h : graph_find_vertex.go l n = some v) :
    ((update_vertex l n f).map cf).sum + cf v
      = (l.map cf).sum + cf ⟨v.name, f v.adj⟩ := by
  induction l with
  | nil => simp [graph_find_vertex.go] at h
  | cons y ys ih =>
    rw [graph_find_vertex.go] at h
    by_cases h1 : y.name < n
    · rw [if_pos h1] at h
      rw [update_vertex, if_pos h1]
      simp only [List.map_cons, List.sum_cons]
      have := ih h
      omega
    · rw [if_neg h1] at h
      by_cases h2 : y.name = n
      · rw [if_pos h2] at h
        injection h with h
        subst h
        rw [update_vertex, if_neg h1, if_pos h2]
        simp only [List.map_cons, List.sum_cons]
        omega
      · rw [if_neg h2] at h
        exact absurd h (by simp)

theorem update_vertex_length (l : List Vertex) (n : Name)
    (f : List AdjNode → List AdjNode) :
    (update_vertex l n f).length = l.length := by
  have := congrArg List.length (update_vertex_map_name l n f)
  simpa using this

theorem hasEntry_iff_find {g : Graph} (hsV : SortedV g.v_head)
    (hsA : ∀ v ∈ g.v_head, SortedAdj v.adj) (u v : Name) (w : Int) :
    hasEntry g u v w ↔
      ∃ vx, graph_find_vertex g u = some vx ∧ adj_find vx.adj v = some ⟨v, w⟩ := by
  unfold hasEntry graph_find_vertex
  constructor
  · rintro ⟨vu, hmem, rfl, a, ha, rfl, rfl⟩
    refine ⟨vu, (graph_find_go_some hsV).2 ⟨hmem, rfl⟩, ?_⟩
    exact (adj_find_some (hsA vu hmem)).2 ⟨by cases a; exact ha, rfl⟩
  · rintro ⟨vx, hfind, hadj⟩
    obtain ⟨hmem, hname⟩ := (graph_find_go_some hsV).1 hfind
    obtain ⟨hamem, -⟩ := (adj_find_some (hsA vx hmem)).1 hadj
    exact ⟨vx, hmem, hname, ⟨v, w⟩, hamem, rfl, rfl⟩

theorem adj_list_insert_mem_iff {l : List AdjNode} {a b : AdjNode}
    (hs : SortedAdj l) :
    b ∈ adj_list_insert l a ↔ b = a ∨ (b ∈ l ∧ b.dst ≠ a.dst) := by
  have hs2 := adj_list_insert_sorted (a := a) hs
  constructor
  · intro h
    have hfind := (adj_find_some hs2).2 ⟨h, rfl⟩
    rw [adj_find_insert a b.dst hs] at hfind
    by_cases hd : b.dst = a.dst
    · rw [if_pos hd] at hfind
      injection hfind with hfind
      exact Or.inl hfind.symm
    · rw [if_neg hd] at hfind
      exact Or.inr ⟨((adj_find_some hs).1 hfind).1, hd⟩
  · rintro (rfl | ⟨h, hne⟩)
    · have hfind : adj_find (adj_list_insert l b) b.dst = some b := by
        rw [adj_find_insert b b.dst hs, if_pos rfl]
      exact ((adj_find_some hs2).1 hfind).1
    · have hfind : adj_find (adj_list_insert l a) b.dst = some b := by
        rw [adj_find_insert a b.dst hs, if_neg hne]
        exact (adj_find_some hs).2 ⟨h, rfl⟩
      exact ((adj_find_some hs2).1 hfind).1

theorem sortedV_of_map_name_eq {l l' : List Vertex}
    (h : l'.map Vertex.name = l.map Vertex.name) (hs : SortedV l) : SortedV l' := by
  have : (l.map Vertex.name).Pairwise (· < ·) := (List.pairwise_map).2 hs
  rw [← h] at this
  exact (List.pairwise_map).1 this

theorem go_isSome_of_map_name_eq {l l' : List Vertex} (m : Name)
    (h : l'.map Vertex.name = l.map Vertex.name) :
    (graph_find_vertex.go l' m).isSome = (graph_find_vertex.go l m).isSome := by
  induction l generalizing l' with
  | nil =>
    cases l' with
    | nil => rfl
    | cons y ys => simp at h
  | cons x xs ih =>
    cases l' with
    | nil => simp at h
    | cons y ys =>
      simp only [List.map_cons, List.cons.injEq] at h
      obtain ⟨h1, h2⟩ := h
      rw [graph_find_vertex.go, graph_find_vertex.go, h1]
      by_cases hlt : x.name < m
      · rw [if_pos hlt, if_pos hlt]; exact ih h2
      · rw [if_neg hlt, if_neg hlt]
        by_cases he : x.name = m <;> simp [he]

theorem vertex_create_of_valid {name : Name} (h : is_valid_name name = true) :
    vertex_create name = ⟨name, []⟩ := by
  have : name.length ≤ 256 := by
    simp only [is_valid_name, Bool.and_eq_true, decide_eq_true_eq, bne_iff_ne,
      ne_eq] at h
    exact h.1.2
  simp [vertex_create, List.take_of_length_le this]

/-- The empty graph produced by `graph_create` satisfies every invariant. -/

theorem wf_graph_create : GraphWF graph_create := by
  refine ⟨?_, ?_, ?_, ?_, ?_, ?_, ?_, ?_, ?_⟩ <;>
    simp [graph_create, SortedV, edgePairCount]

/-- `graph_add_vertex` preserves the graph invariants. -/

theorem wf_graph_add_vertex {g g' : Graph} {name : Name}
    (hwf : GraphWF g) (h : graph_add_vertex g name = some g') : GraphWF g' := by
  obtain ⟨hsV, hval, hsA, hcl, hns, hwr, hmir, hec, hvc⟩ := hwf
  unfold graph_add_vertex at h
  by_cases hv : is_valid_name name
  case neg => rw [if_pos (by simpa using hv)] at h; exact absurd h (by simp)
  rw [if_neg (by simpa using hv)] at h
  by_cases hex : (graph_find_vertex g name).isSome
  case pos => rw [if_pos hex] at h; exact absurd h (by simp)
  rw [if_neg hex] at h
  injection h with h
  subst h
  have hnone : graph_find_vertex.go g.v_head name = none := by
    unfold graph_find_vertex at hex
    cases hfind : graph_find_vertex.go g.v_head name with
    | none => rfl
    | some v => rw [hfind] at hex; simp at hex
  have hne := (graph_find_go_none hsV).1 hnone
  rw [vertex_create_of_valid hv]
  have hins_mem : ∀ x, x ∈ vertex_list_insert g.v_head ⟨name, []⟩ ↔
      x = ⟨name, []⟩ ∨ x ∈ g.v_head := fun x => vertex_list_insert_mem
  have hsV2 : SortedV (vertex_list_insert g.v_head ⟨name, []⟩) :=
    vertex_list_insert_sorted hsV (fun x hx => hne x hx)
  refine ⟨hsV2, ?_, ?_, ?_, ?_, ?_, ?_, ?_, ?_⟩
  · intro x hx
    rcases (hins_mem x).1 hx with rfl | hx
    · exact hv
    · exact hval x hx
  · intro x hx
    rcases (hins_mem x).1 hx with rfl | hx
    · simp [SortedAdj]
    · exact hsA x hx
  · intro x hx a ha
    rcases (hins_mem x).1 hx with rfl | hx
    · simp at ha
    · have := hcl x hx a ha
      unfold graph_vertex_exists graph_find_vertex at this ⊢
      rw [Option.isSome_iff_exists] at this
      obtain ⟨vx, hvx⟩ := this
      obtain ⟨hvmem, hvname⟩ := (graph_find_go_some hsV).1 hvx
      have : graph_find_vertex.go (vertex_list_insert g.v_head ⟨name, []⟩) a.dst
          = some vx := (graph_find_go_some hsV2).2 ⟨(hins_mem vx).2 (Or.inr hvmem), hvname⟩
      simp [this]
  · intro x hx a ha
    rcases (hins_mem x).1 hx with rfl | hx
    · simp at ha
    · exact hns x hx a ha
  · intro x hx a ha
    rcases (hins_mem x).1 hx with rfl | hx
    · simp at ha
    · exact hwr x hx a ha
  · intro x hx a ha
    rcases (hins_mem x).1 hx with rfl | hx
    · simp at ha
    · obtain ⟨vu, hvu, hvn, b, hb, hbd, hbw⟩ := hmir x hx a ha
      exact ⟨vu, (hins_mem vu).2 (Or.inr hvu), hvn, b, hb, hbd, hbw⟩
  · show g.e_count = edgePairCount _
    rw [hec]
    unfold edgePairCount
    rw [vertex_list_insert_map_sum]
    simp
  · show g.v_count + 1 = _
    rw [hvc]
    simp [vertex_list_insert_length]

theorem graph_add_edge_some_elim {g g' : Graph} {u_name v_name : Name} {w : Int}
    (h : graph_add_edge g u_name v_name w = some g') :
    ∃ u vv, is_valid_name u_name = true ∧ is_valid_name v_name = true ∧
      u_name ≠ v_name ∧ MIN_WEIGHT ≤ w ∧ w ≤ MAX_WEIGHT ∧
      graph_find_vertex g u_name = some u ∧ graph_find_vertex g v_name = some vv ∧
      g' = { g with
        v_head := update_vertex (update_vertex g.v_head u_name
            (fun adj => adj_list_insert adj ⟨v_name, w⟩)) v_name
            (fun adj => adj_list_insert adj ⟨u_name, w⟩),
        e_count := if (adj_find u.adj v_name).isNone then g.e_count + 1
          else g.e_count } := by
  unfold graph_add_edge at h
  by_cases h1 : is_valid_name u_name
  case neg => simp [h1] at h
  by_cases h2 : is_valid_name v_name
  case neg => simp [h1, h2] at h
  by_cases h3 : u_name = v_name
  case pos => simp [h1, h2, h3] at h
  by_cases h4 : w < MIN_WEIGHT
  case pos => simp [h1, h2, h3, h4] at h
  by_cases h5 : w > MAX_WEIGHT
  case pos => simp [h1, h2, h3, h4, h5] at h
  rw [if_neg (by simp [h1, h2]), if_neg h3, if_neg (by simp [h4, h5])] at h
  cases hfu : graph_find_vertex g u_name with
  | none => rw [hfu] at h; exact absurd h (by simp)
  | some u =>
    cases hfv : graph_find_vertex g v_name with
    | none => rw [hfu, hfv] at h; exact absurd h (by simp)
    | some vv =>
      rw [hfu, hfv] at h
      injection h with h
      exact ⟨u, vv, h1, h2, h3, by omega, by omega, rfl, rfl, h.symm⟩

/-- Filter-length effect of `adj_list_insert` for the edge-pair counter. -/

theorem adj_list_insert_filter_lt {l : List AdjNode} (a : AdjNode) (nm : Name)
    (hs : SortedAdj l) :
    ((adj_list_insert l a).filter (fun b => nm < b.dst)).length =
      (l.filter (fun b => nm < b.dst)).length +
        (if (adj_find l a.dst).isNone ∧ nm < a.dst then 1 else 0) := by
  have h := adj_list_insert_filter (l := l) a (fun d => decide (nm < d)) hs
  simpa using h

/-- `graph_add_edge` preserves the graph invariants. -/

theorem wf_graph_add_edge {g g' : Graph} {u_name v_name : Name} {w : Int}
    (hwf : GraphWF g) (h : graph_add_edge g u_name v_name w = some g') : GraphWF g' := by
  obtain ⟨hsV, hval, hsA, hcl, hns, hwr, hmir, hec, hvc⟩ := hwf
  obtain ⟨u, vv, hv1, hv2, hself, hwlo, hwhi, hfu, hfv, hg⟩ :=
    graph_add_edge_some_elim h
  obtain ⟨hu_mem, hu_name⟩ := (graph_find_go_some hsV).1 hfu
  obtain ⟨hv_mem, hv_name⟩ := (graph_find_go_some hsV).1 hfv
  set fU : List AdjNode → List AdjNode :=
    fun adj => adj_list_insert adj ⟨v_name, w⟩ with hfU
  set fV : List AdjNode → List AdjNode :=
    fun adj => adj_list_insert adj ⟨u_name, w⟩ with hfV
  set l1 : List Vertex := update_vertex g.v_head u_name fU with hl1
  set l2 : List Vertex := update_vertex l1 v_name fV with hl2
  rw [hg]
  set gNew : Graph :=
    { v_head := l2, v_count := g.v_count,
      e_count := if (adj_find u.adj v_name).isNone then g.e_count + 1
        else g.e_count } with hgNew
  have hvhead : gNew.v_head = l2 := rfl
  have hecount : gNew.e_count =
      (if (adj_find u.adj v_name).isNone then g.e_count + 1 else g.e_count) := rfl
  have hnames1 : l1.map Vertex.name = g.v_head.map Vertex.name :=
    update_vertex_map_name _ _ _
  have hnames2 : l2.map Vertex.name = g.v_head.map Vertex.name := by
    rw [hl2, update_vertex_map_name _ _ _, hnames1]
  have hsV1 : SortedV l1 := sortedV_of_map_name_eq hnames1 hsV
  have hsV2 : SortedV l2 := sortedV_of_map_name_eq hnames2 hsV
  have hgo1 : ∀ m, graph_find_vertex.go l1 m =
      if m = u_name then (graph_find_vertex.go g.v_head u_name).map
        (fun v => ⟨v.name, fU v.adj⟩)
      else graph_find_vertex.go g.v_head m :=
    fun m => update_vertex_find u_name m fU hsV
  have hgo2 : ∀ m, graph_find_vertex.go l2 m =
      if m = v_name then (graph_find_vertex.go l1 v_name).map
        (fun v => ⟨v.name, fV v.adj⟩)
      else graph_find_vertex.go l1 m :=
    fun m => update_vertex_find v_name m fV hsV1
  have hfu' : graph_find_vertex.go g.v_head u_name = some u := hfu
  have hfv' : graph_find_vertex.go g.v_head v_name = some vv := hfv
  have hfind_u2 : graph_find_vertex.go l2 u_name = some ⟨u.name, fU u.adj⟩ := by
    rw [hgo2, if_neg hself, hgo1, if_pos rfl, hfu']
    rfl
  have hfind_v2 : graph_find_vertex.go l2 v_name = some ⟨vv.name, fV vv.adj⟩ := by
    rw [hgo2, if_pos rfl, hgo1, if_neg (Ne.symm hself), hfv']
    rfl
  have hfind_other : ∀ m, m ≠ u_name → m ≠ v_name →
      graph_find_vertex.go l2 m = graph_find_vertex.go g.v_head m := by
    intro m hmu hmv
    rw [hgo2, if_neg hmv, hgo1, if_neg hmu]
  have hfindg : ∀ m, graph_find_vertex gNew m = graph_find_vertex.go l2 m :=
    fun m => rfl
  have hcases : ∀ x ∈ l2, x = ⟨u.name, fU u.adj⟩ ∨ x = ⟨vv.name, fV vv.adj⟩ ∨
      (x ∈ g.v_head ∧ x.name ≠ u_name ∧ x.name ≠ v_name) := by
    intro x hx
    have hgx : graph_find_vertex.go l2 x.name = some x :=
      (graph_find_go_some hsV2).2 ⟨hx, rfl⟩
    by_cases hxu : x.name = u_name
    · rw [hxu, hfind_u2] at hgx
      injection hgx with hgx
      exact Or.inl hgx.symm
    · by_cases hxv : x.name = v_name
      · rw [hxv, hfind_v2] at hgx
        injection hgx with hgx
        exact Or.inr (Or.inl hgx.symm)
      · rw [hfind_other x.name hxu hxv] at hgx
        exact Or.inr (Or.inr ⟨((graph_find_go_some hsV).1 hgx).1, hxu, hxv⟩)
  have hsAu : SortedAdj u.adj := hsA u hu_mem
  have hsAv : SortedAdj vv.adj := hsA vv hv_mem
  have hmemiffU : ∀ a : AdjNode, a ∈ fU u.adj ↔ a = ⟨v_name, w⟩ ∨
      (a ∈ u.adj ∧ a.dst ≠ v_name) := fun a => adj_list_insert_mem_iff hsAu
  have hmemiffV : ∀ a : AdjNode, a ∈ fV vv.adj ↔ a = ⟨u_name, w⟩ ∨
      (a ∈ vv.adj ∧ a.dst ≠ u_name) := fun a => adj_list_insert_mem_iff hsAv
  have hexists_transfer : ∀ m, (graph_find_vertex.go l2 m).isSome =
      (graph_find_vertex.go g.v_head m).isSome :=
    fun m => go_isSome_of_map_name_eq m hnames2
  have hsA2 : ∀ x ∈ l2, SortedAdj x.adj := by
    intro x hx
    rcases hcases x hx with rfl | rfl | ⟨hx2, -, -⟩
    · exact adj_list_insert_sorted hsAu
    · exact adj_list_insert_sorted hsAv
    · exact hsA x hx2
  have htrans : ∀ m, graph_vertex_exists gNew m = graph_vertex_exists g m := by
    intro m
    unfold graph_vertex_exists graph_find_vertex
    exact hexists_transfer m
  refine ⟨hsV2, ?_, hsA2, ?_, ?_, ?_, ?_, ?_, ?_⟩
  · -- valid names
    intro x hx
    rcases hcases x hx with rfl | rfl | ⟨hx2, -, -⟩
    · exact hval u hu_mem
    · exact hval vv hv_mem
    · exact hval x hx2
  · -- closure of adjacency destinations
    intro x hx a ha
    rcases hcases x hx with rfl | rfl | ⟨hx2, -, -⟩
    · rcases (hmemiffU a).1 ha with rfl | ⟨ha2, -⟩
      · rw [htrans]
        show (graph_find_vertex g v_name).isSome = true
        rw [hfv]
        rfl
      · rw [htrans]
        exact hcl u hu_mem a ha2
    · rcases (hmemiffV a).1 ha with rfl | ⟨ha2, -⟩
      · rw [htrans]
        show (graph_find_vertex g u_name).isSome = true
        rw [hfu]
        rfl
      · rw [htrans]
        exact hcl vv hv_mem a ha2
    · rw [htrans]
      exact hcl x hx2 a ha
  · -- no self loops
    intro x hx a ha
    rcases hcases x hx with rfl | rfl | ⟨hx2, -, -⟩
    · rcases (hmemiffU a).1 ha with rfl | ⟨ha2, -⟩
      · show v_name ≠ u.name
        rw [hu_name]
        exact Ne.symm hself
      · exact hns u hu_mem a ha2
    · rcases (hmemiffV a).1 ha with rfl | ⟨ha2, -⟩
      · show u_name ≠ vv.name
        rw [hv_name]
        exact hself
      · exact hns vv hv_mem a ha2
    · exact hns x hx2 a ha
  · -- weight range
    intro x hx a ha
    rcases hcases x hx with rfl | rfl | ⟨hx2, -, -⟩
    · rcases (hmemiffU a).1 ha with rfl | ⟨ha2, -⟩
      · exact ⟨hwlo, hwhi⟩
      · exact hwr u hu_mem a ha2
    · rcases (hmemiffV a).1 ha with rfl | ⟨ha2, -⟩
      · exact ⟨hwlo, hwhi⟩
      · exact hwr vv hv_mem a ha2
    · exact hwr x hx2 a ha
  · -- mirrored entries
    intro x hx a ha
    have hmir_old : ∀ (y : Vertex) (b : AdjNode), y ∈ g.v_head → b ∈ y.adj →
        b.dst ≠ u_name → b.dst ≠ v_name →
        hasEntry gNew b.dst y.name b.weight := by
      intro y b hy hb hbu hbv
      have hold := hmir y hy b hb
      rw [hasEntry_iff_find hsV hsA] at hold
      obtain ⟨vp, hvp, hadj⟩ := hold
      rw [hasEntry_iff_find hsV2 hsA2]
      refine ⟨vp, ?_, hadj⟩
      rw [hfindg, hfind_other b.dst hbu hbv]
      exact hvp
    rcases hcases x hx with rfl | rfl | ⟨hx2, hxu, hxv⟩
    · rcases (hmemiffU a).1 ha with rfl | ⟨ha2, hadst⟩
      · rw [hasEntry_iff_find hsV2 hsA2]
        refine ⟨⟨vv.name, fV vv.adj⟩, by rw [hfindg]; exact hfind_v2, ?_⟩
        show adj_find (adj_list_insert vv.adj ⟨u_name, w⟩) u.name = _
        rw [hu_name, adj_find_insert _ _ hsAv, if_pos rfl]
      · have hbu : a.dst ≠ u_name := by
          rw [← hu_name]
          exact hns u hu_mem a ha2
        exact hmir_old u a hu_mem ha2 hbu hadst
    · rcases (hmemiffV a).1 ha with rfl | ⟨ha2, hadst⟩
      · rw [hasEntry_iff_find hsV2 hsA2]
        refine ⟨⟨u.name, fU u.adj⟩, by rw [hfindg]; exact hfind_u2, ?_⟩
        show adj_find (adj_list_insert u.adj ⟨v_name, w⟩) vv.name = _
        rw [hv_name, adj_find_insert _ _ hsAu, if_pos rfl]
      · have hbv : a.dst ≠ v_name := by
          rw [← hv_name]
          exact hns vv hv_mem a ha2
        exact hmir_old vv a hv_mem ha2 hadst hbv
    · have hold := hmir x hx2 a ha
      rw [hasEntry_iff_find hsV hsA] at hold
      obtain ⟨vp, hvp, hadj⟩ := hold
      rw [hasEntry_iff_find hsV2 hsA2]
      by_cases hdu : a.dst = u_name
      · have hvpu : vp = u := by
          rw [hdu, hfu] at hvp
          injection hvp with hvp2
          exact hvp2.symm
        rw [hvpu] at hadj
        refine ⟨⟨u.name, fU u.adj⟩, by rw [hfindg, hdu]; exact hfind_u2, ?_⟩
        show adj_find (adj_list_insert u.adj ⟨v_name, w⟩) x.name = _
        rw [adj_find_insert _ _ hsAu, if_neg hxv]
        exact hadj
      · by_cases hdv : a.dst = v_name
        · have hvpv : vp = vv := by
            rw [hdv, hfv] at hvp
            injection hvp with hvp2
            exact hvp2.symm
          rw [hvpv] at hadj
          refine ⟨⟨vv.name, fV vv.adj⟩, by rw [hfindg, hdv]; exact hfind_v2, ?_⟩
          show adj_find (adj_list_insert vv.adj ⟨u_name, w⟩) x.name = _
          rw [adj_find_insert _ _ hsAv, if_neg hxu]
          exact hadj
        · refine ⟨vp, ?_, hadj⟩
          rw [hfindg, hfind_other a.dst hdu hdv]
          exact hvp
  · -- edge count
    show gNew.e_count = edgePairCount gNew
    have hgo1v : graph_find_vertex.go l1 v_name = some vv := by
      rw [hgo1, if_neg (Ne.symm hself)]
      exact hfv'
    have hsum1 := update_vertex_sum (l := g.v_head) (n := u_name) (v := u) fU
      (fun v => (v.adj.filter (fun a => v.name < a.dst)).length) hfu'
    have hsum2 := update_vertex_sum (l := l1) (n := v_name) (v := vv) fV
      (fun v => (v.adj.filter (fun a => v.name < a.dst)).length) hgo1v
    rw [← hl1] at hsum1
    rw [← hl2] at hsum2
    dsimp only at hsum1 hsum2
    have hcfu : ((fU u.adj).filter (fun b => u.name < b.dst)).length =
        (u.adj.filter (fun b => u.name < b.dst)).length +
          (if (adj_find u.adj v_name).isNone ∧ u.name < v_name then 1 else 0) :=
      adj_list_insert_filter_lt ⟨v_name, w⟩ u.name hsAu
    have hcfv : ((fV vv.adj).filter (fun b => vv.name < b.dst)).length =
        (vv.adj.filter (fun b => vv.name < b.dst)).length +
          (if (adj_find vv.adj u_name).isNone ∧ vv.name < u_name then 1 else 0) :=
      adj_list_insert_filter_lt ⟨u_name, w⟩ vv.name hsAv
    have hsym : (adj_find vv.adj u_name).isSome = (adj_find u.adj v_name).isSome := by
      have h1 : (adj_find u.adj v_name).isSome → (adj_find vv.adj u_name).isSome := by
        intro hs
        rw [Option.isSome_iff_exists] at hs
        obtain ⟨a, ha⟩ := hs
        obtain ⟨hamem, hadst⟩ := (adj_find_some hsAu).1 ha
        have hme := hmir u hu_mem a hamem
        rw [hasEntry_iff_find hsV hsA] at hme
        obtain ⟨vp, hvp, hadj⟩ := hme
        rw [hadst, hfv] at hvp
        injection hvp with hvp
        subst hvp
        rw [← hu_name, hadj]
        rfl
      have h2 : (adj_find vv.adj u_name).isSome → (adj_find u.adj v_name).isSome := by
        intro hs
        rw [Option.isSome_iff_exists] at hs
        obtain ⟨a, ha⟩ := hs
        obtain ⟨hamem, hadst⟩ := (adj_find_some hsAv).1 ha
        have hme := hmir vv hv_mem a hamem
        rw [hasEntry_iff_find hsV hsA] at hme
        obtain ⟨vp, hvp, hadj⟩ := hme
        rw [hadst, hfu] at hvp
        injection hvp with hvp
        subst hvp
        rw [← hv_name, hadj]
        rfl
      cases hcase : (adj_find u.adj v_name).isSome with
      | true => simp [h1 (by rw [hcase])]
      | false =>
        cases hcase2 : (adj_find vv.adj u_name).isSome with
        | true =>
          have hX := h2 (by rw [hcase2])
          rw [hcase] at hX
          simp at hX
        | false => rfl
    rw [hecount]
    show _ = (l2.map (fun v => (v.adj.filter (fun a => v.name < a.dst)).length)).sum
    unfold edgePairCount at hec
    have hfindnone : (adj_find u.adj v_name).isNone = true ∨
        (adj_find u.adj v_name).isNone = false := by
      cases (adj_find u.adj v_name).isNone <;> simp
    have hsymnone : (adj_find vv.adj u_name).isNone = (adj_find u.adj v_name).isNone := by
      cases hx : adj_find vv.adj u_name <;> cases hy : adj_find u.adj v_name <;>
        rw [hx, hy] at hsym <;> simp_all
    rcases hfindnone with hnew | hnew
    · rw [if_pos hnew]
      rw [hnew] at hcfu
      rw [hsymnone, hnew] at hcfv
      rcases lt_trichotomy u_name v_name with hlt | heq | hgt
      · rw [if_pos ⟨rfl, hu_name ▸ hlt⟩] at hcfu
        rw [if_neg (by rw [hv_name]; exact fun hx => absurd hx.2 (not_lt.2 (le_of_lt hlt)))] at hcfv
        omega
      · exact absurd heq hself
      · rw [if_neg (by rw [hu_name]; exact fun hx => absurd hx.2 (not_lt.2 (le_of_lt hgt)))] at hcfu
        rw [if_pos ⟨rfl, hv_name ▸ hgt⟩] at hcfv
        omega
    · rw [if_neg (by rw [hnew]; exact fun hx => nomatch hx)]
      rw [hnew] at hcfu
      rw [hsymnone, hnew] at hcfv
      rw [if_neg (by exact fun hx => nomatch hx.1)] at hcfu
      rw [if_neg (by exact fun hx => nomatch hx.1)] at hcfv
      omega
  · -- vertex count
    show g.v_count = gNew.v_head.length
    rw [hvhead, hvc, hl2, update_vertex_length, hl1, update_vertex_length]

/-- Weight-overwrite on an existing destination keeps the destination list. -/

theorem adj_list_insert_map_dst_of_found {l : List AdjNode} {a : AdjNode}
    (hs : SortedAdj l) (h : (adj_find l a.dst).isSome = true) :
    (adj_list_insert l a).map AdjNode.dst = l.map AdjNode.dst := by
  induction l with
  | nil => rw [adj_find] at h; exact absurd h (by simp)
  | cons y ys ih =>
    rcases hs with - | ⟨hy, hys⟩
    rw [adj_find] at h
    by_cases h1 : y.dst < a.dst
    · rw [if_pos h1] at h
      rw [adj_list_insert, if_pos h1, List.map_cons, List.map_cons, ih hys h]
    · rw [if_neg h1] at h
      by_cases h2 : y.dst = a.dst
      · rw [adj_list_insert, if_neg h1, if_pos h2]
        simp [h2]
      · rw [if_neg h2] at h
        exact absurd h (by simp)

/-- On a sorted adjacency list the linear `find?` scan used by
`graph_get_edge_weight` agrees with the early-exit `adj_find` scan. -/

theorem find?_eq_adj_find {l : List AdjNode} (d : Name) (hs : SortedAdj l) :
    l.find? (fun b => b.dst = d) = adj_find l d := by
  induction l with
  | nil => simp [adj_find]
  | cons y ys ih =>
    rcases hs with - | ⟨hy, hys⟩
    by_cases h2 : y.dst = d
    · rw [List.find?_cons_of_pos _ (by simp [h2]), adj_find,
        if_neg (by rw [h2]; exact lt_irrefl _), if_pos h2]
    · rw [List.find?_cons_of_neg _ (by simp [h2]), adj_find]
      by_cases h1 : y.dst < d
      · rw [if_pos h1, ih hys]
      · rw [if_neg h1, if_neg h2]
        have hdy : d < y.dst := lt_of_le_of_ne (not_lt.1 h1) (fun he => h2 he.symm)
        rw [List.find?_eq_none.2]
        intro b hb
        have : y.dst < b.dst := hy b hb
        simp only [decide_eq_true_eq]
        exact fun he => absurd (he ▸ (hdy.trans this)) (lt_irrefl _)

/-- Derived symmetry: an entry (u→v,w) exists iff its mirror (v→u,w) does. -/

theorem hasEntry_symm_of_wf {g : Graph} (hwf : GraphWF g) (u v : Name) (w : Int) :
    hasEntry g u v w ↔ hasEntry g v u w := by
  obtain ⟨-, -, -, -, -, -, hmir, -, -⟩ := hwf
  constructor
  · rintro ⟨vu, hmem, rfl, a, ha, rfl, rfl⟩
    exact hmir vu hmem a ha
  · rintro ⟨vu, hmem, rfl, a, ha, rfl, rfl⟩
    exact hmir vu hmem a ha

theorem specInvariants_of_wf {g : Graph} (hwf : GraphWF g) : SpecInvariants g := by
  have hsym := hasEntry_symm_of_wf hwf
  obtain ⟨hsV, -, hsA, -, hns, -, -, hec, -⟩ := hwf
  refine ⟨hsV, ?_, ?_, hsym, hns, hec⟩
  · exact (List.pairwise_map.2 hsV).imp ne_of_lt
  · intro v hv
    exact ⟨hsA v hv, ((List.pairwise_map.2 (hsA v hv)).imp ne_of_lt)⟩

/-- Claim C3: after every successful graph mutation (`graph_add_vertex` or
`graph_add_edge`) starting from an invariant-satisfying graph (as every graph
built from `graph_create` is), the vertex collection is sorted ascending by
name with no duplicates, each adjacency list is sorted by neighbor name with
no duplicate neighbor, an entry (u→v,w) exists iff the mirrored entry
(v→u,w) exists, there are no self-referential entries, and the logical edge
count equals the number of distinct unordered joined pairs. -/

theorem C3_mutation_invariants :
    (GraphWF graph_create ∧ SpecInvariants graph_create) ∧
    ∀ g : Graph, GraphWF g →
      (∀ name g', graph_add_vertex g name = some g' →
        GraphWF g' ∧ SpecInvariants g') ∧
      (∀ u v w g', graph_add_edge g u v w = some g' →
        GraphWF g' ∧ SpecInvariants g') := by
  refine ⟨⟨wf_graph_create, specInvariants_of_wf wf_graph_create⟩, ?_⟩
  intro g hwf
  constructor
  · intro name g' h
    have h2 := wf_graph_add_vertex hwf h
    exact ⟨h2, specInvariants_of_wf h2⟩
  · intro u v w g' h
    have h2 := wf_graph_add_edge hwf h
    exact ⟨h2, specInvariants_of_wf h2⟩

/-- Witness for C3 at a concrete mutation: adding edge (A,B,5) to the
two-vertex graph preserves the invariant bundle. -/

theorem C3_mutation_invariants_witness :
    GraphWF ⟨[⟨['A'], [⟨['B'], 5⟩]⟩, ⟨['B'], [⟨['A'], 5⟩]⟩], 2, 1⟩ ∧
    SpecInvariants ⟨[⟨['A'], [⟨['B'], 5⟩]⟩, ⟨['B'], [⟨['A'], 5⟩]⟩], 2, 1⟩ :=
  (C3_mutation_invariants.2 ⟨[⟨['A'], []⟩, ⟨['B'], []⟩], 2, 0⟩ (by decide)).2
    ['A'] ['B'] 5 ⟨[⟨['A'], [⟨['B'], 5⟩]⟩, ⟨['B'], [⟨['A'], 5⟩]⟩], 2, 1⟩ (by decide)

/-- Success of `graph_add_edge` once all validation passes. -/

theorem graph_add_edge_eq_some {g : Graph} {u_name v_name : Name} {w : Int}
    {u vvx : Vertex}
    (h1 : is_valid_name u_name = true) (h2 : is_valid_name v_name = true)
    (h3 : u_name ≠ v_name) (h4 : MIN_WEIGHT ≤ w) (h5 : w ≤ MAX_WEIGHT)
    (hfu : graph_find_vertex g u_name = some u)
    (hfv : graph_find_vertex g v_name = some vvx) :
    graph_add_edge g u_name v_name w = some
      (Graph.mk
        (update_vertex (update_vertex g.v_head u_name
          (fun adj => adj_list_insert adj ⟨v_name, w⟩)) v_name
          (fun adj => adj_list_insert adj ⟨u_name, w⟩))
        g.v_count
        (if (adj_find u.adj v_name).isNone then g.e_count + 1
          else g.e_count)) := by
  unfold graph_add_edge
  rw [if_neg (by simp [h1, h2]), if_neg h3,
    if_neg (by simp only [Bool.or_eq_true, decide_eq_true_eq]; omega), hfu, hfv]

/-- Claim C4: re-adding an existing edge with a fresh valid weight succeeds,
overwrites the weight visible from both directions, and leaves the vertex
list, every neighbor list and the logical edge count unchanged. -/

theorem C4_edge_overwrite (g : Graph) (hwf : GraphWF g) (u v : Name) (w : Int)
    (hedge : graph_edge_exists g u v = true)
    (hw1 : MIN_WEIGHT ≤ w) (hw2 : w ≤ MAX_WEIGHT) :
    ∃ g', graph_add_edge g u v w = some g' ∧
      graph_get_all_vertices g' = graph_get_all_vertices g ∧
      (∀ m, graph_get_neighbors g' m = graph_get_neighbors g m) ∧
      g'.e_count = g.e_count ∧
      graph_get_edge_weight g' u v = w ∧
      graph_get_edge_weight g' v u = w := by
  obtain ⟨hsV, hval, hsA, hcl, hns, hwr, hmir, hec, hvc⟩ := hwf
  unfold graph_edge_exists at hedge
  cases hfu : graph_find_vertex g u with
  | none => rw [hfu] at hedge; exact absurd hedge (by simp)
  | some uv =>
  rw [hfu] at hedge
  obtain ⟨hu_mem, hu_name⟩ := (graph_find_go_some hsV).1 hfu
  have hsAu : SortedAdj uv.adj := hsA uv hu_mem
  rw [Option.isSome_iff_exists] at hedge
  obtain ⟨a, ha⟩ := hedge
  obtain ⟨ha_mem, ha_dst⟩ := (adj_find_some hsAu).1 ha
  -- the destination vertex exists, with its mirrored entry
  have hmirr := hmir uv hu_mem a ha_mem
  rw [hasEntry_iff_find hsV hsA] at hmirr
  obtain ⟨vvx, hfv0, hadjv⟩ := hmirr
  rw [ha_dst] at hfv0
  have hfv : graph_find_vertex g v = some vvx := hfv0
  obtain ⟨hv_mem, hv_name⟩ := (graph_find_go_some hsV).1 hfv
  have hsAv : SortedAdj vvx.adj := hsA vvx hv_mem
  have hself : u ≠ v := by
    have := hns uv hu_mem a ha_mem
    rw [ha_dst, hu_name] at this
    exact (Ne.symm this)
  have hvalu : is_valid_name u = true := hu_name ▸ hval uv hu_mem
  have hvalv : is_valid_name v = true := hv_name ▸ hval vvx hv_mem
  have heq := graph_add_edge_eq_some (g := g) (w := w) hvalu hvalv hself hw1 hw2 hfu hfv
  rw [show (adj_find uv.adj v).isNone = false by rw [ha]; rfl] at heq
  rw [if_neg (by simp)] at heq
  refine ⟨_, heq, ?_, ?_, rfl, ?_, ?_⟩
  · -- vertex names unchanged
    unfold graph_get_all_vertices
    show (update_vertex _ _ _).map Vertex.name = _
    rw [update_vertex_map_name, update_vertex_map_name]
  · -- neighbor lists unchanged
    intro m
    set fU : List AdjNode → List AdjNode :=
      fun adj => adj_list_insert adj ⟨v, w⟩ with hfUd
    set fV : List AdjNode → List AdjNode :=
      fun adj => adj_list_insert adj ⟨u, w⟩ with hfVd
    have hsV1 : SortedV (update_vertex g.v_head u fU) :=
      sortedV_of_map_name_eq (update_vertex_map_name _ _ _) hsV
    have hdstU : (fU uv.adj).map AdjNode.dst = uv.adj.map AdjNode.dst :=
      adj_list_insert_map_dst_of_found hsAu (by rw [show (⟨v, w⟩ : AdjNode).dst = v from rfl, ha]; rfl)
    have hfadjv : (adj_find vvx.adj u).isSome = true := by
      rw [← hu_name, hadjv]; rfl
    have hdstV : (fV vvx.adj).map AdjNode.dst = vvx.adj.map AdjNode.dst :=
      adj_list_insert_map_dst_of_found hsAv hfadjv
    have hgofu : graph_find_vertex.go g.v_head u = some uv := hfu
    have hgofv : graph_find_vertex.go g.v_head v = some vvx := hfv0
    unfold graph_get_neighbors
    show ((graph_find_vertex.go (update_vertex (update_vertex g.v_head u fU) v fV) m).map _) = _
    rw [update_vertex_find v m fV hsV1, update_vertex_find u m fU hsV]
    by_cases hmv : m = v
    · rw [if_pos hmv, update_vertex_find u v fU hsV, if_neg (Ne.symm hself),
        hgofv, hmv, hfv0]
      simp [hdstV]
    · rw [if_neg hmv]
      by_cases hmu : m = u
      · rw [if_pos hmu, hgofu, hmu, hfu]
        simp [hdstU]
      · rw [if_neg hmu]
        rfl
  · -- weight reads w in the u→v direction
    set fU : List AdjNode → List AdjNode :=
      fun adj => adj_list_insert adj ⟨v, w⟩ with hfUd
    set fV : List AdjNode → List AdjNode :=
      fun adj => adj_list_insert adj ⟨u, w⟩ with hfVd
    have hsV1 : SortedV (update_vertex g.v_head u fU) :=
      sortedV_of_map_name_eq (update_vertex_map_name _ _ _) hsV
    have hgofu : graph_find_vertex.go g.v_head u = some uv := hfu
    unfold graph_get_edge_weight
    show (match (graph_find_vertex.go
        (update_vertex (update_vertex g.v_head u fU) v fV) u) with
      | none => (-1 : Int)
      | some vtx => match vtx.adj.find? (fun b => b.dst = v) with
        | some b => b.weight
        | none => -1) = w
    rw [update_vertex_find v u fV hsV1, if_neg hself,
      update_vertex_find u u fU hsV, if_pos rfl, hgofu]
    have hsIns : SortedAdj (fU uv.adj) := adj_list_insert_sorted hsAu
    show (match (fU uv.adj).find? (fun b => b.dst = v) with
      | some b => b.weight
      | none => (-1 : Int)) = w
    rw [find?_eq_adj_find v hsIns,
      show fU uv.adj = adj_list_insert uv.adj ⟨v, w⟩ from rfl,
      adj_find_insert _ _ hsAu, if_pos rfl]
  · -- weight reads w in the v→u direction
    set fU : List AdjNode → List AdjNode :=
      fun adj => adj_list_insert adj ⟨v, w⟩ with hfUd
    set fV : List AdjNode → List AdjNode :=
      fun adj => adj_list_insert adj ⟨u, w⟩ with hfVd
    have hsV1 : SortedV (update_vertex g.v_head u fU) :=
      sortedV_of_map_name_eq (update_vertex_map_name _ _ _) hsV
    have hgofv : graph_find_vertex.go g.v_head v = some vvx := hfv0
    unfold graph_get_edge_weight
    show (match (graph_find_vertex.go
        (update_vertex (update_vertex g.v_head u fU) v fV) v) with
      | none => (-1 : Int)
      | some vtx => match vtx.adj.find? (fun b => b.dst = u) with
        | some b => b.weight
        | none => -1) = w
    rw [update_vertex_find v v fV hsV1, if_pos rfl,
      update_vertex_find u v fU hsV, if_neg (Ne.symm hself), hgofv]
    have hsIns : SortedAdj (fV vvx.adj) := adj_list_insert_sorted hsAv
    show (match (fV vvx.adj).find? (fun b => b.dst = u) with
      | some b => b.weight
      | none => (-1 : Int)) = w
    rw [find?_eq_adj_find u hsIns,
      show fV vvx.adj = adj_list_insert vvx.adj ⟨u, w⟩ from rfl,
      adj_find_insert _ _ hsAv, if_pos rfl]

/-- Witness for C4: on the graph holding edge (A,B,5), re-adding the edge as
(B,A,9) keeps one logical edge and both directed weights read 9. -/

theorem C4_edge_overwrite_witness :
    ∃ g', graph_add_edge ⟨[⟨['A'], [⟨['B'], 5⟩]⟩, ⟨['B'], [⟨['A'], 5⟩]⟩], 2, 1⟩
        ['B'] ['A'] 9 = some g' ∧
      graph_get_all_vertices g' =
        graph_get_all_vertices ⟨[⟨['A'], [⟨['B'], 5⟩]⟩, ⟨['B'], [⟨['A'], 5⟩]⟩], 2, 1⟩ ∧
      (∀ m, graph_get_neighbors g' m =
        graph_get_neighbors ⟨[⟨['A'], [⟨['B'], 5⟩]⟩, ⟨['B'], [⟨['A'], 5⟩]⟩], 2, 1⟩ m) ∧
      g'.e_count = (⟨[⟨['A'], [⟨['B'], 5⟩]⟩, ⟨['B'], [⟨['A'], 5⟩]⟩], 2, 1⟩ : Graph).e_count ∧
      graph_get_edge_weight g' ['B'] ['A'] = 9 ∧
      graph_get_edge_weight g' ['A'] ['B'] = 9 :=
  C4_edge_overwrite ⟨[⟨['A'], [⟨['B'], 5⟩]⟩, ⟨['B'], [⟨['A'], 5⟩]⟩], 2, 1⟩
    (by decide) ['B'] ['A'] 9 (by decide) (by decide) (by decide)

/-- Claim C7 (code bug): the FINAL `heap_push` does not reject negative
keys — pushing key −1 inserts the entry and returns slot 0, although the
module's own documentation demands keys ≥ 0 and `test_heap_neg.c` requires
`heap_push(h, NULL, -1) == SIZE_MAX`; only the data_structures variant
rejects the push and leaves the heap unchanged. -/

theorem C7_final_push_accepts_negative_key :
    (heap_push (heap_create Name 4) ['x'] (-1)).2 = 0 ∧
    (heap_push (heap_create Name 4) ['x'] (-1)).1.entries = [⟨-1, ['x']⟩] ∧
    ds_heap_push (heap_create Name 4) ['x'] (-1) = (heap_create Name 4, none) := by
  decide

/-- Claim C10: `heap_push` always returns the bottom slot index (the size
before insertion, computed before sift-up), and after pushing key 5 then
key 3 the returned slot 1 holds the entry with key 5 that sift-up swapped
down, not the entry that was pushed. -/

theorem C10_heap_push_returns_presift_slot :
    (∀ (h : Heap Name) (item : Name) (key : Int),
      (heap_push h item key).2 = h.entries.length) ∧
    (heap_push (heap_push (heap_create Name 0) ['A'] 5).1 ['B'] 3).2 = 1 ∧
    (heap_push (heap_push (heap_create Name 0) ['A'] 5).1 ['B'] 3).1.entries.get? 1
      = some ⟨5, ['A']⟩ := by
  refine ⟨?_, by decide, by decide⟩
  intro h item key
  unfold heap_push
  by_cases hc : h.entries.length = h.cap <;> simp [hc]

/-- Claim C8 (code bug): when the key-array `realloc` succeeds and the
data-array `realloc` then fails, `grow` reports failure and leaves the
header fields untouched, but the heap's key pointer now references a block
the successful `realloc` already freed — the prior state is not intact. -/

theorem C8_grow_failure_corrupts_heap :
    (grow ⟨1, 1, 0, 1⟩ ⟨[(0, [7])], [(1, [['p']])], 2⟩ true false).1 = false ∧
    (grow ⟨1, 1, 0, 1⟩ ⟨[(0, [7])], [(1, [['p']])], 2⟩ true false).2.1 = ⟨1, 1, 0, 1⟩ ∧
    key_block_live (grow ⟨1, 1, 0, 1⟩ ⟨[(0, [7])], [(1, [['p']])], 2⟩ true false).2.2
      (grow ⟨1, 1, 0, 1⟩ ⟨[(0, [7])], [(1, [['p']])], 2⟩ true false).2.1.keyId
      = false := by
  decide

theorem cons_set_perm {β : Type} : ∀ (t : List β) (j : Nat) {y : β} (c : β),
    t.get? j = some y → (y :: t.set j c).Perm (c :: t)
  | [], j, _, _, h => absurd h (by simp)
  | a :: s, 0, y, c, h => by
    injection h with h
    show (y :: c :: s).Perm (c :: a :: s)
    rw [← h]
    exact List.Perm.swap c a s
  | a :: s, m + 1, y, c, h => by
    show (y :: a :: s.set m c).Perm (c :: a :: s)
    have ih := cons_set_perm s m c (by simpa using h)
    exact (List.Perm.swap a y _).trans ((ih.cons a).trans (List.Perm.swap c a s))

theorem set_set_swap_perm {β : Type} : ∀ (l : List β) (i j : Nat) {x y : β},
    l.get? i = some x → l.get? j = some y → ((l.set i y).set j x).Perm l
  | [], _, _, _, _, hi, _ => absurd hi (by simp)
  | h :: t, 0, 0, x, y, hi, hj => by
    injection hi with hi
    show (x :: t).Perm (h :: t)
    rw [← hi]
  | h :: t, 0, j + 1, x, y, hi, hj => by
    injection hi with hi
    show (y :: t.set j x).Perm (h :: t)
    rw [hi]
    exact cons_set_perm t j x (by simpa using hj)
  | h :: t, i + 1, 0, x, y, hi, hj => by
    injection hj with hj
    show (x :: t.set i y).Perm (h :: t)
    rw [hj]
    exact cons_set_perm t i y (by simpa using hi)
  | h :: t, i + 1, j + 1, x, y, hi, hj => by
    show (h :: (t.set i y).set j x).Perm (h :: t)
    exact (set_set_swap_perm t i j (by simpa using hi) (by simpa using hj)).cons h

theorem name_swap_perm (l : List Name) (i j : Nat) : (name_swap l i j).Perm l := by
  unfold name_swap
  cases hi : l.get? i with
  | none => exact List.Perm.refl l
  | some x =>
    cases hj : l.get? j with
    | none => exact List.Perm.refl l
    | some y => exact set_set_swap_perm l i j hi hj

theorem bfs_sort_inner_perm : ∀ (fuel : Nat) (l : List Name) (i j : Nat),
    (bfs_sort_inner fuel l i j).Perm l
  | 0, l, _, _ => List.Perm.refl l
  | fuel + 1, l, i, j => by
    rw [bfs_sort_inner]
    by_cases hj : j < l.length
    · rw [if_pos hj]
      by_cases hcmp : l.getD i [] > l.getD j []
      · rw [if_pos hcmp]
        exact (bfs_sort_inner_perm fuel _ i (j + 1)).trans (name_swap_perm l i j)
      · rw [if_neg hcmp]
        exact bfs_sort_inner_perm fuel l i (j + 1)
    · rw [if_neg hj]

theorem bfs_sort_outer_perm : ∀ (fuel : Nat) (l : List Name) (i : Nat),
    (bfs_sort_outer fuel l i).Perm l
  | 0, l, _ => List.Perm.refl l
  | fuel + 1, l, i => by
    rw [bfs_sort_outer]
    by_cases hi : i + 1 < l.length
    · rw [if_pos hi]
      have h1 := bfs_sort_inner_perm (l.length + 1) l i (i + 1)
      have h2 := bfs_sort_outer_perm fuel (bfs_sort_inner (l.length + 1) l i (i + 1)) (i + 1)
      exact h2.trans h1
    · rw [if_neg hi]

theorem bfs_sort_mem (l : List Name) (x : Name) : x ∈ bfs_sort l ↔ x ∈ l :=
  (bfs_sort_outer_perm (l.length + 1) l 0).mem_iff

theorem index_of_spec {vec : List Vertex} (hs : SortedV vec) :
    ∀ (fuel lo hi : Nat) (name : Name), hi ≤ vec.length → hi - lo < fuel →
    (∀ i, index_of vec fuel lo hi name = some i →
        lo ≤ i ∧ i < hi ∧ (vec.get? i).map Vertex.name = some name) ∧
    (index_of vec fuel lo hi name = none →
        ∀ k, lo ≤ k → k < hi → (vec.get? k).map Vertex.name ≠ some name) := by
  have hget : ∀ (i j : Nat) (hi2 : i < vec.length) (hj2 : j < vec.length),
      i < j → (vec.get ⟨i, hi2⟩).name < (vec.get ⟨j, hj2⟩).name := by
    intro i j hi2 hj2 hij
    exact List.pairwise_iff_get.1 hs ⟨i, hi2⟩ ⟨j, hj2⟩ hij
  intro fuel
  induction fuel with
  | zero => intro lo hi name _ hfuel; omega
  | succ fuel ih =>
    intro lo hi name hhi hfuel
    by_cases hlh : lo < hi
    · have hmid : (lo + hi) / 2 < vec.length := by omega
      rw [index_of]
      rw [if_pos hlh]
      cases hgm : vec.get? ((lo + hi) / 2) with
      | none => rw [List.get?_eq_none] at hgm; omega
      | some vm =>
        have hvm : vec.get ⟨(lo + hi) / 2, hmid⟩ = vm := by
          have := List.get?_eq_get (l := vec) hmid
          rw [hgm] at this
          injection this with this
          exact this.symm
        simp only [hgm]
        by_cases he : vm.name = name
        · rw [if_pos he]
          refine ⟨?_, by intro h; exact absurd h (by simp)⟩
          intro i h
          injection h with h
          subst h
          exact ⟨by omega, by omega, by rw [hgm]; simp [he]⟩
        · rw [if_neg he]
          by_cases hlt : vm.name < name
          · rw [if_pos hlt]
            obtain ⟨h1, h2⟩ := ih ((lo + hi) / 2 + 1) hi name hhi (by omega)
            refine ⟨fun i h => ?_, fun h k hk1 hk2 => ?_⟩
            · obtain ⟨ha, hb, hc⟩ := h1 i h
              exact ⟨by omega, hb, hc⟩
            · by_cases hkm : (lo + hi) / 2 + 1 ≤ k
              · exact h2 h k hkm hk2
              · have hk : k < vec.length := by omega
                cases hgk : vec.get? k with
                | none => simp
                | some vk =>
                  have hvk : vec.get ⟨k, hk⟩ = vk := by
                    have := List.get?_eq_get (l := vec) hk
                    rw [hgk] at this
                    injection this with this
                    exact this.symm
                  intro hcon
                  injection hcon with hcon
                  by_cases hkmid : k = (lo + hi) / 2
                  · rw [hkmid] at hgk
                    rw [hgk] at hgm
                    injection hgm with hgm
                    exact he (hgm ▸ hcon)
                  · have : vk.name < vm.name := by
                      have := hget k ((lo + hi) / 2) hk hmid (by omega)
                      rw [hvk, hvm] at this
                      exact this
                    rw [hcon] at this
                    exact absurd (this.trans hlt) (lt_irrefl _)
          · rw [if_neg hlt]
            have hgt : name < vm.name :=
              lt_of_le_of_ne (not_lt.1 hlt) (fun hx => he hx.symm)
            obtain ⟨h1, h2⟩ := ih lo ((lo + hi) / 2) name (by omega) (by omega)
            refine ⟨fun i h => ?_, fun h k hk1 hk2 => ?_⟩
            · obtain ⟨ha, hb, hc⟩ := h1 i h
              exact ⟨ha, by omega, hc⟩
            · by_cases hkm : k < (lo + hi) / 2
              · exact h2 h k hk1 hkm
              · have hk : k < vec.length := by omega
                cases hgk : vec.get? k with
                | none => simp
                | some vk =>
                  have hvk : vec.get ⟨k, hk⟩ = vk := by
                    have := List.get?_eq_get (l := vec) hk
                    rw [hgk] at this
                    injection this with this
                    exact this.symm
                  intro hcon
                  injection hcon with hcon
                  by_cases hkmid : k = (lo + hi) / 2
                  · rw [hkmid] at hgk
                    rw [hgk] at hgm
                    injection hgm with hgm
                    exact he (hgm ▸ hcon)
                  · have : vm.name < vk.name := by
                      have := hget ((lo + hi) / 2) k hmid hk (by omega)
                      rw [hvk, hvm] at this
                      exact this
                    rw [hcon] at this
                    exact absurd (this.trans hgt) (lt_irrefl _)
    · rw [index_of, if_neg hlh]
      exact ⟨fun i h => absurd h (by simp), fun _ k hk1 hk2 => by omega⟩

theorem index_of_run_some {vec : List Vertex} (hs : SortedV vec) {name : Name}
    {i : Nat} (h : index_of_run vec name = some i) :
    (vec.get? i).map Vertex.name = some name :=
  ((index_of_spec hs (vec.length + 1) 0 vec.length name (le_refl _)
    (by omega)).1 i h).2.2

theorem index_of_run_none {vec : List Vertex} (hs : SortedV vec) {name : Name}
    (h : index_of_run vec name = none) : ∀ v ∈ vec, v.name ≠ name := by
  intro v hv he
  obtain ⟨n, hn⟩ := List.mem_iff_get.1 hv
  have := (index_of_spec hs (vec.length + 1) 0 vec.length name (le_refl _)
    (by omega)).2 h n (by omega) n.isLt
  apply this
  rw [List.get?_eq_get n.isLt]
  have hv2 : vec.get ⟨n.val, n.isLt⟩ = v := hn
  rw [hv2]
  simp [he]

theorem index_of_run_isSome_of_mem {vec : List Vertex} (hs : SortedV vec)
    {v : Vertex} (hv : v ∈ vec) : (index_of_run vec v.name).isSome = true := by
  cases h : index_of_run vec v.name with
  | some i => rfl
  | none => exact absurd rfl (index_of_run_none hs h v hv)

/-! ### Helper lemmas for the traversal proofs -/

theorem getD_replicate_false (n i : Nat) :
    (List.replicate n false).getD i false = false := by
  rcases Nat.lt_or_ge i n with h | h
  · simp [List.getD, List.getElem?_replicate, h]
  · have h2 : (List.replicate n false).length ≤ i := by simpa using h
    simp [List.getD, List.getElem?_eq_none h2]

theorem getD_set_self_true {l : List Bool} {i : Nat} (h : i < l.length) :
    (l.set i true).getD i false = true := by
  simp [List.getD, List.getElem?_set_self', List.getElem?_eq_getElem, h]

theorem getD_set_diff {l : List Bool} {i j : Nat} (h : i ≠ j) (b : Bool) :
    (l.set i b).getD j false = l.getD j false := by
  simp [List.getD, List.getElem?_set_ne h]

theorem countFalse_set_true : ∀ {l : List Bool} {i : Nat}, i < l.length →
    l.getD i false = false → countFalse (l.set i true) + 1 = countFalse l
  | [], i, h, _ => by simp at h
  | b :: t, 0, _, h2 => by
    have hb : b = false := by simpa [List.getD] using h2
    subst hb
    simp [countFalse, List.filter]
  | b :: t, i + 1, h, h2 => by
    have ih := countFalse_set_true (l := t) (i := i) (by simpa using h)
      (by simpa [List.getD] using h2)
    cases b <;> simp [countFalse, List.filter] at ih ⊢ <;> omega

theorem adj_le_total {vec : List Vertex} {v : Vertex} (h : v ∈ vec) :
    v.adj.length ≤ totalAdjLen vec := by
  unfold totalAdjLen
  exact List.single_le_sum (fun _ _ => Nat.zero_le _) _ (List.mem_map_of_mem _ h)

theorem find_of_mem {g : Graph} (hs : SortedV g.v_head) {v : Vertex}
    (h : v ∈ g.v_head) : graph_find_vertex g v.name = some v :=
  (graph_find_go_some hs).2 ⟨h, rfl⟩

theorem adjacentb_iff_neighbors (g : Graph) (a b : Name) :
    adjacentb g a b = true ↔ b ∈ bfs_neighbors g a := by
  unfold adjacentb bfs_neighbors graph_get_neighbors
  cases graph_find_vertex g a with
  | none => simp
  | some v =>
    simp only [Option.map_some, List.any_eq_true]
    constructor
    · rintro ⟨e, he, hd⟩
      simp only [decide_eq_true_eq] at hd
      exact hd ▸ List.mem_map_of_mem _ he
    · intro hmem
      obtain ⟨e, he, hd⟩ := List.mem_map.1 hmem
      exact ⟨e, he, by simp [hd]⟩

theorem adjacentb_of_entry {g : Graph} (hs : SortedV g.v_head) {v : Vertex}
    (hv : v ∈ g.v_head) {a : AdjNode} (ha : a ∈ v.adj) :
    adjacentb g v.name a.dst = true := by
  unfold adjacentb
  rw [find_of_mem hs hv]
  rw [List.any_eq_true]
  exact ⟨a, ha, by simp⟩

theorem go_mem_of_eq_some : ∀ {l : List Vertex} {n : Name} {v : Vertex},
    graph_find_vertex.go l n = some v → v ∈ l
  | [], _, _, h => absurd h (by simp [graph_find_vertex.go])
  | x :: xs, n, v, h => by
    rw [graph_find_vertex.go] at h
    by_cases h1 : x.name < n
    · rw [if_pos h1] at h
      exact List.mem_cons_of_mem x (go_mem_of_eq_some h)
    · rw [if_neg h1] at h
      by_cases h2 : x.name = n
      · rw [if_pos h2] at h
        injection h with h
        exact h ▸ List.mem_cons_self _ _
      · rw [if_neg h2] at h
        exact absurd h (by simp)

theorem reach_target_vertex {g : Graph}
    (hcl : ∀ v ∈ g.v_head, ∀ a ∈ v.adj, graph_vertex_exists g a.dst = true)
    {u x : Name} (h : Reach g u x) : x = u ∨ graph_vertex_exists g x = true := by
  induction h with
  | refl => exact Or.inl rfl
  | tail hr hstep ih =>
    right
    rename_i y z
    unfold adjacentb at hstep
    cases hf : graph_find_vertex g y with
    | none => rw [hf] at hstep; simp at hstep
    | some v =>
      rw [hf] at hstep
      rw [List.any_eq_true] at hstep
      obtain ⟨e, he, hd⟩ := hstep
      simp only [decide_eq_true_eq] at hd
      have hvmem : v ∈ g.v_head := by
        unfold graph_find_vertex at hf
        exact (go_mem_of_eq_some hf)
      exact hd ▸ hcl v hvmem e he

theorem countFalse_replicate (n : Nat) : countFalse (List.replicate n false) = n := by
  induction n with
  | zero => rfl
  | succ m ih => simpa [List.replicate, countFalse, List.filter] using ih

theorem dfs_loop_spec {g : Graph} (hwf : GraphWF g) (u0 : Name) :
    ∀ (fuel : Nat) (stack : List Name) (visited : List Bool) (order : List Name)
      (out : Output),
    DfsInv g u0 stack visited order →
    stack.length + (totalAdjLen g.v_head + 2) * countFalse visited < fuel →
    (dfs_loop g.v_head fuel stack visited order out).2.2.2 = [] ∧
    DfsInv g u0 [] (dfs_loop g.v_head fuel stack visited order out).2.2.1
      (dfs_loop g.v_head fuel stack visited order out).2.1 ∧
    (out = render_lines order →
      (dfs_loop g.v_head fuel stack visited order out).1 =
        render_lines (dfs_loop g.v_head fuel stack visited order out).2.1) := by
  obtain ⟨hsV, -, -, hcl, -, -, -, -, -⟩ := hwf
  intro fuel
  induction fuel with
  | zero => intro stack visited order out _ hfuel; omega
  | succ fuel ih =>
    intro stack visited order out hInv hfuel
    match stack with
    | [] =>
      rw [dfs_loop]
      exact ⟨rfl, hInv, fun h => h⟩
    | u :: srest =>
      rw [dfs_loop]
      cases hidx : index_of_run g.v_head u with
      | none =>
        obtain ⟨-, v, hvmem, hvname⟩ := hInv.hstk u (List.mem_cons_self _ _)
        exact absurd hvname (index_of_run_none hsV hidx v hvmem)
      | some u_idx =>
        dsimp only
        have hgetm := index_of_run_some hsV hidx
        cases hget : g.v_head.get? u_idx with
        | none => rw [hget] at hgetm; simp at hgetm
        | some vu =>
          rw [hget] at hgetm
          have hvuname : vu.name = u := by
            simpa using hgetm
          have huidx_lt : u_idx < visited.length := by
            rw [hInv.hlen]
            obtain ⟨h, -⟩ := List.get?_eq_some.1 hget
            exact h
          by_cases hvisited : visited.getD u_idx false = true
          · rw [if_pos hvisited]
            apply ih srest visited order out
            · exact {
                hlen := hInv.hlen
                hvis := hInv.hvis
                hstk := fun s hs => hInv.hstk s (List.mem_cons_of_mem u hs)
                hfront := by
                  intro i v hgi hvi a ha
                  rcases hInv.hfront i v hgi hvi a ha with h | h
                  · exact Or.inl h
                  · rcases List.mem_cons.1 h with rfl | h
                    · exact Or.inl ⟨u_idx, vu, hget, hvuname, hvisited⟩
                    · exact Or.inr h
                hstart := by
                  rcases hInv.hstart with h | h
                  · exact Or.inl h
                  · rcases List.mem_cons.1 h with rfl | h
                    · exact Or.inl ⟨u_idx, vu, hget, hvuname, hvisited⟩
                    · exact Or.inr h
                horder := hInv.horder }
            · simp only [List.length_cons] at hfuel
              omega
          · rw [if_neg hvisited]
            have hvumem : vu ∈ g.v_head := List.get?_mem hget
            have hreach_u : Reach g u0 u := (hInv.hstk u (List.mem_cons_self _ _)).1
            have hadj_at : adj_at g.v_head u_idx = vu.adj := by
              unfold adj_at
              rw [hget]
            have hstep_reach : ∀ a ∈ vu.adj, Reach g u0 a.dst := by
              intro a ha
              refine Relation.ReflTransGen.tail hreach_u ?_
              rw [← hvuname]
              exact adjacentb_of_entry hsV hvumem ha
            have hpush_mem : ∀ nb ∈ dfs_push_list g.v_head (visited.set u_idx true)
                (adj_at g.v_head u_idx), ∃ a ∈ vu.adj, a.dst = nb := by
              intro nb hnb
              unfold dfs_push_list at hnb
              obtain ⟨hnb1, -⟩ := List.mem_filter.1 hnb
              rw [hadj_at] at hnb1
              obtain ⟨a, ha, hd⟩ := List.mem_map.1 hnb1
              exact ⟨a, ha, hd⟩
            have hInv2 : DfsInv g u0
                (dfs_push_list g.v_head (visited.set u_idx true)
                  (adj_at g.v_head u_idx) ++ srest)
                (visited.set u_idx true) (order ++ [u]) := {
              hlen := by rw [List.length_set]; exact hInv.hlen
              hvis := by
                intro i v hgi hvi
                by_cases hij : u_idx = i
                · subst hij
                  rw [hget] at hgi
                  injection hgi with hgi
                  subst hgi
                  rw [hvuname]
                  exact hreach_u
                · rw [getD_set_diff hij] at hvi
                  exact hInv.hvis i v hgi hvi
              hstk := by
                intro s hs
                rcases List.mem_append.1 hs with hs | hs
                · obtain ⟨a, ha, rfl⟩ := hpush_mem s hs
                  refine ⟨hstep_reach a ha, ?_⟩
                  have := hcl vu hvumem a ha
                  unfold graph_vertex_exists at this
                  rw [Option.isSome_iff_exists] at this
                  obtain ⟨w, hw⟩ := this
                  have hwmem : w ∈ g.v_head := go_mem_of_eq_some hw
                  have hwname := ((graph_find_go_some hsV).1 hw).2
                  exact ⟨w, hwmem, hwname⟩
                · exact hInv.hstk s (List.mem_cons_of_mem u hs)
              hfront := by
                intro i v hgi hvi a ha
                by_cases hij : u_idx = i
                · subst hij
                  rw [hget] at hgi
                  injection hgi with hgi
                  subst hgi
                  by_cases hkeep : a.dst ∈ dfs_push_list g.v_head
                      (visited.set u_idx true) (adj_at g.v_head u_idx)
                  · exact Or.inr (List.mem_append.2 (Or.inl hkeep))
                  · left
                    unfold dfs_push_list at hkeep
                    rw [hadj_at] at hkeep
                    have hdst_mem : a.dst ∈ vu.adj.map AdjNode.dst :=
                      List.mem_map_of_mem _ ha
                    cases hi2 : index_of_run g.v_head a.dst with
                    | none =>
                      have := hcl vu hvumem a ha
                      unfold graph_vertex_exists at this
                      rw [Option.isSome_iff_exists] at this
                      obtain ⟨w, hw⟩ := this
                      have hwmem : w ∈ g.v_head := go_mem_of_eq_some hw
                      have hwname := ((graph_find_go_some hsV).1 hw).2
                      exact absurd hwname (index_of_run_none hsV hi2 w hwmem)
                    | some v_idx =>
                      have hnotkeep : ¬ ((visited.set u_idx true).getD v_idx false
                          = false) := by
                        intro hfalse
                        apply hkeep
                        apply List.mem_filter.2
                        refine ⟨hdst_mem, ?_⟩
                        rw [hi2]
                        dsimp only
                        rw [hfalse]
                        rfl
                      have hv2 : (visited.set u_idx true).getD v_idx false = true := by
                        cases hx : (visited.set u_idx true).getD v_idx false
                        · exact absurd hx hnotkeep
                        · rfl
                      have hg2 := index_of_run_some hsV hi2
                      cases hgv : g.v_head.get? v_idx with
                      | none => rw [hgv] at hg2; simp at hg2
                      | some w =>
                        rw [hgv] at hg2
                        exact ⟨v_idx, w, hgv, by simpa using hg2, hv2⟩
                · rw [getD_set_diff hij] at hvi
                  rcases hInv.hfront i v hgi hvi a ha with ⟨j, w, hj1, hj2, hj3⟩ | hmem
                  · refine Or.inl ⟨j, w, hj1, hj2, ?_⟩
                    by_cases hj : u_idx = j
                    · subst hj
                      exact getD_set_self_true huidx_lt
                    · rw [getD_set_diff hj]
                      exact hj3
                  · rcases List.mem_cons.1 hmem with hadst | hadst
                    · refine Or.inl ⟨u_idx, vu, hget, ?_, getD_set_self_true huidx_lt⟩
                      rw [hvuname, hadst]
                    · exact Or.inr (List.mem_append.2 (Or.inr hadst))
              hstart := by
                rcases hInv.hstart with ⟨j, w, hj1, hj2, hj3⟩ | hmem
                · refine Or.inl ⟨j, w, hj1, hj2, ?_⟩
                  by_cases hj : u_idx = j
                  · subst hj
                    exact getD_set_self_true huidx_lt
                  · rw [getD_set_diff hj]
                    exact hj3
                · rcases List.mem_cons.1 hmem with rfl | hmem
                  · exact Or.inl ⟨u_idx, vu, hget, hvuname, getD_set_self_true huidx_lt⟩
                  · exact Or.inr (List.mem_append.2 (Or.inr hmem))
              horder := by
                intro x
                rw [List.mem_append]
                constructor
                · rintro (hx | hx)
                  · obtain ⟨i, v, h1, h2, h3⟩ := (hInv.horder x).1 hx
                    refine ⟨i, v, h1, h2, ?_⟩
                    by_cases hj : u_idx = i
                    · subst hj
                      exact getD_set_self_true huidx_lt
                    · rw [getD_set_diff hj]
                      exact h3
                  · have hxu : x = u := by simpa using hx
                    exact ⟨u_idx, vu, hget, hxu ▸ hvuname,
                      getD_set_self_true huidx_lt⟩
                · rintro ⟨i, v, h1, h2, h3⟩
                  by_cases hj : u_idx = i
                  · subst hj
                    rw [hget] at h1
                    injection h1 with h1
                    subst h1
                    right
                    simp [← h2, hvuname]
                  · rw [getD_set_diff hj] at h3
                    exact Or.inl ((hInv.horder x).2 ⟨i, v, h1, h2, h3⟩) }
            have hfuel2 : (dfs_push_list g.v_head (visited.set u_idx true)
                (adj_at g.v_head u_idx) ++ srest).length +
                (totalAdjLen g.v_head + 2) * countFalse (visited.set u_idx true)
                < fuel := by
              have hpushlen : (dfs_push_list g.v_head (visited.set u_idx true)
                  (adj_at g.v_head u_idx)).length ≤ totalAdjLen g.v_head := by
                calc (dfs_push_list g.v_head (visited.set u_idx true)
                      (adj_at g.v_head u_idx)).length
                    ≤ ((adj_at g.v_head u_idx).map AdjNode.dst).length :=
                      List.length_filter_le _ _
                  _ = vu.adj.length := by rw [hadj_at, List.length_map]
                  _ ≤ totalAdjLen g.v_head := adj_le_total hvumem
              have hvfalse : visited.getD u_idx false = false := by
                cases hx : visited.getD u_idx false
                · rfl
                · exact absurd hx hvisited
              have hcount := countFalse_set_true huidx_lt hvfalse
              rw [List.length_append]
              simp only [List.length_cons] at hfuel
              have hmul : (totalAdjLen g.v_head + 2) * countFalse visited =
                  (totalAdjLen g.v_head + 2) * countFalse (visited.set u_idx true)
                    + (totalAdjLen g.v_head + 2) := by
                rw [← hcount]
                ring
              omega
            have hrec := ih _ _ _ (out ++ u ++ ['\n']) hInv2 hfuel2
            refine ⟨hrec.1, hrec.2.1, ?_⟩
            intro hout
            apply hrec.2.2
            rw [hout]
            unfold render_lines
            simp

theorem dfs_inv_complete {g : Graph} (hwf : GraphWF g) {u0 : Name}
    {visited : List Bool} {order : List Name}
    (hInv : DfsInv g u0 [] visited order) : ∀ x, x ∈ order ↔ Reach g u0 x := by
  obtain ⟨hsV, -, -, -, -, -, -, -, -⟩ := hwf
  intro x
  rw [hInv.horder]
  constructor
  · rintro ⟨i, v, hget, rfl, hvis⟩
    exact hInv.hvis i v hget hvis
  · intro hr
    induction hr with
    | refl => exact hInv.hstart.resolve_right (by simp)
    | tail hr2 hstep ih =>
      rename_i y z
      obtain ⟨i, v, hget, hname, hvis⟩ := ih
      unfold adjacentb at hstep
      have hvmem : v ∈ g.v_head := List.get?_mem hget
      rw [show graph_find_vertex g y = some v from hname ▸ find_of_mem hsV hvmem]
        at hstep
      obtain ⟨e, he, hd⟩ := List.any_eq_true.1 hstep
      simp only [decide_eq_true_eq] at hd
      rcases hInv.hfront i v hget hvis e he with ⟨j, w, hj1, hj2, hj3⟩ | hmem
      · exact ⟨j, w, hj1, by rw [hj2, hd], hj3⟩
      · simp at hmem

/-- Behaviour of `cmd_dfs` when the start vertex exists: the emitted order
is exactly the reachable set, the workspace comes back empty, and the output
prints each visited name on its own line plus a final blank line. -/

theorem cmd_dfs_spec {g : Graph} (hwf : GraphWF g) {u0 : Name}
    (hu : graph_vertex_exists g u0 = true) (scratch : List Name) :
    (∀ x, x ∈ (cmd_dfs g u0 scratch).2.1 ↔ Reach g u0 x) ∧
    (cmd_dfs g u0 scratch).2.2 = [] ∧
    (cmd_dfs g u0 scratch).1 = render_lines (cmd_dfs g u0 scratch).2.1 ++ ['\n'] := by
  have hsV : SortedV g.v_head := hwf.1
  have hvc : g.v_count = g.v_head.length := hwf.2.2.2.2.2.2.2.2
  unfold graph_vertex_exists at hu
  rw [Option.isSome_iff_exists] at hu
  obtain ⟨v0, hv0⟩ := hu
  have hv0mem : v0 ∈ g.v_head := go_mem_of_eq_some hv0
  have hv0name : v0.name = u0 := ((graph_find_go_some hsV).1 hv0).2
  have hVpos : g.v_count ≠ 0 := by
    rw [hvc]
    intro hlen
    rw [List.length_eq_zero.1 hlen] at hv0mem
    simp at hv0mem
  unfold cmd_dfs
  rw [if_neg hVpos]
  have hsome : (index_of_run g.v_head u0).isSome = true :=
    hv0name ▸ index_of_run_isSome_of_mem hsV hv0mem
  cases hidx : index_of_run g.v_head u0 with
  | none => rw [hidx] at hsome; simp at hsome
  | some s_idx =>
    dsimp only
    have hname_at : name_at g.v_head s_idx = u0 := by
      have := index_of_run_some hsV hidx
      unfold name_at
      cases hg : g.v_head.get? s_idx with
      | none => rw [hg] at this; simp at this
      | some v => rw [hg] at this; simpa using this
    have hInv0 : DfsInv g u0 [name_at g.v_head s_idx]
        (List.replicate g.v_count false) [] := {
      hlen := by rw [List.length_replicate, hvc]
      hvis := by
        intro i v _ hvis
        rw [getD_replicate_false] at hvis
        simp at hvis
      hstk := by
        intro s hs
        rw [List.mem_singleton] at hs
        subst hs
        rw [hname_at]
        exact ⟨Relation.ReflTransGen.refl, v0, hv0mem, hv0name⟩
      hfront := by
        intro i v _ hvis
        rw [getD_replicate_false] at hvis
        simp at hvis
      hstart := Or.inr (by rw [hname_at]; exact List.mem_singleton.2 rfl)
      horder := by
        intro x
        simp only [List.not_mem_nil, false_iff, not_exists]
        intro i v
        rw [getD_replicate_false]
        simp }
    have hfuel : [name_at g.v_head s_idx].length +
        (totalAdjLen g.v_head + 2) * countFalse (List.replicate g.v_count false) <
        dfs_fuel g.v_head [name_at g.v_head s_idx]
          (List.replicate g.v_count false) := by
      unfold dfs_fuel
      omega
    obtain ⟨hempty, hinvF, hout⟩ := dfs_loop_spec hwf u0 _ _ _ _ [] hInv0 hfuel
    refine ⟨?_, hempty, ?_⟩
    · exact dfs_inv_complete hwf hinvF
    · rw [hout (by rfl)]

theorem path_loop_spec {g : Graph} (hwf : GraphWF g) (u0 : Name) (t_idx : Nat) :
    ∀ (fuel : Nat) (stack : List Name) (visited : List Bool),
    PathInv g u0 t_idx stack visited →
    stack.length + (totalAdjLen g.v_head + 2) * countFalse visited < fuel →
    ((path_loop g.v_head t_idx fuel stack visited).1 = true →
      ∀ v, g.v_head.get? t_idx = some v → Reach g u0 v.name) ∧
    ((path_loop g.v_head t_idx fuel stack visited).1 = false →
      ∀ v, g.v_head.get? t_idx = some v → ¬ Reach g u0 v.name) := by
  obtain ⟨hsV, -, -, hcl, -, -, -, -, -⟩ := hwf
  have hgetname : ∀ (i j : Nat) (hi2 : i < g.v_head.length)
      (hj2 : j < g.v_head.length), i < j →
      (g.v_head.get ⟨i, hi2⟩).name < (g.v_head.get ⟨j, hj2⟩).name := by
    intro i j hi2 hj2 hij
    exact List.pairwise_iff_get.1 hsV ⟨i, hi2⟩ ⟨j, hj2⟩ hij
  -- a closed, started invariant with an empty stack refutes reachability
  have hfinal : ∀ (visited : List Bool), PathInv g u0 t_idx [] visited →
      ∀ v, g.v_head.get? t_idx = some v → ¬ Reach g u0 v.name := by
    intro visited hInv v hgt hr
    have hcomplete : ∀ y, Reach g u0 y → ∃ i w, g.v_head.get? i = some w ∧
        w.name = y ∧ visited.getD i false = true := by
      intro y hy
      induction hy with
      | refl => exact hInv.hstart.resolve_right (by simp)
      | tail hr2 hstep ih =>
        rename_i a b
        obtain ⟨i, w, hget, hname, hvis⟩ := ih
        unfold adjacentb at hstep
        have hwmem : w ∈ g.v_head := List.get?_mem hget
        rw [show graph_find_vertex g a = some w from hname ▸ find_of_mem hsV hwmem]
          at hstep
        obtain ⟨e, he, hd⟩ := List.any_eq_true.1 hstep
        simp only [decide_eq_true_eq] at hd
        rcases hInv.hfront i w hget hvis e he with ⟨j, w2, hj1, hj2, hj3⟩ | hmem
        · exact ⟨j, w2, hj1, by rw [hj2, hd], hj3⟩
        · simp at hmem
    obtain ⟨i, w, hget, hname, hvis⟩ := hcomplete v.name hr
    have hit : i = t_idx := by
      by_contra hne
      obtain ⟨hi2, hgi⟩ := List.get?_eq_some.1 hget
      obtain ⟨ht2, hgt2⟩ := List.get?_eq_some.1 hgt
      rcases Nat.lt_or_ge i t_idx with hlt | hge
      · have := hgetname i t_idx hi2 ht2 hlt
        rw [hgi, hgt2, hname] at this
        exact absurd this (lt_irrefl _)
      · have hlt2 : t_idx < i := lt_of_le_of_ne hge (fun hx => hne hx.symm)
        have := hgetname t_idx i ht2 hi2 hlt2
        rw [hgi, hgt2, hname] at this
        exact absurd this (lt_irrefl _)
    rw [hit] at hvis
    rw [hInv.htarget] at hvis
    exact absurd hvis (by simp)
  intro fuel
  induction fuel with
  | zero => intro stack visited _ hfuel; omega
  | succ fuel ih =>
    intro stack visited hInv hfuel
    match stack with
    | [] =>
      rw [path_loop]
      exact ⟨fun h => absurd h (by simp), fun _ => hfinal visited hInv⟩
    | u :: srest =>
      rw [path_loop]
      cases hidx : index_of_run g.v_head u with
      | none =>
        obtain ⟨-, v, hvmem, hvname⟩ := hInv.hstk u (List.mem_cons_self _ _)
        exact absurd hvname (index_of_run_none hsV hidx v hvmem)
      | some u_idx =>
        dsimp only
        have hgetm := index_of_run_some hsV hidx
        cases hget : g.v_head.get? u_idx with
        | none => rw [hget] at hgetm; simp at hgetm
        | some vu =>
          rw [hget] at hgetm
          have hvuname : vu.name = u := by simpa using hgetm
          have huidx_lt : u_idx < visited.length := by
            rw [hInv.hlen]
            obtain ⟨h, -⟩ := List.get?_eq_some.1 hget
            exact h
          by_cases hvisited : visited.getD u_idx false = true
          · rw [if_pos hvisited]
            apply ih srest visited
            · exact {
                hlen := hInv.hlen
                hvis := hInv.hvis
                hstk := fun s hs => hInv.hstk s (List.mem_cons_of_mem u hs)
                hfront := by
                  intro i v hgi hvi a ha
                  rcases hInv.hfront i v hgi hvi a ha with h | h
                  · exact Or.inl h
                  · rcases List.mem_cons.1 h with rfl | h
                    · exact Or.inl ⟨u_idx, vu, hget, hvuname, hvisited⟩
                    · exact Or.inr h
                hstart := by
                  rcases hInv.hstart with h | h
                  · exact Or.inl h
                  · rcases List.mem_cons.1 h with rfl | h
                    · exact Or.inl ⟨u_idx, vu, hget, hvuname, hvisited⟩
                    · exact Or.inr h
                htarget := hInv.htarget }
            · simp only [List.length_cons] at hfuel
              omega
          · rw [if_neg hvisited]
            have hvumem : vu ∈ g.v_head := List.get?_mem hget
            have hreach_u : Reach g u0 u := (hInv.hstk u (List.mem_cons_self _ _)).1
            by_cases hhit : u_idx = t_idx
            · rw [if_pos hhit]
              refine ⟨fun _ v hv => ?_, fun h => absurd h (by simp)⟩
              rw [← hhit, hget] at hv
              injection hv with hv
              rw [← hv, hvuname]
              exact hreach_u
            · rw [if_neg hhit]
              have hadj_at : adj_at g.v_head u_idx = vu.adj := by
                unfold adj_at
                rw [hget]
              have hstep_reach : ∀ a ∈ vu.adj, Reach g u0 a.dst := by
                intro a ha
                refine Relation.ReflTransGen.tail hreach_u ?_
                rw [← hvuname]
                exact adjacentb_of_entry hsV hvumem ha
              have hpush_mem : ∀ nb ∈ dfs_push_list g.v_head (visited.set u_idx true)
                  (adj_at g.v_head u_idx), ∃ a ∈ vu.adj, a.dst = nb := by
                intro nb hnb
                unfold dfs_push_list at hnb
                obtain ⟨hnb1, -⟩ := List.mem_filter.1 hnb
                rw [hadj_at] at hnb1
                obtain ⟨a, ha, hd⟩ := List.mem_map.1 hnb1
                exact ⟨a, ha, hd⟩
              have hInv2 : PathInv g u0 t_idx
                  (dfs_push_list g.v_head (visited.set u_idx true)
                    (adj_at g.v_head u_idx) ++ srest)
                  (visited.set u_idx true) := {
                hlen := by rw [List.length_set]; exact hInv.hlen
                hvis := by
                  intro i v hgi hvi
                  by_cases hij : u_idx = i
                  · subst hij
                    rw [hget] at hgi
                    injection hgi with hgi
                    subst hgi
                    rw [hvuname]
                    exact hreach_u
                  · rw [getD_set_diff hij] at hvi
                    exact hInv.hvis i v hgi hvi
                hstk := by
                  intro s hs
                  rcases List.mem_append.1 hs with hs | hs
                  · obtain ⟨a, ha, rfl⟩ := hpush_mem s hs
                    refine ⟨hstep_reach a ha, ?_⟩
                    have hcl2 := hcl vu hvumem a ha
                    unfold graph_vertex_exists at hcl2
                    rw [Option.isSome_iff_exists] at hcl2
                    obtain ⟨w, hw⟩ := hcl2
                    exact ⟨w, go_mem_of_eq_some hw,
                      ((graph_find_go_some hsV).1 hw).2⟩
                  · exact hInv.hstk s (List.mem_cons_of_mem u hs)
                hfront := by
                  intro i v hgi hvi a ha
                  by_cases hij : u_idx = i
                  · subst hij
                    rw [hget] at hgi
                    injection hgi with hgi
                    subst hgi
                    by_cases hkeep : a.dst ∈ dfs_push_list g.v_head
                        (visited.set u_idx true) (adj_at g.v_head u_idx)
                    · exact Or.inr (List.mem_append.2 (Or.inl hkeep))
                    · left
                      unfold dfs_push_list at hkeep
                      rw [hadj_at] at hkeep
                      have hdst_mem : a.dst ∈ vu.adj.map AdjNode.dst :=
                        List.mem_map_of_mem _ ha
                      cases hi2 : index_of_run g.v_head a.dst with
                      | none =>
                        have hcl2 := hcl vu hvumem a ha
                        unfold graph_vertex_exists at hcl2
                        rw [Option.isSome_iff_exists] at hcl2
                        obtain ⟨w, hw⟩ := hcl2
                        exact absurd ((graph_find_go_some hsV).1 hw).2
                          (index_of_run_none hsV hi2 w (go_mem_of_eq_some hw))
                      | some v_idx =>
                        have hnotkeep : ¬ ((visited.set u_idx true).getD v_idx false
                            = false) := by
                          intro hfalse
                          apply hkeep
                          apply List.mem_filter.2
                          refine ⟨hdst_mem, ?_⟩
                          rw [hi2]
                          dsimp only
                          rw [hfalse]
                          rfl
                        have hv2 : (visited.set u_idx true).getD v_idx false
                            = true := by
                          cases hx : (visited.set u_idx true).getD v_idx false
                          · exact absurd hx hnotkeep
                          · rfl
                        have hg2 := index_of_run_some hsV hi2
                        cases hgv : g.v_head.get? v_idx with
                        | none => rw [hgv] at hg2; simp at hg2
                        | some w =>
                          rw [hgv] at hg2
                          exact ⟨v_idx, w, hgv, by simpa using hg2, hv2⟩
                  · rw [getD_set_diff hij] at hvi
                    rcases hInv.hfront i v hgi hvi a ha with ⟨j, w, hj1, hj2, hj3⟩
                        | hmem
                    · refine Or.inl ⟨j, w, hj1, hj2, ?_⟩
                      by_cases hj : u_idx = j
                      · subst hj
                        exact getD_set_self_true huidx_lt
                      · rw [getD_set_diff hj]
                        exact hj3
                    · rcases List.mem_cons.1 hmem with hadst | hadst
                      · refine Or.inl ⟨u_idx, vu, hget, ?_,
                          getD_set_self_true huidx_lt⟩
                        rw [hvuname, hadst]
                      · exact Or.inr (List.mem_append.2 (Or.inr hadst))
                hstart := by
                  rcases hInv.hstart with ⟨j, w, hj1, hj2, hj3⟩ | hmem
                  · refine Or.inl ⟨j, w, hj1, hj2, ?_⟩
                    by_cases hj : u_idx = j
                    · subst hj
                      exact getD_set_self_true huidx_lt
                    · rw [getD_set_diff hj]
                      exact hj3
                  · rcases List.mem_cons.1 hmem with rfl | hmem
                    · exact Or.inl ⟨u_idx, vu, hget, hvuname,
                        getD_set_self_true huidx_lt⟩
                    · exact Or.inr (List.mem_append.2 (Or.inr hmem))
                htarget := by
                  rw [getD_set_diff hhit]
                  exact hInv.htarget }
              apply ih _ _ hInv2
              have hpushlen : (dfs_push_list g.v_head (visited.set u_idx true)
                  (adj_at g.v_head u_idx)).length ≤ totalAdjLen g.v_head := by
                calc (dfs_push_list g.v_head (visited.set u_idx true)
                      (adj_at g.v_head u_idx)).length
                    ≤ ((adj_at g.v_head u_idx).map AdjNode.dst).length :=
                      List.length_filter_le _ _
                  _ = vu.adj.length := by rw [hadj_at, List.length_map]
                  _ ≤ totalAdjLen g.v_head := adj_le_total hvumem
              have hvfalse : visited.getD u_idx false = false := by
                cases hx : visited.getD u_idx false
                · rfl
                · exact absurd hx hvisited
              have hcount := countFalse_set_true huidx_lt hvfalse
              rw [List.length_append]
              simp only [List.length_cons] at hfuel
              have hmul : (totalAdjLen g.v_head + 2) * countFalse visited =
                  (totalAdjLen g.v_head + 2) * countFalse (visited.set u_idx true)
                    + (totalAdjLen g.v_head + 2) := by
                rw [← hcount]
                ring
              omega

theorem cmd_path_spec {g : Graph} (hwf : GraphWF g) {src : Name}
    (hsrc : graph_vertex_exists g src = true) (dst : Name) (scratch : List Name) :
    (cmd_path g src dst scratch).1 = true ↔ Reach g src dst := by
  have hsV : SortedV g.v_head := hwf.1
  have hvc : g.v_count = g.v_head.length := hwf.2.2.2.2.2.2.2.2
  have hcl := hwf.2.2.2.1
  unfold graph_vertex_exists at hsrc
  rw [Option.isSome_iff_exists] at hsrc
  obtain ⟨v0, hv0⟩ := hsrc
  have hv0mem : v0 ∈ g.v_head := go_mem_of_eq_some hv0
  have hv0name : v0.name = src := ((graph_find_go_some hsV).1 hv0).2
  unfold cmd_path
  by_cases hsd : src = dst
  · rw [if_pos hsd]
    have hany : g.v_head.any (fun v => v.name = src) = true :=
      List.any_eq_true.2 ⟨v0, hv0mem, by simp [hv0name]⟩
    rw [hany]
    simp only [if_true]
    subst hsd
    exact ⟨fun _ => Relation.ReflTransGen.refl, fun _ => trivial⟩
  · rw [if_neg hsd]
    have hVpos : g.v_count ≠ 0 := by
      rw [hvc]
      intro hlen
      rw [List.length_eq_zero.1 hlen] at hv0mem
      simp at hv0mem
    rw [if_neg hVpos]
    have hsome : (index_of_run g.v_head src).isSome = true :=
      hv0name ▸ index_of_run_isSome_of_mem hsV hv0mem
    cases hidx : index_of_run g.v_head src with
    | none => rw [hidx] at hsome; simp at hsome
    | some s_idx =>
      cases htdx : index_of_run g.v_head dst with
      | none =>
        dsimp only
        constructor
        · intro h
          exact absurd h (by simp)
        · intro hr
          rcases reach_target_vertex hcl hr with rfl | hex
          · exact absurd rfl hsd
          · unfold graph_vertex_exists at hex
            rw [Option.isSome_iff_exists] at hex
            obtain ⟨w, hw⟩ := hex
            exact absurd ((graph_find_go_some hsV).1 hw).2
              (index_of_run_none hsV htdx w (go_mem_of_eq_some hw))
      | some t_idx =>
        dsimp only
        have hgt2 := index_of_run_some hsV htdx
        cases hget : g.v_head.get? t_idx with
        | none => rw [hget] at hgt2; simp at hgt2
        | some vt =>
          rw [hget] at hgt2
          have hvtname : vt.name = dst := by simpa using hgt2
          have hname_at : name_at g.v_head s_idx = src := by
            have := index_of_run_some hsV hidx
            unfold name_at
            cases hg : g.v_head.get? s_idx with
            | none => rw [hg] at this; simp at this
            | some v => rw [hg] at this; simpa using this
          have hInv0 : PathInv g src t_idx [name_at g.v_head s_idx]
              (List.replicate g.v_count false) := {
            hlen := by rw [List.length_replicate, hvc]
            hvis := by
              intro i v _ hvis
              rw [getD_replicate_false] at hvis
              simp at hvis
            hstk := by
              intro s hs
              rw [List.mem_singleton] at hs
              subst hs
              rw [hname_at]
              exact ⟨Relation.ReflTransGen.refl, v0, hv0mem, hv0name⟩
            hfront := by
              intro i v _ hvis
              rw [getD_replicate_false] at hvis
              simp at hvis
            hstart := Or.inr (by rw [hname_at]; exact List.mem_singleton.2 rfl)
            htarget := getD_replicate_false _ _ }
          have hfuel : [name_at g.v_head s_idx].length +
              (totalAdjLen g.v_head + 2) *
                countFalse (List.replicate g.v_count false) <
              dfs_fuel g.v_head [name_at g.v_head s_idx]
                (List.replicate g.v_count false) := by
            unfold dfs_fuel
            omega
          obtain ⟨htrue, hfalse⟩ := path_loop_spec hwf src t_idx _ _ _ hInv0 hfuel
          constructor
          · intro h
            rw [← hvtname]
            exact htrue h vt hget
          · intro hr
            cases hres : (path_loop g.v_head t_idx
                (dfs_fuel g.v_head [name_at g.v_head s_idx]
                  (List.replicate g.v_count false))
                [name_at g.v_head s_idx] (List.replicate g.v_count false)).1 with
            | false =>
              rw [← hvtname] at hr
              exact absurd hr (hfalse hres vt hget)
            | true => rfl

theorem name_contains_iff (l : List Name) (n : Name) : l.contains n = true ↔ n ∈ l :=
  List.elem_iff

theorem render_lines_cons (n : Name) (l : List Name) :
    render_lines (n :: l) = (n ++ ['\n']) ++ render_lines l := by
  unfold render_lines
  rw [List.map_cons, List.flatten_cons]

theorem filter_length_le_of_imp : ∀ (l : List Name) (p q : Name → Bool),
    (∀ n, q n = true → p n = true) → (l.filter q).length ≤ (l.filter p).length
  | [], _, _, _ => le_refl _
  | x :: xs, p, q, h => by
    have ih := filter_length_le_of_imp xs p q h
    rw [List.filter_cons, List.filter_cons]
    by_cases hq : q x = true
    · rw [if_pos (h x hq), if_pos hq]
      simpa using ih
    · rw [if_neg hq]
      by_cases hp : p x = true
      · rw [if_pos hp]
        exact le_trans ih (by simp)
      · rw [if_neg hp]
        exact ih

theorem filter_length_lt_of_imp : ∀ (l : List Name) (p q : Name → Bool),
    (∀ n, q n = true → p n = true) → ∀ a ∈ l, p a = true → q a = false →
    (l.filter q).length < (l.filter p).length
  | [], _, _, _, a, ha, _, _ => absurd ha (by simp)
  | x :: xs, p, q, h, a, ha, hpa, hqa => by
    rw [List.filter_cons, List.filter_cons]
    rcases List.mem_cons.1 ha with rfl | ha
    · rw [if_neg (by simp [hqa]), if_pos hpa]
      have := filter_length_le_of_imp xs p q h
      simp only [List.length_cons]
      omega
    · have ih := filter_length_lt_of_imp xs p q h a ha hpa hqa
      by_cases hq : q x = true
      · rw [if_pos (h x hq), if_pos hq]
        simpa using ih
      · rw [if_neg hq]
        by_cases hp : p x = true
        · rw [if_pos hp]
          exact lt_of_lt_of_le ih (by simp)
        · rw [if_neg hp]
          exact ih

theorem unvisitedCount_append_le (g : Graph) (vis l : List Name) :
    unvisitedCount g (vis ++ l) ≤ unvisitedCount g vis := by
  unfold unvisitedCount
  apply filter_length_le_of_imp
  intro n hq
  have h1 : (vis ++ l).contains n = false := by
    cases hc : (vis ++ l).contains n
    · rfl
    · rw [hc] at hq
      exact absurd hq (by simp)
  cases hc : vis.contains n with
  | false => rfl
  | true =>
    have : (vis ++ l).contains n = true :=
      (name_contains_iff _ _).2 (List.mem_append.2 (Or.inl ((name_contains_iff _ _).1 hc)))
    rw [this] at h1
    exact absurd h1 (by simp)

theorem unvisitedCount_append_lt (g : Graph) (vis : List Name) {nb : Name}
    (hall : nb ∈ allNames g) (hnew : nb ∉ vis) :
    unvisitedCount g (vis ++ [nb]) < unvisitedCount g vis := by
  unfold unvisitedCount
  apply filter_length_lt_of_imp _ _ _ ?imp nb hall ?hp ?hq
  case imp =>
    intro n hq
    have h1 : (vis ++ [nb]).contains n = false := by
      cases hc : (vis ++ [nb]).contains n
      · rfl
      · rw [hc] at hq
        exact absurd hq (by simp)
    cases hc : vis.contains n with
    | false => rfl
    | true =>
      have : (vis ++ [nb]).contains n = true :=
        (name_contains_iff _ _).2
          (List.mem_append.2 (Or.inl ((name_contains_iff _ _).1 hc)))
      rw [this] at h1
      exact absurd h1 (by simp)
  case hp =>
    cases hc : vis.contains nb with
    | false => rfl
    | true => exact absurd ((name_contains_iff _ _).1 hc) hnew
  case hq =>
    have : (vis ++ [nb]).contains nb = true :=
      (name_contains_iff _ _).2 (List.mem_append.2 (Or.inr (List.mem_singleton.2 rfl)))
    rw [this]
    rfl

theorem bfs_neighbors_sub_allNames (g : Graph) (a : Name) :
    ∀ nb ∈ bfs_neighbors g a, nb ∈ allNames g := by
  intro nb hnb
  unfold bfs_neighbors at hnb
  cases hf : graph_get_neighbors g a with
  | none =>
    rw [hf] at hnb
    simp at hnb
  | some ns =>
    rw [hf] at hnb
    dsimp only at hnb
    unfold graph_get_neighbors at hf
    cases hv : graph_find_vertex g a with
    | none => rw [hv] at hf; exact absurd hf (by simp)
    | some v =>
      rw [hv] at hf
      have hns : ns = v.adj.map AdjNode.dst := by
        have := hf
        simp only [Option.map_some] at this
        injection this with h2
        exact h2.symm
      have hvmem : v ∈ g.v_head := go_mem_of_eq_some hv
      unfold allNames
      apply List.mem_append.2
      right
      apply List.mem_flatten.2
      refine ⟨v.adj.map AdjNode.dst, List.mem_map_of_mem _ hvmem, ?_⟩
      rw [← hns]
      exact hnb

theorem bfs_process_spec (g : Graph) : ∀ (nbs q vis : List Name) (out : Output),
    (∀ nb ∈ nbs, nb ∈ allNames g) →
    ∃ d, bfs_process (q, vis, out) nbs = (q ++ d, vis ++ d, out ++ render_lines d) ∧
      (∀ x ∈ d, x ∈ nbs) ∧
      (∀ nb ∈ nbs, nb ∈ vis ++ d) ∧
      (q ++ d).length + unvisitedCount g (vis ++ d) ≤
        q.length + unvisitedCount g vis := by
  intro nbs
  induction nbs with
  | nil =>
    intro q vis out _
    exact ⟨[], by simp [bfs_process, render_lines], by simp, by simp, by simp⟩
  | cons nb rest ih =>
    intro q vis out hall
    rw [bfs_process]
    dsimp only
    by_cases hc : vis.contains nb = true
    · rw [if_pos hc]
      obtain ⟨d, h1, h2, h3, h4⟩ := ih q vis out
        (fun x hx => hall x (List.mem_cons_of_mem _ hx))
      refine ⟨d, h1, fun x hx => List.mem_cons_of_mem _ (h2 x hx), ?_, h4⟩
      intro m hm
      rcases List.mem_cons.1 hm with rfl | hm
      · exact List.mem_append.2 (Or.inl ((name_contains_iff _ _).1 hc))
      · exact h3 m hm
    · rw [if_neg hc]
      have hnbv : nb ∉ vis := fun hm => hc ((name_contains_iff _ _).2 hm)
      obtain ⟨d, h1, h2, h3, h4⟩ := ih (q ++ [nb]) (vis ++ [nb]) (out ++ nb ++ ['\n'])
        (fun x hx => hall x (List.mem_cons_of_mem _ hx))
      have hsplit : ∀ (l : List Name), l ++ nb :: d = (l ++ [nb]) ++ d := by
        intro l
        rw [List.append_assoc]
        rfl
      refine ⟨nb :: d, ?_, ?_, ?_, ?_⟩
      · rw [h1, hsplit q, hsplit vis]
        have hout : out ++ nb ++ ['\n'] ++ render_lines d =
            out ++ render_lines (nb :: d) := by
          rw [render_lines_cons]
          simp [List.append_assoc]
        rw [hout]
      · intro x hx
        rcases List.mem_cons.1 hx with rfl | hx
        · exact List.mem_cons_self _ _
        · exact List.mem_cons_of_mem _ (h2 x hx)
      · intro m hm
        rcases List.mem_cons.1 hm with rfl | hm
        · exact List.mem_append.2 (Or.inr (List.mem_cons_self _ _))
        · have h5 := h3 m hm
          rw [← hsplit vis] at h5
          exact h5
      · have hlt := unvisitedCount_append_lt g vis (hall nb (List.mem_cons_self _ _))
          hnbv
        rw [hsplit q, hsplit vis]
        simp only [List.length_append, List.length_cons, List.length_nil] at h4 ⊢
        omega

theorem bfs_loop_spec {g : Graph} (u0 : Name) :
    ∀ (fuel : Nat) (queue visited : List Name) (out : Output),
    BfsInv g u0 queue visited →
    queue.length + unvisitedCount g visited < fuel →
    (∀ x, x ∈ (bfs_loop g fuel queue visited out).1 ↔ Reach g u0 x) ∧
    (out = render_lines visited →
      (bfs_loop g fuel queue visited out).2 =
        render_lines (bfs_loop g fuel queue visited out).1) := by
  have hfinal : ∀ (visited : List Name), BfsInv g u0 [] visited →
      ∀ x, x ∈ visited ↔ Reach g u0 x := by
    intro visited hInv x
    constructor
    · exact hInv.hvis x
    · intro hr
      induction hr with
      | refl => exact hInv.hstart
      | tail hr2 hstep ih =>
        rename_i a b
        exact hInv.hcl a ih (by simp) b ((adjacentb_iff_neighbors g a b).1 hstep)
  intro fuel
  induction fuel with
  | zero => intro queue visited out _ hfuel; omega
  | succ fuel ih =>
    intro queue visited out hInv hfuel
    match queue with
    | [] =>
      rw [bfs_loop]
      exact ⟨hfinal visited hInv, fun h => h⟩
    | current :: qrest =>
      rw [bfs_loop]
      have hcur_vis : current ∈ visited := hInv.hq current (List.mem_cons_self _ _)
      have hcur_reach : Reach g u0 current := hInv.hvis current hcur_vis
      have hall : ∀ nb ∈ bfs_sort (bfs_neighbors g current), nb ∈ allNames g :=
        fun nb hnb => bfs_neighbors_sub_allNames g current nb
          ((bfs_sort_mem _ _).1 hnb)
      obtain ⟨d, h1, h2, h3, h4⟩ := bfs_process_spec g
        (bfs_sort (bfs_neighbors g current)) qrest visited out hall
      rw [h1]
      have hInv2 : BfsInv g u0 (qrest ++ d) (visited ++ d) := {
        hq := by
          intro s hs
          rcases List.mem_append.1 hs with hs | hs
          · exact List.mem_append.2 (Or.inl (hInv.hq s (List.mem_cons_of_mem _ hs)))
          · exact List.mem_append.2 (Or.inr hs)
        hvis := by
          intro x hx
          rcases List.mem_append.1 hx with hx | hx
          · exact hInv.hvis x hx
          · refine Relation.ReflTransGen.tail hcur_reach ?_
            exact (adjacentb_iff_neighbors g current x).2
              ((bfs_sort_mem _ _).1 (h2 x hx))
        hcl := by
          intro x hx hxq nb hnb
          by_cases hxc : x = current
          · subst hxc
            exact h3 nb ((bfs_sort_mem _ _).2 hnb)
          · rcases List.mem_append.1 hx with hx | hx
            · have hxq2 : x ∉ current :: qrest := by
                intro hmem
                rcases List.mem_cons.1 hmem with rfl | hmem
                · exact hxc rfl
                · exact hxq (List.mem_append.2 (Or.inl hmem))
              exact List.mem_append.2
                (Or.inl (hInv.hcl x hx hxq2 nb hnb))
            · exact absurd (List.mem_append.2 (Or.inr hx)) hxq
        hstart := List.mem_append.2 (Or.inl hInv.hstart) }
      have hfuel2 : (qrest ++ d).length + unvisitedCount g (visited ++ d) < fuel := by
        simp only [List.length_cons] at hfuel
        omega
      obtain ⟨hiff, hout⟩ := ih (qrest ++ d) (visited ++ d) (out ++ render_lines d)
        hInv2 hfuel2
      refine ⟨hiff, fun h => hout ?_⟩
      rw [h]
      unfold render_lines
      rw [List.map_append, List.flatten_append]

theorem bfs_spec {g : Graph} {u0 : Name} (hu : graph_vertex_exists g u0 = true) :
    (∀ x, x ∈ (bfs g u0).2 ↔ Reach g u0 x) ∧
    (bfs g u0).1 = render_lines (bfs g u0).2 ++ ['\n'] := by
  unfold bfs
  rw [if_neg (by rw [hu]; simp)]
  dsimp only
  have hInv0 : BfsInv g u0 [u0] [u0] := {
    hq := fun s hs => hs
    hvis := by
      intro x hx
      rw [List.mem_singleton] at hx
      subst hx
      exact Relation.ReflTransGen.refl
    hcl := by
      intro x hx hxq
      exact absurd hx hxq
    hstart := List.mem_singleton.2 rfl }
  have hfuel : [u0].length + unvisitedCount g [u0] < bfs_fuel g [u0] [u0] := by
    unfold bfs_fuel
    omega
  obtain ⟨hiff, hout⟩ := bfs_loop_spec u0 (bfs_fuel g [u0] [u0]) [u0] [u0]
    (u0 ++ ['\n']) hInv0 hfuel
  refine ⟨hiff, ?_⟩
  rw [hout (by simp [render_lines])]

/-- C1: on a well-formed graph, a vertex is visited by the BFS traversal from
`u` iff it is visited by the DFS traversal from `u` iff the connectivity
check between `u` and it returns true (all three agree with reachability). -/

theorem C1_component_equivalence {g : Graph} (hwf : GraphWF g) {u : Name}
    (hu : graph_vertex_exists g u = true) (s1 s2 : List Name) (x : Name) :
    (x ∈ (bfs g u).2 ↔ x ∈ (cmd_dfs g u s1).2.1) ∧
    ((cmd_path g u x s2).1 = true ↔ x ∈ (bfs g u).2) := by
  have hb := bfs_spec hu
  have hd := cmd_dfs_spec hwf hu s1
  have hp := cmd_path_spec hwf hu x s2
  exact ⟨(hb.1 x).trans (hd.1 x).symm, hp.trans (hb.1 x).symm⟩

theorem bfs_absent (g : Graph) (u : Name) (h : graph_vertex_exists g u = false) :
    bfs g u = ([], []) := by
  unfold bfs
  rw [if_pos (by simp [h])]

theorem cmd_dfs_absent {g : Graph} (hwf : GraphWF g) (u : Name) (s : List Name)
    (h : graph_vertex_exists g u = false) : (cmd_dfs g u s).1 = ['\n'] := by
  have hsV : SortedV g.v_head := hwf.1
  unfold cmd_dfs
  by_cases h0 : g.v_count = 0
  · rw [if_pos h0]
  · rw [if_neg h0]
    have hnone : index_of_run g.v_head u = none := by
      cases h2 : index_of_run g.v_head u with
      | none => rfl
      | some i =>
        have h3 := index_of_run_some hsV h2
        cases hg : g.v_head.get? i with
        | none => rw [hg] at h3; exact absurd h3 (by simp)
        | some v =>
          rw [hg] at h3
          have hvn : v.name = u := by simpa using h3
          have : graph_vertex_exists g u = true := by
            unfold graph_vertex_exists
            rw [← hvn, find_of_mem hsV (List.get?_mem hg)]
            rfl
          rw [this] at h
          exact absurd h (by simp)
    rw [hnone]

theorem cmd_path_scratch_components (g : Graph) (src dst : Name) (s t : List Name) :
    (cmd_path g src dst s).1 = (cmd_path g src dst t).1 ∧
    (cmd_path g src dst s).2.1 = (cmd_path g src dst t).2.1 := by
  unfold cmd_path
  by_cases h1 : src = dst
  · simp only [if_pos h1]
    by_cases h2 : g.v_head.any (fun v => v.name = src) = true
    · simp only [if_pos h2]
      exact ⟨trivial, trivial⟩
    · simp only [if_neg h2]
      exact ⟨trivial, trivial⟩
  · simp only [if_neg h1]
    by_cases h2 : g.v_count = 0
    · simp only [if_pos h2]
      exact ⟨trivial, trivial⟩
    · simp only [if_neg h2]
      cases hx : index_of_run g.v_head src <;> cases hy : index_of_run g.v_head dst
        <;> exact ⟨rfl, rfl⟩

/-- C6: amended output form.  With the start vertex present, both traversals
print the visited names one per line (newline after each name) followed by
one extra blank line; with it absent, BFS prints nothing at all while DFS
prints exactly one newline. -/

theorem C6_traversal_output {g : Graph} (hwf : GraphWF g) (u : Name)
    (s : List Name) :
    (graph_vertex_exists g u = true →
      (bfs g u).1 = render_lines (bfs g u).2 ++ ['\n'] ∧
      (cmd_dfs g u s).1 = render_lines (cmd_dfs g u s).2.1 ++ ['\n']) ∧
    (graph_vertex_exists g u = false →
      (bfs g u).1 = [] ∧ (cmd_dfs g u s).1 = ['\n']) := by
  constructor
  · intro hu
    exact ⟨(bfs_spec hu).2, (cmd_dfs_spec hwf hu s).2.2⟩
  · intro hu
    exact ⟨by rw [bfs_absent g u hu], cmd_dfs_absent hwf u s hu⟩

theorem C6_traversal_output_witness :
    GraphWF gABCD ∧
    ((graph_vertex_exists gABCD ['A'] = true →
      (bfs gABCD ['A']).1 = render_lines (bfs gABCD ['A']).2 ++ ['\n'] ∧
      (cmd_dfs gABCD ['A'] []).1 =
        render_lines (cmd_dfs gABCD ['A'] []).2.1 ++ ['\n']) ∧
     (graph_vertex_exists gABCD ['A'] = false →
      (bfs gABCD ['A']).1 = [] ∧ (cmd_dfs gABCD ['A'] []).1 = ['\n'])) :=
  ⟨by decide, C6_traversal_output (by decide) ['A'] []⟩

theorem C6_not_space_separated :
    (bfs gABCD ['A']).1 = ['A', '\n', 'B', '\n', 'D', '\n', 'C', '\n', '\n'] ∧
    ¬ (bfs gABCD ['A']).1 = ['A', ' ', 'B', ' ', 'D', ' ', 'C', '\n'] ∧
    (bfs gABCD ['Z']).1 = [] ∧
    (cmd_dfs gABCD ['Z'] []).1 = ['\n'] := by decide

/-- C9: amended workspace contract.  On a well-formed graph with an existing
start, DFS ignores any residual scratch contents (it drains them at entry)
and hands the stack back empty, and the connectivity check's verdict and
output are likewise independent of residual scratch contents — though its
final stack need not be empty (see the counterexample). -/

theorem C9_workspace_drain {g : Graph} (hwf : GraphWF g) {u : Name}
    (hu : graph_vertex_exists g u = true) (s : List Name) (dst : Name) :
    (cmd_dfs g u s).2.2 = [] ∧
    cmd_dfs g u s = cmd_dfs g u [] ∧
    (cmd_path g u dst s).1 = (cmd_path g u dst []).1 ∧
    (cmd_path g u dst s).2.1 = (cmd_path g u dst []).2.1 := by
  have hsV : SortedV g.v_head := hwf.1
  have hvc : g.v_count = g.v_head.length := hwf.2.2.2.2.2.2.2.2
  refine ⟨(cmd_dfs_spec hwf hu s).2.1, ?_, (cmd_path_scratch_components g u dst s []).1,
    (cmd_path_scratch_components g u dst s []).2⟩
  unfold graph_vertex_exists at hu
  rw [Option.isSome_iff_exists] at hu
  obtain ⟨v0, hv0⟩ := hu
  have hv0mem : v0 ∈ g.v_head := go_mem_of_eq_some hv0
  have hv0name : v0.name = u := ((graph_find_go_some hsV).1 hv0).2
  have hVpos : g.v_count ≠ 0 := by
    rw [hvc]
    intro hlen
    rw [List.length_eq_zero.1 hlen] at hv0mem
    simp at hv0mem
  have hsome : (index_of_run g.v_head u).isSome = true :=
    hv0name ▸ index_of_run_isSome_of_mem hsV hv0mem
  unfold cmd_dfs
  simp only [if_neg hVpos]
  cases hidx : index_of_run g.v_head u with
  | none => rw [hidx] at hsome; simp at hsome
  | some s_idx => rfl

theorem C9_workspace_drain_witness :
    GraphWF gABCD ∧ graph_vertex_exists gABCD ['A'] = true ∧
    ((cmd_dfs gABCD ['A'] [['X']]).2.2 = [] ∧
     cmd_dfs gABCD ['A'] [['X']] = cmd_dfs gABCD ['A'] [] ∧
     (cmd_path gABCD ['A'] ['C'] [['X']]).1 = (cmd_path gABCD ['A'] ['C'] []).1 ∧
     (cmd_path gABCD ['A'] ['C'] [['X']]).2.1 =
       (cmd_path gABCD ['A'] ['C'] []).2.1) :=
  ⟨by decide, by decide, C9_workspace_drain (by decide) (by decide) [['X']] ['C']⟩

theorem getD_of_get? {α : Type} {l : List α} {i : Nat} {a : α}
    (h : l.get? i = some a) (d : α) : l.getD i d = a := by
  simp [List.getD]
  rw [← List.get?_eq_getElem?, h]
  rfl

theorem getD_set_eq {α : Type} (l : List α) (i : Nat) (x d : α) (h : i < l.length) :
    (l.set i x).getD i d = x := by
  simp [List.getD, List.getElem?_set_self', List.getElem?_eq_getElem, h]

theorem getD_set_ne {α : Type} (l : List α) {i j : Nat} (h : i ≠ j) (x d : α) :
    (l.set i x).getD j d = l.getD j d := by
  simp [List.getD, List.getElem?_set_ne h]

theorem getD_replicate_gen {α : Type} (n i : Nat) (x d : α) :
    (List.replicate n x).getD i d = if i < n then x else d := by
  rcases Nat.lt_or_ge i n with h | h
  · simp [List.getD, List.getElem?_replicate, h]
  · have h2 : (List.replicate n x).length ≤ i := by simpa using h
    rw [if_neg (by omega)]
    simp [List.getD, List.getElem?_eq_none h2]

theorem zip_get? {α β : Type} : ∀ (l1 : List α) (l2 : List β) (j : Nat) (a : α)
    (b : β), (l1.zip l2).get? j = some (a, b) ↔
      l1.get? j = some a ∧ l2.get? j = some b
  | [], _, j, a, b => by simp
  | x :: xs, [], j, a, b => by simp
  | x :: xs, y :: ys, 0, a, b => by
    simp [List.zip_cons_cons]
  | x :: xs, y :: ys, j + 1, a, b => by
    simp only [List.zip_cons_cons, List.get?_cons_succ]
    exact zip_get? xs ys j a b

theorem minDistance_go_le : ∀ (l : List (Int × Bool)) (i : Nat) (m : Int)
    (idx : Option Nat), (minDistance_go l i m idx).1 ≤ m
  | [], _, _, _ => le_refl _
  | (d0, vis) :: rest, i, m, idx => by
    rw [minDistance_go]
    by_cases h : vis = false ∧ d0 ≤ m
    · rw [if_pos h]
      exact le_trans (minDistance_go_le rest (i + 1) d0 (some i)) h.2
    · rw [if_neg h]
      exact minDistance_go_le rest (i + 1) m idx

theorem minDistance_go_min : ∀ (l : List (Int × Bool)) (i : Nat) (m : Int)
    (idx : Option Nat) (j : Nat) (d : Int),
    l.get? j = some (d, false) → (minDistance_go l i m idx).1 ≤ d
  | [], _, _, _, j, d => by simp
  | (d0, vis) :: rest, i, m, idx, j, d => by
    intro hj
    rw [minDistance_go]
    match j with
    | 0 =>
      rw [List.get?_cons_zero] at hj
      obtain ⟨h1, h2⟩ : d0 = d ∧ vis = false := by simpa using hj
      subst h1
      subst h2
      by_cases hdm : d0 ≤ m
      · rw [if_pos ⟨rfl, hdm⟩]
        exact minDistance_go_le rest (i + 1) d0 (some i)
      · rw [if_neg (by tauto)]
        exact le_trans (minDistance_go_le rest (i + 1) m idx)
          (le_of_lt (lt_of_not_le hdm))
    | j' + 1 =>
      rw [List.get?_cons_succ] at hj
      by_cases h : vis = false ∧ d0 ≤ m
      · rw [if_pos h]
        exact minDistance_go_min rest (i + 1) d0 (some i) j' d hj
      · rw [if_neg h]
        exact minDistance_go_min rest (i + 1) m idx j' d hj

theorem minDistance_go_some : ∀ (l : List (Int × Bool)) (i : Nat) (m : Int)
    (idx : Option Nat) (u : Nat),
    (minDistance_go l i m idx).2 = some u →
    (i ≤ u ∧ l.get? (u - i) = some ((minDistance_go l i m idx).1, false)) ∨
    (idx = some u ∧ (minDistance_go l i m idx).1 = m)
  | [], i, m, idx, u => by
    intro h
    rw [minDistance_go] at h ⊢
    exact Or.inr ⟨h, rfl⟩
  | (d0, vis) :: rest, i, m, idx, u => by
    intro h
    rw [minDistance_go] at h ⊢
    by_cases hg : vis = false ∧ d0 ≤ m
    · rw [if_pos hg] at h ⊢
      rcases minDistance_go_some rest (i + 1) d0 (some i) u h with ⟨hui, hget⟩ |
          ⟨hidx, hm⟩
      · left
        refine ⟨by omega, ?_⟩
        have he : u - i = (u - (i + 1)) + 1 := by omega
        rw [he, List.get?_cons_succ]
        exact hget
      · injection hidx with hidx
        subst hidx
        left
        refine ⟨le_refl _, ?_⟩
        rw [Nat.sub_self, List.get?_cons_zero, hm, hg.1]
    · rw [if_neg hg] at h ⊢
      rcases minDistance_go_some rest (i + 1) m idx u h with ⟨hui, hget⟩ | hr
      · left
        refine ⟨by omega, ?_⟩
        have he : u - i = (u - (i + 1)) + 1 := by omega
        rw [he, List.get?_cons_succ]
        exact hget
      · exact Or.inr hr

theorem minDistance_go_none : ∀ (l : List (Int × Bool)) (i : Nat) (m : Int)
    (idx : Option Nat),
    (minDistance_go l i m idx).2 = none →
    idx = none ∧ ∀ j d, l.get? j = some (d, false) → ¬ d ≤ m
  | [], i, m, idx => by
    intro h
    rw [minDistance_go] at h
    exact ⟨h, by simp⟩
  | (d0, vis) :: rest, i, m, idx => by
    intro h
    rw [minDistance_go] at h
    by_cases hg : vis = false ∧ d0 ≤ m
    · rw [if_pos hg] at h
      obtain ⟨hnone, -⟩ := minDistance_go_none rest (i + 1) d0 (some i) h
      exact absurd hnone (by simp)
    · rw [if_neg hg] at h
      obtain ⟨hnone, hrest⟩ := minDistance_go_none rest (i + 1) m idx h
      refine ⟨hnone, ?_⟩
      intro j d hj
      match j with
      | 0 =>
        rw [List.get?_cons_zero] at hj
        obtain ⟨h1, h2⟩ : d0 = d ∧ vis = false := by simpa using hj
        intro hdm
        exact hg ⟨h2, by rw [h1]; exact hdm⟩
      | j' + 1 =>
        rw [List.get?_cons_succ] at hj
        exact hrest j' d hj

theorem last_index_go_acc_some : ∀ (l : List Name) (i j : Nat) (x : Name),
    (last_index_go l i (some j) x).isSome = true
  | [], _, _, _ => rfl
  | n :: rest, i, j, x => by
    rw [last_index_go]
    by_cases hn : n = x
    · rw [if_pos hn]
      exact last_index_go_acc_some rest (i + 1) i x
    · rw [if_neg hn]
      exact last_index_go_acc_some rest (i + 1) j x

theorem last_index_go_isSome : ∀ (l : List Name) (i : Nat) (acc : Option Nat)
    (x : Name), x ∈ l → (last_index_go l i acc x).isSome = true
  | [], _, _, _ => by
    intro hx
    simp at hx
  | n :: rest, i, acc, x => by
    intro hx
    rw [last_index_go]
    rcases List.mem_cons.1 hx with rfl | hx
    · rw [if_pos rfl]
      exact last_index_go_acc_some rest (i + 1) i _
    · exact last_index_go_isSome rest (i + 1) _ x hx

theorem last_index_go_some : ∀ (l : List Name) (i : Nat) (acc : Option Nat)
    (x : Name) (u : Nat), last_index_go l i acc x = some u →
    (i ≤ u ∧ l.get? (u - i) = some x) ∨ acc = some u
  | [], i, acc, x, u => by
    intro h
    rw [last_index_go] at h
    exact Or.inr h
  | n :: rest, i, acc, x, u => by
    intro h
    rw [last_index_go] at h
    rcases last_index_go_some rest (i + 1) _ x u h with ⟨hui, hget⟩ | hacc
    · left
      refine ⟨by omega, ?_⟩
      have he : u - i = (u - (i + 1)) + 1 := by omega
      rw [he, List.get?_cons_succ]
      exact hget
    · by_cases hn : n = x
      · rw [if_pos hn] at hacc
        injection hacc with hacc
        subst hacc
        left
        refine ⟨le_refl _, ?_⟩
        rw [Nat.sub_self, List.get?_cons_zero, hn]
      · rw [if_neg hn] at hacc
        exact Or.inr hacc

theorem countFalse_cons (b : Bool) (l : List Bool) :
    countFalse (b :: l) = (if b then 0 else 1) + countFalse l := by
  cases b <;> simp [countFalse, List.filter_cons] <;> omega

theorem getD_cons_succ {α : Type} (a : α) (l : List α) (j : Nat) (d : α) :
    (a :: l).getD (j + 1) d = l.getD j d := by
  simp [List.getD]

theorem countFalse_eq_zero : ∀ (l : List Bool),
    (∀ j, j < l.length → l.getD j false = true) → countFalse l = 0
  | [] => fun _ => rfl
  | b :: rest => by
    intro h
    have hb : b = true := by
      have h0 := h 0 (by simp)
      simpa [List.getD] using h0
    subst hb
    rw [countFalse_cons, if_pos rfl]
    have hr := countFalse_eq_zero rest (fun j hj => by
      have := h (j + 1) (by simpa using Nat.succ_lt_succ hj)
      rwa [getD_cons_succ] at this)
    omega

theorem one_le_countFalse : ∀ (l : List Bool) (j : Nat), j < l.length →
    l.getD j false = false → 1 ≤ countFalse l
  | [], j, hj, _ => by simp at hj
  | b :: rest, 0, _, h2 => by
    have hb : b = false := by simpa [List.getD] using h2
    subst hb
    rw [countFalse_cons]
    simp
  | b :: rest, j + 1, hj, h2 => by
    rw [getD_cons_succ] at h2
    have h3 := one_le_countFalse rest j (by simpa using Nat.lt_of_succ_lt_succ hj) h2
    rw [countFalse_cons]
    cases b <;> simp <;> omega

theorem two_le_countFalse : ∀ (l : List Bool) (i j : Nat), i < j → j < l.length →
    l.getD i false = false → l.getD j false = false → 2 ≤ countFalse l
  | [], _, j, _, hj, _, _ => by simp at hj
  | b :: rest, 0, j + 1, _, hj, hi2, hj2 => by
    have hb : b = false := by simpa [List.getD] using hi2
    subst hb
    rw [getD_cons_succ] at hj2
    have h3 := one_le_countFalse rest j (by simpa using Nat.lt_of_succ_lt_succ hj) hj2
    rw [countFalse_cons]
    simp
    omega
  | b :: rest, i + 1, j + 1, hij, hj, hi2, hj2 => by
    rw [getD_cons_succ] at hi2 hj2
    have h3 := two_le_countFalse rest i j (by omega)
      (by simpa using Nat.lt_of_succ_lt_succ hj) hi2 hj2
    rw [countFalse_cons]
    cases b <;> simp <;> omega

theorem edge_weight_of_entry {g : Graph} (hwf : GraphWF g) {vu : Vertex}
    (hv : vu ∈ g.v_head) {a : AdjNode} (ha : a ∈ vu.adj) :
    graph_get_edge_weight g vu.name a.dst = a.weight := by
  obtain ⟨hsV, -, hsA, -, -, -, -, -, -⟩ := hwf
  unfold graph_get_edge_weight
  rw [find_of_mem hsV hv]
  dsimp only
  rw [find?_eq_adj_find _ (hsA vu hv), (adj_find_some (hsA vu hv)).2 ⟨ha, rfl⟩]

theorem names_getD {g : Graph} {i : Nat} {v : Vertex}
    (h : g.v_head.get? i = some v) :
    (graph_get_all_vertices g).getD i [] = v.name := by
  unfold graph_get_all_vertices
  apply getD_of_get?
  rw [List.get?_map, h]
  rfl

theorem names_length (g : Graph) :
    (graph_get_all_vertices g).length = g.v_head.length := by
  simp [graph_get_all_vertices]

theorem relax_loop_spec (g : Graph) (names : List Name) (u_idx : Nat)
    (visited : List Bool) (hu_vis : visited.getD u_idx false = true) :
    ∀ (fuel v0 : Nat) (dist : List Int), v0 + fuel ≤ dist.length →
    (relax_loop g names u_idx visited fuel v0 dist).length = dist.length ∧
    (∀ j, (relax_loop g names u_idx visited fuel v0 dist).getD j 0 =
      if v0 ≤ j ∧ j < v0 + fuel ∧ visited.getD j false = false ∧
          graph_get_edge_weight g (names.getD u_idx []) (names.getD j []) > 0 ∧
          dist.getD u_idx 0 + graph_get_edge_weight g (names.getD u_idx [])
            (names.getD j []) < dist.getD j 0 then
        dist.getD u_idx 0 + graph_get_edge_weight g (names.getD u_idx [])
          (names.getD j [])
      else dist.getD j 0) := by
  intro fuel
  induction fuel with
  | zero =>
    intro v0 dist _
    refine ⟨rfl, fun j => ?_⟩
    rw [relax_loop, if_neg ?_]
    rintro ⟨h1, h2, -⟩
    omega
  | succ fuel ih =>
    intro v0 dist hlen
    rw [relax_loop]
    by_cases hc : visited.getD v0 false = false ∧
        graph_get_edge_weight g (names.getD u_idx []) (names.getD v0 []) > 0 ∧
        dist.getD u_idx 0 + graph_get_edge_weight g (names.getD u_idx [])
          (names.getD v0 []) < dist.getD v0 0
    · rw [if_pos hc]
      have hne : u_idx ≠ v0 := by
        intro he
        rw [he, hc.1] at hu_vis
        exact absurd hu_vis (by simp)
      have hv0lt : v0 < dist.length := by omega
      have hlen2 : v0 + 1 + fuel ≤ (dist.set v0 (dist.getD u_idx 0 +
          graph_get_edge_weight g (names.getD u_idx []) (names.getD v0 []))).length := by
        rw [List.length_set]
        omega
      obtain ⟨ihlen, ihval⟩ := ih (v0 + 1) _ hlen2
      have hdu : (dist.set v0 (dist.getD u_idx 0 + graph_get_edge_weight g
          (names.getD u_idx []) (names.getD v0 []))).getD u_idx 0 =
          dist.getD u_idx 0 := getD_set_ne _ (fun he => hne he.symm) _ _
      refine ⟨by rw [ihlen, List.length_set], fun j => ?_⟩
      rw [ihval j, hdu]
      by_cases hj : j = v0
      · subst hj
        rw [if_neg (by rintro ⟨h1, -⟩; omega), if_pos ⟨le_refl _, by omega, hc⟩]
        exact getD_set_eq _ _ _ _ hv0lt
      · rw [getD_set_ne _ (fun he => hj he.symm) _ _]
        exact if_congr
          ⟨fun ⟨h1, h2, h3⟩ => ⟨by omega, by omega, h3⟩,
           fun ⟨h1, h2, h3⟩ => ⟨by omega, by omega, h3⟩⟩ rfl rfl
    · rw [if_neg hc]
      obtain ⟨ihlen, ihval⟩ := ih (v0 + 1) dist (by omega)
      refine ⟨ihlen, fun j => ?_⟩
      rw [ihval j]
      by_cases hj : j = v0
      · subst hj
        rw [if_neg (by rintro ⟨h1, -⟩; omega), if_neg (by rintro ⟨-, -, h3⟩; exact hc h3)]
      · exact if_congr
          ⟨fun ⟨h1, h2, h3⟩ => ⟨by omega, by omega, h3⟩,
           fun ⟨h1, h2, h3⟩ => ⟨by omega, by omega, h3⟩⟩ rfl rfl

theorem dijkstra_step {g : Graph} (hwf : GraphWF g) (si : Nat)
    {dist : List Int} {visited : List Bool} (hInv : DijInv g si dist visited)
    {u : Nat} (hu : (minDistance dist visited).2 = some u) :
    DijInv g si
      (relax_loop g (graph_get_all_vertices g) u (visited.set u true)
        (graph_get_all_vertices g).length 0 dist)
      (visited.set u true) ∧
    countFalse (visited.set u true) + 1 = countFalse visited := by
  have hnl : (graph_get_all_vertices g).length = g.v_head.length := names_length g
  have hm := minDistance_go_some (dist.zip visited) 0 INF none u hu
  rcases hm with ⟨-, hget⟩ | ⟨habs, -⟩
  swap
  · exact absurd habs (by simp)
  rw [Nat.sub_zero] at hget
  obtain ⟨hdu_get, hvu_get⟩ := (zip_get? dist visited u _ _).1 hget
  have hu_lt_v : u < visited.length := by
    obtain ⟨h, -⟩ := List.get?_eq_some.1 hvu_get
    exact h
  have hu_lt : u < g.v_head.length := hInv.hvlen ▸ hu_lt_v
  have hdist_u : dist.getD u 0 = (minDistance dist visited).1 :=
    getD_of_get? hdu_get 0
  have hvis_u : visited.getD u false = false := by
    rw [getD_of_get? hvu_get false]
  have hmin : ∀ j, j < g.v_head.length → visited.getD j false = false →
      dist.getD u 0 ≤ dist.getD j 0 := by
    intro j hj hvj
    cases hd : dist.get? j with
    | none =>
      rw [List.get?_eq_none] at hd
      rw [hInv.hdlen] at hd
      omega
    | some d =>
      cases hv : visited.get? j with
      | none =>
        rw [List.get?_eq_none] at hv
        rw [hInv.hvlen] at hv
        omega
      | some b =>
        have hb : b = false := by
          rw [getD_of_get? hv false] at hvj
          exact hvj
        subst hb
        rw [hdist_u, getD_of_get? hd 0]
        exact minDistance_go_min (dist.zip visited) 0 INF none j d
          ((zip_get? dist visited j d false).2 ⟨hd, hv⟩)
  have hvis2_u : (visited.set u true).getD u false = true :=
    getD_set_self_true hu_lt_v
  obtain ⟨hrlen, hrval⟩ := relax_loop_spec g (graph_get_all_vertices g) u
    (visited.set u true) hvis2_u (graph_get_all_vertices g).length 0 dist
    (by rw [hInv.hdlen, hnl]; omega)
  set newd := relax_loop g (graph_get_all_vertices g) u (visited.set u true)
    (graph_get_all_vertices g).length 0 dist with hnewd
  have hcases : ∀ j, newd.getD j 0 = dist.getD j 0 ∨
      ((visited.set u true).getD j false = false ∧ j < g.v_head.length ∧
       graph_get_edge_weight g ((graph_get_all_vertices g).getD u [])
         ((graph_get_all_vertices g).getD j []) > 0 ∧
       newd.getD j 0 = dist.getD u 0 +
         graph_get_edge_weight g ((graph_get_all_vertices g).getD u [])
           ((graph_get_all_vertices g).getD j []) ∧
       newd.getD j 0 < dist.getD j 0) := by
    intro j
    rw [hrval j]
    by_cases hc : 0 ≤ j ∧ j < 0 + (graph_get_all_vertices g).length ∧
        (visited.set u true).getD j false = false ∧
        graph_get_edge_weight g ((graph_get_all_vertices g).getD u [])
          ((graph_get_all_vertices g).getD j []) > 0 ∧
        dist.getD u 0 + graph_get_edge_weight g ((graph_get_all_vertices g).getD u [])
          ((graph_get_all_vertices g).getD j []) < dist.getD j 0
    · rw [if_pos hc]
      obtain ⟨-, h2, h3, h4, h5⟩ := hc
      exact Or.inr ⟨h3, by omega, h4, rfl, h5⟩
    · rw [if_neg hc]
      exact Or.inl rfl
  have hmono : ∀ j, newd.getD j 0 ≤ dist.getD j 0 := by
    intro j
    rcases hcases j with h | ⟨-, -, -, -, h5⟩
    · omega
    · omega
  have hD'u : newd.getD u 0 = dist.getD u 0 := by
    rcases hcases u with h | ⟨h1, -⟩
    · exact h
    · rw [hvis2_u] at h1
      exact absurd h1 (by simp)
  have hfixed : ∀ j, (visited.set u true).getD j false = true →
      newd.getD j 0 = dist.getD j 0 := by
    intro j hvj
    rcases hcases j with h | ⟨h1, -⟩
    · exact h
    · rw [hvj] at h1
      exact absurd h1 (by simp)
  have hrelaxed : ∀ j, j < g.v_head.length →
      (visited.set u true).getD j false = false →
      graph_get_edge_weight g ((graph_get_all_vertices g).getD u [])
        ((graph_get_all_vertices g).getD j []) > 0 →
      newd.getD j 0 ≤ dist.getD u 0 +
        graph_get_edge_weight g ((graph_get_all_vertices g).getD u [])
          ((graph_get_all_vertices g).getD j []) := by
    intro j hj hv hw
    rw [hrval j]
    by_cases hlt : dist.getD u 0 +
        graph_get_edge_weight g ((graph_get_all_vertices g).getD u [])
          ((graph_get_all_vertices g).getD j []) < dist.getD j 0
    · rw [if_pos ⟨by omega, by rw [hnl]; omega, hv, hw, hlt⟩]
    · rw [if_neg (by rintro ⟨-, -, -, -, h5⟩; exact hlt h5)]
      omega
  refine ⟨⟨hrlen.trans hInv.hdlen, by rw [List.length_set]; exact hInv.hvlen,
    ?_, ?_, ?_, ?_, ?_⟩, countFalse_set_true hu_lt_v hvis_u⟩
  · -- hzero
    rcases hcases si with h | ⟨-, -, hw, hval, hlt⟩
    · rw [h, hInv.hzero]
    · rw [hInv.hzero] at hlt
      have := hInv.hpos u
      omega
  · -- hpos
    intro j
    rcases hcases j with h | ⟨-, -, hw, hval, -⟩
    · rw [h]
      exact hInv.hpos j
    · rw [hval]
      have := hInv.hpos u
      omega
  · -- hinf
    intro j
    rcases hcases j with h | ⟨-, -, -, -, h5⟩
    · rw [h]
      exact hInv.hinf j
    · have := hInv.hinf j
      omega
  · -- hA
    intro iu iv vu vv hgu hgv hvisu a ha hadst
    have hvu_mem : vu ∈ g.v_head := List.get?_mem hgu
    have hnames_u : (graph_get_all_vertices g).getD iu [] = vu.name := names_getD hgu
    have hnames_v : (graph_get_all_vertices g).getD iv [] = vv.name := names_getD hgv
    have hiv_lt : iv < g.v_head.length := by
      obtain ⟨h, -⟩ := List.get?_eq_some.1 hgv
      exact h
    have hwpos : 0 < a.weight := by
      have := hwf.2.2.2.2.2.1 vu hvu_mem a ha
      have hmw : MIN_WEIGHT = (1 : Int) := rfl
      omega
    by_cases hiu_u : iu = u
    · subst hiu_u
      have hweq : graph_get_edge_weight g ((graph_get_all_vertices g).getD iu [])
          ((graph_get_all_vertices g).getD iv []) = a.weight := by
        rw [hnames_u, hnames_v, ← hadst]
        exact edge_weight_of_entry hwf hvu_mem ha
      rw [hD'u]
      by_cases hviv : (visited.set iu true).getD iv false = false
      · have := hrelaxed iv hiv_lt hviv (by rw [hweq]; omega)
        rw [hweq] at this
        exact this
      · by_cases hiv_u : iv = iu
        · subst hiv_u
          rw [hgu] at hgv
          injection hgv with hgv
          rw [← hgv] at hadst
          exact absurd hadst (hwf.2.2.2.2.1 vu hvu_mem a ha)
        · have hviv_t : (visited.set iu true).getD iv false = true := by
            cases hx : (visited.set iu true).getD iv false
            · exact absurd hx hviv
            · rfl
          have hviv_old : visited.getD iv false = true := by
            rw [← getD_set_diff (fun he => hiv_u he.symm) true]
            exact hviv_t
          rw [hfixed iv hviv_t]
          have h1 := hInv.hB iv iu hiv_lt hu_lt hviv_old hvis_u
          omega
    · have hvisu_old : visited.getD iu false = true := by
        rw [← getD_set_diff (fun he => hiu_u he.symm) true]
        exact hvisu
      have hold := hInv.hA iu iv vu vv hgu hgv hvisu_old a ha hadst
      rw [hfixed iu hvisu]
      have := hmono iv
      omega
  · -- hB
    intro x y hx hy hvx2 hvy2
    have hyu : y ≠ u := by
      intro he
      rw [he, hvis2_u] at hvy2
      exact absurd hvy2 (by simp)
    have hvy_old : visited.getD y false = false := by
      rw [← getD_set_diff (fun he => hyu he.symm) true]
      exact hvy2
    by_cases hxu : x = u
    · subst hxu
      rw [hD'u]
      rcases hcases y with h | ⟨-, -, hw, hval, -⟩
      · rw [h]
        exact hmin y hy hvy_old
      · rw [hval]
        omega
    · have hvx_old : visited.getD x false = true := by
        rw [← getD_set_diff (fun he => hxu he.symm) true]
        exact hvx2
      rw [hfixed x hvx2]
      rcases hcases y with h | ⟨-, -, hw, hval, -⟩
      · rw [h]
        exact hInv.hB x y hx hy hvx_old hvy_old
      · rw [hval]
        have := hInv.hB x u hx hu_lt hvx_old hvis_u
        omega

theorem dijkstra_loop_spec {g : Graph} (hwf : GraphWF g) (si : Nat) :
    ∀ (count : Nat) (dist : List Int) (visited : List Bool),
    DijInv g si dist visited →
    DijInv g si (dijkstra_loop g (graph_get_all_vertices g) count dist visited).1
      (dijkstra_loop g (graph_get_all_vertices g) count dist visited).2 ∧
    countFalse (dijkstra_loop g (graph_get_all_vertices g) count dist visited).2 ≤
      countFalse visited - count := by
  intro count
  induction count with
  | zero =>
    intro dist visited hInv
    rw [dijkstra_loop]
    refine ⟨hInv, ?_⟩
    show countFalse visited ≤ countFalse visited - 0
    omega
  | succ count ih =>
    intro dist visited hInv
    rw [dijkstra_loop]
    cases hu : (minDistance dist visited).2 with
    | none =>
      dsimp only
      refine ⟨hInv, ?_⟩
      show countFalse visited ≤ countFalse visited - (count + 1)
      have hz : countFalse visited = 0 := by
        apply countFalse_eq_zero
        intro j hj
        by_contra hfalse
        have hvj : visited.getD j false = false := by
          cases hx : visited.getD j false
          · rfl
          · exact absurd hx hfalse
        have hjd : j < dist.length := by
          rw [hInv.hdlen, ← hInv.hvlen]
          exact hj
        cases hd : dist.get? j with
        | none =>
          rw [List.get?_eq_none] at hd
          omega
        | some d =>
          cases hv : visited.get? j with
          | none =>
            rw [List.get?_eq_none] at hv
            omega
          | some b =>
            have hb : b = false := by
              rw [getD_of_get? hv false] at hvj
              exact hvj
            subst hb
            obtain ⟨-, hminN⟩ := minDistance_go_none (dist.zip visited) 0 INF none hu
            apply hminN j d ((zip_get? dist visited j d false).2 ⟨hd, hv⟩)
            have := hInv.hinf j
            rw [getD_of_get? hd 0] at this
            exact this
      omega
    | some u =>
      dsimp only
      obtain ⟨hInv2, hcount⟩ := dijkstra_step hwf si hInv hu
      obtain ⟨hInv3, hcount3⟩ := ih _ _ hInv2
      exact ⟨hInv3, by omega⟩

/-- C2: corrected statement for the array-based Dijkstra `shortestPath` of
FINAL shortest_Path.c.  With both endpoints present in a well-formed graph,
the distance array at the end of the main loop has distance 0 at the source
index and satisfies the relaxation inequality `dist[v] <= dist[u] + w` along
every adjacency entry (unreached vertices holding the INF sentinel). -/

theorem C2_relaxation_invariant {g : Graph} (hwf : GraphWF g) {src dstName : Name}
    (hs : graph_vertex_exists g src = true)
    (hd : graph_vertex_exists g dstName = true) :
    ∃ dist, shortestPath_dist g src dstName = some dist ∧
      (∀ si vsrc, g.v_head.get? si = some vsrc → vsrc.name = src →
        dist.getD si 0 = 0) ∧
      (∀ iu iv vu vv, g.v_head.get? iu = some vu → g.v_head.get? iv = some vv →
        ∀ a ∈ vu.adj, a.dst = vv.name →
        dist.getD iv 0 ≤ dist.getD iu 0 + a.weight) := by
  have hsV : SortedV g.v_head := hwf.1
  have hnl : (graph_get_all_vertices g).length = g.v_head.length := names_length g
  unfold graph_vertex_exists at hs hd
  rw [Option.isSome_iff_exists] at hs hd
  obtain ⟨v0, hv0⟩ := hs
  obtain ⟨vd, hvd⟩ := hd
  have hv0mem : v0 ∈ g.v_head := go_mem_of_eq_some hv0
  have hv0name : v0.name = src := ((graph_find_go_some hsV).1 hv0).2
  have hvdmem : vd ∈ g.v_head := go_mem_of_eq_some hvd
  have hvdname : vd.name = dstName := ((graph_find_go_some hsV).1 hvd).2
  have hsrc_mem : src ∈ graph_get_all_vertices g := by
    unfold graph_get_all_vertices
    rw [← hv0name]
    exact List.mem_map_of_mem _ hv0mem
  have hdst_mem : dstName ∈ graph_get_all_vertices g := by
    unfold graph_get_all_vertices
    rw [← hvdname]
    exact List.mem_map_of_mem _ hvdmem
  have hssome := last_index_go_isSome (graph_get_all_vertices g) 0 none src hsrc_mem
  have hdsome := last_index_go_isSome (graph_get_all_vertices g) 0 none dstName
    hdst_mem
  unfold shortestPath_dist
  dsimp only
  cases hsi : last_index_go (graph_get_all_vertices g) 0 none src with
  | none => rw [hsi] at hssome; simp at hssome
  | some si0 =>
    cases hei : last_index_go (graph_get_all_vertices g) 0 none dstName with
    | none => rw [hei] at hdsome; simp at hdsome
    | some ei0 =>
      dsimp only
      refine ⟨_, rfl, ?_⟩
      have hsi_get : (graph_get_all_vertices g).get? si0 = some src := by
        rcases last_index_go_some _ 0 none src si0 hsi with ⟨-, hget⟩ | habs
        · rwa [Nat.sub_zero] at hget
        · exact absurd habs (by simp)
      have hsi0_lt : si0 < g.v_head.length := by
        obtain ⟨h, -⟩ := List.get?_eq_some.1 hsi_get
        rw [hnl] at h
        exact h
      have hn_pos : 1 ≤ g.v_head.length := by omega
      have hInv0 : DijInv g si0
          ((List.replicate (graph_get_all_vertices g).length INF).set si0 0)
          (List.replicate (graph_get_all_vertices g).length false) := by
        refine ⟨by rw [List.length_set, List.length_replicate, hnl],
          by rw [List.length_replicate, hnl], ?_, ?_, ?_, ?_, ?_⟩
        · apply getD_set_eq
          rw [List.length_replicate, hnl]
          exact hsi0_lt
        · intro j
          by_cases hj : j = si0
          · subst hj
            rw [getD_set_eq _ _ _ _ (by rw [List.length_replicate, hnl]; exact hsi0_lt)]
          · rw [getD_set_ne _ (fun he => hj he.symm) _ _, getD_replicate_gen]
            by_cases hlt : j < (graph_get_all_vertices g).length
            · rw [if_pos hlt]
              norm_num [INF]
            · rw [if_neg hlt]
        · intro j
          by_cases hj : j = si0
          · subst hj
            rw [getD_set_eq _ _ _ _ (by rw [List.length_replicate, hnl]; exact hsi0_lt)]
            norm_num [INF]
          · rw [getD_set_ne _ (fun he => hj he.symm) _ _, getD_replicate_gen]
            by_cases hlt : j < (graph_get_all_vertices g).length
            · rw [if_pos hlt]
            · rw [if_neg hlt]
              norm_num [INF]
        · intro iu iv vu vv hgu hgv hvisu
          rw [getD_replicate_false] at hvisu
          exact absurd hvisu (by simp)
        · intro iu iv hiu hiv hvisu
          rw [getD_replicate_false] at hvisu
          exact absurd hvisu (by simp)
      obtain ⟨hInvF, hcountF⟩ := dijkstra_loop_spec hwf si0
        ((graph_get_all_vertices g).length - 1) _ _ hInv0
      rw [countFalse_replicate] at hcountF
      set r := dijkstra_loop g (graph_get_all_vertices g)
        ((graph_get_all_vertices g).length - 1)
        ((List.replicate (graph_get_all_vertices g).length INF).set si0 0)
        (List.replicate (graph_get_all_vertices g).length false) with hr
    -- after the loop at most one vertex is unvisited
      have hone : countFalse r.2 ≤ 1 := by omega
      constructor
      · -- source distance is zero; the source index is unique
        intro si vsrc hget hname
        have hsi_eq : si = si0 := by
          have hget2 : (graph_get_all_vertices g).get? si = some src := by
            unfold graph_get_all_vertices
            rw [List.get?_map, hget]
            simp [hname]
          by_contra hne
          have hpair : List.Pairwise (fun a b : Name => a < b)
              (graph_get_all_vertices g) := by
            unfold graph_get_all_vertices
            exact (List.pairwise_map).2 hsV
          obtain ⟨hlt1, hg1⟩ := List.get?_eq_some.1 hget2
          obtain ⟨hlt2, hg2⟩ := List.get?_eq_some.1 hsi_get
          have hpg := List.pairwise_iff_get.1 hpair
          rcases Nat.lt_or_ge si si0 with hlt | hge
          · have h3 := hpg ⟨si, hlt1⟩ ⟨si0, hlt2⟩ hlt
            rw [hg1, hg2] at h3
            exact absurd h3 (lt_irrefl _)
          · have hlt3 : si0 < si := lt_of_le_of_ne hge (fun hx => hne hx.symm)
            have h3 := hpg ⟨si0, hlt2⟩ ⟨si, hlt1⟩ hlt3
            rw [hg1, hg2] at h3
            exact absurd h3 (lt_irrefl _)
        rw [hsi_eq]
        exact hInvF.hzero
      · -- relaxation along every adjacency entry
        intro iu iv vu vv hgu hgv a ha hadst
        have hiu_lt : iu < g.v_head.length := by
          obtain ⟨h, -⟩ := List.get?_eq_some.1 hgu
          exact h
        have hiv_lt : iv < g.v_head.length := by
          obtain ⟨h, -⟩ := List.get?_eq_some.1 hgv
          exact h
        have hvu_mem : vu ∈ g.v_head := List.get?_mem hgu
        have hwpos : 0 < a.weight := by
          have := hwf.2.2.2.2.2.1 vu hvu_mem a ha
          have hmw : MIN_WEIGHT = (1 : Int) := rfl
          omega
        cases hviu : r.2.getD iu false with
        | true => exact hInvF.hA iu iv vu vv hgu hgv hviu a ha hadst
        | false =>
          cases hviv : r.2.getD iv false with
          | true =>
            have := hInvF.hB iv iu hiv_lt hiu_lt hviv hviu
            omega
          | false =>
            have hne : iu ≠ iv := by
              intro he
              rw [he, hgv] at hgu
              injection hgu with hgu
              rw [← hgu] at ha
              exact (hwf.2.2.2.2.1 vv (List.get?_mem hgv) a ha) hadst
            have h2 : 2 ≤ countFalse r.2 := by
              rcases Nat.lt_or_ge iu iv with hlt | hge
              · exact two_le_countFalse r.2 iu iv hlt
                  (by rw [hInvF.hvlen]; exact hiv_lt) hviu hviv
              · have hlt2 : iv < iu := lt_of_le_of_ne hge (fun hx => hne hx.symm)
                exact two_le_countFalse r.2 iv iu hlt2
                  (by rw [hInvF.hvlen]; exact hiu_lt) hviv hviu
            omega

theorem C2_relaxation_invariant_witness :
    GraphWF gABCD ∧ graph_vertex_exists gABCD ['A'] = true ∧
    graph_vertex_exists gABCD ['C'] = true ∧
    (∃ dist, shortestPath_dist gABCD ['A'] ['C'] = some dist ∧
      (∀ si vsrc, gABCD.v_head.get? si = some vsrc → vsrc.name = ['A'] →
        dist.getD si 0 = 0) ∧
      (∀ iu iv vu vv, gABCD.v_head.get? iu = some vu →
        gABCD.v_head.get? iv = some vv → ∀ a ∈ vu.adj, a.dst = vv.name →
        dist.getD iv 0 ≤ dist.getD iu 0 + a.weight)) :=
  ⟨by decide, by decide, by decide,
    C2_relaxation_invariant (by decide) (by decide) (by decide)⟩

theorem C2_early_exit_skips_relaxation :
    GraphWF gLine ∧
    graph_vertex_exists gLine ['A'] = true ∧
    graph_vertex_exists gLine ['B'] = true ∧
    cmd_shortest_path_dist gLine ['A'] ['B'] 10 = some [0, 1, 2147483647] ∧
    graph_get_edge_weight gLine ['B'] ['C'] = 2 ∧
    ¬ ((2147483647 : Int) ≤ 1 + 2) := by decide

theorem C5_primMST_records_foreign_edge :
    GraphWF gTwo ∧
    primMST_edges gTwo 20 = [(['A'], ['B'], 1), (['C'], ['D'], 5)] ∧
    (cmd_path gTwo ['A'] ['C'] []).1 = false ∧
    (cmd_path gTwo ['A'] ['D'] []).1 = false := by decide

theorem heap_swap_perm {α : Type} (l : List (HeapEntry α)) (i j : Nat) :
    (heap_swap l i j).Perm l := by
  unfold heap_swap
  cases hi : l.get? i with
  | none => exact List.Perm.refl l
  | some x =>
    cases hj : l.get? j with
    | none => exact List.Perm.refl l
    | some y => exact set_set_swap_perm l i j hi hj

theorem sift_up_perm {α : Type} : ∀ (fuel : Nat) (l : List (HeapEntry α)) (i : Nat),
    (sift_up fuel l i).Perm l
  | 0, l, _ => List.Perm.refl l
  | fuel + 1, l, i => by
    rw [sift_up]
    split
    · exact (sift_up_perm fuel _ _).trans (heap_swap_perm l i ((i - 1) / 2))
    · exact List.Perm.refl l

theorem sift_down_perm {α : Type} : ∀ (fuel : Nat) (l : List (HeapEntry α))
    (i : Nat), (sift_down fuel l i).Perm l
  | 0, l, _ => List.Perm.refl l
  | fuel + 1, l, i => by
    rw [sift_down]
    have key : ∀ (s2 : Nat),
        (if s2 = i then l else sift_down fuel (heap_swap l i s2) s2).Perm l := by
      intro s2
      split
      · exact List.Perm.refl l
      · exact (sift_down_perm fuel _ _).trans (heap_swap_perm l i s2)
    exact key _

theorem heap_push_mem {α : Type} {h : Heap α} {x : α} {k : Int} {e : HeapEntry α}
    (he : e ∈ (heap_push h x k).1.entries) : e ∈ h.entries ∨ e = ⟨k, x⟩ := by
  unfold heap_push at he
  dsimp only at he
  have hent : (if h.entries.length = h.cap then { h with cap := h.cap * 2 }
      else h).entries = h.entries := by
    by_cases hc : h.entries.length = h.cap
    · rw [if_pos hc]
    · rw [if_neg hc]
  rw [hent] at he
  have hperm := sift_up_perm (h.entries.length + 1) (h.entries ++ [⟨k, x⟩])
    h.entries.length
  have h2 : e ∈ h.entries ++ [⟨k, x⟩] := hperm.mem_iff.1 he
  rcases List.mem_append.1 h2 with h3 | h3
  · exact Or.inl h3
  · exact Or.inr (List.mem_singleton.1 h3)

theorem ds_heap_push_mem {α : Type} {h : Heap α} {x : α} {k : Int}
    {e : HeapEntry α} (he : e ∈ (ds_heap_push h x k).1.entries) :
    e ∈ h.entries ∨ e = ⟨k, x⟩ := by
  unfold ds_heap_push at he
  by_cases hk : k < 0
  · rw [if_pos hk] at he
    exact Or.inl he
  · rw [if_neg hk] at he
    exact heap_push_mem he

theorem heap_extract_mem {α : Type} {h : Heap α} {k : Int} {d : α} {h2 : Heap α}
    (hex : heap_extract_min h = (some (k, d), h2)) :
    (∃ e ∈ h.entries, e.key = k ∧ e.data = d) ∧
    ∀ e ∈ h2.entries, e ∈ h.entries := by
  unfold heap_extract_min at hex
  cases hl : h.entries with
  | nil =>
    rw [hl] at hex
    exact absurd hex (by simp)
  | cons e0 rest =>
    rw [hl] at hex
    dsimp only at hex
    cases hlast : rest.getLast? with
    | none =>
      rw [hlast] at hex
      dsimp only at hex
      injection hex with hex1 hex2
      injection hex1 with hex1
      have hk : e0.key = k ∧ e0.data = d := by
        have := congrArg Prod.fst hex1
        have h2' := congrArg Prod.snd hex1
        exact ⟨this, h2'⟩
      refine ⟨⟨e0, List.mem_cons_self _ _, hk⟩, ?_⟩
      intro e he
      rw [← hex2] at he
      simp at he
    | some lastE =>
      rw [hlast] at hex
      dsimp only at hex
      injection hex with hex1 hex2
      injection hex1 with hex1
      have hk : e0.key = k ∧ e0.data = d := by
        have := congrArg Prod.fst hex1
        have h2' := congrArg Prod.snd hex1
        exact ⟨this, h2'⟩
      refine ⟨⟨e0, List.mem_cons_self _ _, hk⟩, ?_⟩
      intro e he
      rw [← hex2] at he
      have hperm := sift_down_perm ((lastE :: rest.dropLast).length + 1)
        (lastE :: rest.dropLast) 0
      have h3 : e ∈ lastE :: rest.dropLast := hperm.mem_iff.1 he
      rcases List.mem_cons.1 h3 with rfl | h4
      · apply List.mem_cons_of_mem
        obtain ⟨hne, heq⟩ := List.mem_getLast?_eq_getLast (Option.mem_def.2 hlast)
        rw [heq]
        exact List.getLast_mem hne
      · exact List.mem_cons_of_mem _ ((List.dropLast_sublist rest).mem h4)

theorem heap_decrease_mem {α : Type} {h : Heap α} {i : Nat} {k : Int}
    {e : HeapEntry α} (he : e ∈ (heap_decrease_key h i k).2.entries) :
    ∃ e2 ∈ h.entries, e.data = e2.data := by
  unfold heap_decrease_key at he
  by_cases h1 : i ≥ h.entries.length
  · rw [if_pos h1] at he
    exact ⟨e, he, rfl⟩
  · rw [if_neg h1] at he
    by_cases h2 : k ≥ keyAt h.entries i
    · rw [if_pos h2] at he
      exact ⟨e, he, rfl⟩
    · rw [if_neg h2] at he
      cases hg : h.entries.get? i with
      | none =>
        rw [hg] at he
        exact ⟨e, he, rfl⟩
      | some e0 =>
        rw [hg] at he
        dsimp only at he
        have hperm := sift_up_perm (i + 1) (h.entries.set i ⟨k, e0.data⟩) i
        have hmem : e ∈ h.entries.set i ⟨k, e0.data⟩ := hperm.mem_iff.1 he
        rcases List.mem_or_eq_of_mem_set hmem with h3 | h3
        · exact ⟨e, h3, rfl⟩
        · exact ⟨e0, List.get?_mem hg, by rw [h3]⟩

theorem first_index_go_some : ∀ (l : List Name) (i : Nat) (x : Name) (u : Nat),
    first_index_go l i x = some u → i ≤ u ∧ l.get? (u - i) = some x
  | [], _, _, _ => by
    intro h
    rw [first_index_go] at h
    exact absurd h (by simp)
  | n :: rest, i, x, u => by
    intro h
    rw [first_index_go] at h
    by_cases hn : n = x
    · rw [if_pos hn] at h
      injection h with h
      subst h
      exact ⟨le_refl _, by rw [Nat.sub_self, List.get?_cons_zero, hn]⟩
    · rw [if_neg hn] at h
      obtain ⟨h1, h2⟩ := first_index_go_some rest (i + 1) x u h
      refine ⟨by omega, ?_⟩
      rw [show u - i = (u - (i + 1)) + 1 from by omega, List.get?_cons_succ]
      exact h2

theorem find_vertex_index_some {names : List Name} {x : Name} {u : Nat}
    (h : find_vertex_index names x = some u) : names.get? u = some x := by
  obtain ⟨-, h2⟩ := first_index_go_some names 0 x u h
  rwa [Nat.sub_zero] at h2

theorem cmd_mst_relax_inv {g : Graph} {s : Name} (names : List Name)
    (u_idx : Nat) (inMST : List Bool) :
    ∀ (adjL : List AdjNode) (pq : Heap Name) (key : List Int)
      (parent hidx : List (Option Nat)),
    (∀ a ∈ adjL, Reach g s a.dst) →
    (∀ e ∈ pq.entries, Reach g s e.data) →
    (∀ v p, parent.getD v none = some p → Reach g s (names.getD p []) ∧
      Reach g s (names.getD v [])) →
    Reach g s (names.getD u_idx []) →
    (∀ e ∈ (cmd_mst_relax names u_idx inMST adjL
        (pq, key, parent, hidx)).1.entries, Reach g s e.data) ∧
    (∀ v p, (cmd_mst_relax names u_idx inMST adjL
        (pq, key, parent, hidx)).2.2.1.getD v none = some p →
      Reach g s (names.getD p []) ∧ Reach g s (names.getD v []))
  | [], pq, key, parent, hidx => by
    intro _ hheap hparent _
    exact ⟨hheap, hparent⟩
  | a :: rest, pq, key, parent, hidx => by
    intro hadj hheap hparent hru
    rw [cmd_mst_relax]
    have hadj_rest : ∀ b ∈ rest, Reach g s b.dst :=
      fun b hb => hadj b (List.mem_cons_of_mem a hb)
    have hra : Reach g s a.dst := hadj a (List.mem_cons_self _ _)
    cases hfi : find_vertex_index names a.dst with
    | none =>
      exact cmd_mst_relax_inv names u_idx inMST rest pq key parent hidx
        hadj_rest hheap hparent hru
    | some v_idx =>
      dsimp only
      have hvname : names.getD v_idx [] = a.dst :=
        getD_of_get? (find_vertex_index_some hfi) []
      by_cases hin : inMST.getD v_idx false = true
      · rw [if_pos hin]
        exact cmd_mst_relax_inv names u_idx inMST rest pq key parent hidx
          hadj_rest hheap hparent hru
      · rw [if_neg hin]
        have hparent2 : ∀ v p,
            (parent.set v_idx (some u_idx)).getD v none = some p →
            Reach g s (names.getD p []) ∧ Reach g s (names.getD v []) := by
          intro v p hp
          by_cases hv : v = v_idx
          · subst hv
            rcases Nat.lt_or_ge v parent.length with hlt | hge
            · rw [getD_set_eq _ _ _ _ hlt] at hp
              injection hp with hp
              subst hp
              exact ⟨hru, by rw [hvname]; exact hra⟩
            · rw [List.set_eq_of_length_le hge] at hp
              exact hparent v p hp
          · rw [getD_set_ne _ (fun he => hv he.symm) _ _] at hp
            exact hparent v p hp
        by_cases hw : a.weight < key.getD v_idx 0
        · rw [if_pos hw]
          cases hh : hidx.getD v_idx none with
          | none =>
            apply cmd_mst_relax_inv names u_idx inMST rest _ _ _ _
              hadj_rest ?_ hparent2 hru
            intro e he
            rcases ds_heap_push_mem he with h1 | h1
            · exact hheap e h1
            · rw [h1, hvname]
              exact hra
          | some hi =>
            apply cmd_mst_relax_inv names u_idx inMST rest _ _ _ _
              hadj_rest ?_ hparent2 hru
            intro e he
            obtain ⟨e2, he2, hdata⟩ := heap_decrease_mem he
            rw [hdata]
            exact hheap e2 he2
        · rw [if_neg hw]
          exact cmd_mst_relax_inv names u_idx inMST rest pq key parent hidx
            hadj_rest hheap hparent hru

theorem cmd_mst_loop_inv {g : Graph} (hwf : GraphWF g) (s : Name) :
    ∀ (fuel : Nat) (pq : Heap Name) (key : List Int) (inMST : List Bool)
      (parent hidx : List (Option Nat)) (edges : List (Name × Name × Int)),
    (∀ e ∈ pq.entries, Reach g s e.data) →
    (∀ v p, parent.getD v none = some p →
      Reach g s ((graph_get_all_vertices g).getD p []) ∧
      Reach g s ((graph_get_all_vertices g).getD v [])) →
    (∀ e ∈ edges, Reach g s e.1 ∧ Reach g s e.2.1) →
    ∀ e ∈ cmd_mst_loop g (graph_get_all_vertices g) fuel pq key inMST parent
        hidx edges, Reach g s e.1 ∧ Reach g s e.2.1 := by
  have hsV : SortedV g.v_head := hwf.1
  intro fuel
  induction fuel with
  | zero =>
    intro pq key inMST parent hidx edges _ _ hedges
    rw [cmd_mst_loop]
    exact hedges
  | succ fuel ih =>
    intro pq key inMST parent hidx edges hheap hparent hedges
    rw [cmd_mst_loop]
    by_cases hempty : heap_is_empty pq = true
    · rw [if_pos hempty]
      exact hedges
    · rw [if_neg hempty]
      cases hex : heap_extract_min pq with
      | mk o pq2 =>
        cases o with
        | none => exact hedges
        | some kd =>
          cases kd with
          | mk k0 u_name =>
            dsimp only
            obtain ⟨⟨e0, he0, -, hd0⟩, hsub⟩ := heap_extract_mem hex
            have hheap2 : ∀ e ∈ pq2.entries, Reach g s e.data :=
              fun e he => hheap e (hsub e he)
            have hur : Reach g s u_name := by
              rw [← hd0]
              exact hheap e0 he0
            cases hfi : find_vertex_index (graph_get_all_vertices g) u_name with
            | none => exact ih pq2 key inMST parent hidx edges hheap2 hparent hedges
            | some u_idx =>
              dsimp only
              by_cases hin : inMST.getD u_idx false = true
              · rw [if_pos hin]
                exact ih pq2 key inMST parent hidx edges hheap2 hparent hedges
              · rw [if_neg hin]
                have hnget : (graph_get_all_vertices g).get? u_idx = some u_name :=
                  find_vertex_index_some hfi
                have hnames_u : (graph_get_all_vertices g).getD u_idx [] = u_name :=
                  getD_of_get? hnget []
                have hru : Reach g s ((graph_get_all_vertices g).getD u_idx []) := by
                  rw [hnames_u]
                  exact hur
                have hvu : ∃ vu, g.v_head.get? u_idx = some vu ∧ vu.name = u_name := by
                  unfold graph_get_all_vertices at hnget
                  rw [List.get?_map] at hnget
                  cases hg : g.v_head.get? u_idx with
                  | none =>
                    rw [hg] at hnget
                    exact absurd hnget (by simp)
                  | some vu =>
                    rw [hg] at hnget
                    exact ⟨vu, rfl, by simpa using hnget⟩
                obtain ⟨vu, hvu_get, hvu_name⟩ := hvu
                have hadj_reach : ∀ a ∈ adj_at g.v_head u_idx, Reach g s a.dst := by
                  intro a ha
                  have hadj_eq : adj_at g.v_head u_idx = vu.adj := by
                    unfold adj_at
                    rw [hvu_get]
                  rw [hadj_eq] at ha
                  refine Relation.ReflTransGen.tail hur ?_
                  rw [← hvu_name]
                  exact adjacentb_of_entry hsV (List.get?_mem hvu_get) ha
                have hedges2 : ∀ e ∈ (match parent.getD u_idx none with
                    | none => edges
                    | some p =>
                      let pn := (graph_get_all_vertices g).getD p []
                      let un := (graph_get_all_vertices g).getD u_idx []
                      if pn < un then edges ++ [(pn, un, key.getD u_idx 0)]
                      else edges ++ [(un, pn, key.getD u_idx 0)]),
                    Reach g s e.1 ∧ Reach g s e.2.1 := by
                  cases hp : parent.getD u_idx none with
                  | none => exact hedges
                  | some p =>
                    obtain ⟨hrp, hrv⟩ := hparent u_idx p hp
                    dsimp only
                    by_cases hord : (graph_get_all_vertices g).getD p [] <
                        (graph_get_all_vertices g).getD u_idx []
                    · rw [if_pos hord]
                      intro e he
                      rcases List.mem_append.1 he with h1 | h1
                      · exact hedges e h1
                      · rw [List.mem_singleton.1 h1]
                        exact ⟨hrp, hrv⟩
                    · rw [if_neg hord]
                      intro e he
                      rcases List.mem_append.1 he with h1 | h1
                      · exact hedges e h1
                      · rw [List.mem_singleton.1 h1]
                        exact ⟨hrv, hrp⟩
                obtain ⟨hheap3, hparent3⟩ := cmd_mst_relax_inv
                  (graph_get_all_vertices g) u_idx (inMST.set u_idx true)
                  (adj_at g.v_head u_idx) pq2 key parent (hidx.set u_idx none)
                  hadj_reach hheap2 hparent hru
                exact ih _ _ _ _ _ _ hheap3 hparent3 hedges2

/-- C5: amended statement.  The vertex-0-seeded `cmd_mst` of algorithms
mst.c records only edges whose endpoints are both reachable from the first
vertex of the store (the lexicographically first vertex, as the store is
sorted): vertices of other components are silently omitted.  The FINAL
`primMST`, which pushes every vertex up front, violates the claim (see the
counterexample). -/

theorem C5_cmd_mst_stays_in_component {g : Graph} (hwf : GraphWF g)
    (fuel : Nat) :
    ∀ e ∈ cmd_mst_edges g fuel,
      Reach g ((graph_get_all_vertices g).getD 0 []) e.1 ∧
      Reach g ((graph_get_all_vertices g).getD 0 []) e.2.1 := by
  intro e he
  unfold cmd_mst_edges at he
  dsimp only at he
  by_cases hn : (graph_get_all_vertices g).length = 0
  · rw [if_pos hn] at he
    simp at he
  · rw [if_neg hn] at he
    refine cmd_mst_loop_inv hwf _ fuel _ _ _ _ _ _ ?_ ?_ ?_ e he
    · intro e2 he2
      rcases ds_heap_push_mem he2 with h1 | h1
      · have : (heap_create Name (graph_get_all_vertices g).length).entries = [] :=
          rfl
        rw [this] at h1
        exact absurd h1 (by simp)
      · rw [h1]
        exact Relation.ReflTransGen.refl
    · intro v p hp
      rw [getD_replicate_gen, ite_self] at hp
      exact absurd hp (by simp)
    · intro e2 he2
      simp at he2

theorem C5_cmd_mst_stays_in_component_witness :
    GraphWF gTwo ∧
    ∀ e ∈ cmd_mst_edges gTwo 20,
      Reach gTwo ((graph_get_all_vertices gTwo).getD 0 []) e.1 ∧
      Reach gTwo ((graph_get_all_vertices gTwo).getD 0 []) e.2.1 :=
  ⟨by decide, C5_cmd_mst_stays_in_component (by decide) 20⟩

theorem C9_residual_workspace :
    (cmd_path gABCD ['A'] ['B'] []).1 = true ∧
    (cmd_path gABCD ['A'] ['B'] []).2.2 = [['D']] ∧
    (cmd_dfs gABCD ['Z'] [['X']]).2.2 = [['X']] := by decide

theorem C1_component_equivalence_witness :
    GraphWF gABCD ∧ graph_vertex_exists gABCD ['A'] = true ∧
    ((['C'] ∈ (bfs gABCD ['A']).2 ↔ ['C'] ∈ (cmd_dfs gABCD ['A'] []).2.1) ∧
     ((cmd_path gABCD ['A'] ['C'] []).1 = true ↔ ['C'] ∈ (bfs gABCD ['A']).2)) :=
  ⟨by decide, by decide,
    C1_component_equivalence (by decide) (by decide) [] [] ['C']⟩

end MCO2
